import Mathlib

/-!
Cross-score generation on a crossword-game board.

A shallow embedding of `cross_set/cross_set.go` (the score-only cross-set
generator: `genCrossScore`, `generateAll`, `updateForMove`) together with the
parts of the `board`, `move` and `alphabet` packages that the generator calls.

Coordinates are Go `int`s and are embedded as `Int`; a board access outside the
grid is a run-time failure in Go and is embedded as `none`.
-/

namespace Cwgame

/-! ## Letters, distribution, squares -/

/-- A MachineLetter is a small unsigned integer alphabet code. -/
abbrev MachineLetter := Nat

/-- A CrossSet is a fixed-width bit vector, one bit per letter value. -/
abbrev CrossSet := Nat

/-- Modelled from the spec: the reserved letter codes of the `alphabet` package,
whose declarations are not among the sources. One reserved value means "no
letter", one distinguished value marks a letter played through an occupied
square, one value is the generic blank, and `IsBlanked` reads the flag that
marks a blank standing in for a letter. The numeric values are left open. -/
structure LetterCodes where
  EmptySquareMarker : MachineLetter
  PlayedThroughMarker : MachineLetter
  BlankMachineLetter : MachineLetter
  IsBlanked : MachineLetter → Bool

/-- Modelled from the spec: the letter distribution (section 6), a point value and
a multiplicity for every letter. -/
structure LetterDistribution where
  PointValue : MachineLetter → Int
  Multiplicity : MachineLetter → Nat

/-- The two axes of the board (`board.HorizontalDirection`, `board.VerticalDirection`). -/
inductive BoardDirection where
  | Horizontal
  | Vertical
deriving DecidableEq, Repr

/-- A scan direction along a row: the column increment. -/
abbrev WordDirection := Int

/-- The constant `board.LeftDirection`. -/
def Left : WordDirection := -1

/-- The constant `board.RightDirection`. -/
def Right : WordDirection := 1

/-- Modelled from the spec: one board cell (section 3), a letter (or the empty
marker) and, per axis, a cross-set and an integer cross-score. -/
structure Square where
  letter : MachineLetter
  hcrossSet : CrossSet
  vcrossSet : CrossSet
  hcrossScore : Int
  vcrossScore : Int
deriving DecidableEq, Repr

/-- Modelled from the spec: a square is empty when it holds the reserved
"no letter" value. -/
def Square.IsEmpty (A : LetterCodes) (s : Square) : Bool :=
  decide (s.letter = A.EmptySquareMarker)

/-- Modelled from the spec: `Square.SetCrossScore(score, dir)` overwrites the
cross-score slot of the axis `dir`. -/
def Square.SetCrossScore (s : Square) (score : Int) (dir : BoardDirection) : Square :=
  match dir with
  | .Horizontal => { s with hcrossScore := score }
  | .Vertical => { s with vcrossScore := score }

/-- The cross-score slot of the axis `dir`. -/
def Square.GetCrossScore (s : Square) (dir : BoardDirection) : Int :=
  match dir with
  | .Horizontal => s.hcrossScore
  | .Vertical => s.vcrossScore

/-- The cross-set slot of the axis `dir`. -/
def Square.GetCrossSet (s : Square) (dir : BoardDirection) : CrossSet :=
  match dir with
  | .Horizontal => s.hcrossSet
  | .Vertical => s.vcrossSet

/-- The point value a tile contributes to a cross-score: blanks count zero. -/
def tileScore (A : LetterCodes) (ld : LetterDistribution) (ml : MachineLetter) : Int :=
  if A.IsBlanked ml then 0 else ld.PointValue ml

/-! ## The board -/

/-- Modelled from the spec: an N x N grid of squares and the `transposed` flag
(section 3). The grid is a function of the two coordinates; only the entries
with both coordinates in `[0, dim)` are squares of the board. -/
structure Board where
  dim : Nat
  squares : Int → Int → Square
  transposed : Bool

/-- The grid size N, as the Go `int` returned by `Dim()`. -/
def Board.Dim (b : Board) : Int := (b.dim : Int)

/-- Whether `(row, col)` is a square of the board. -/
def Board.posExists (b : Board) (row col : Int) : Bool :=
  decide (0 ≤ row ∧ row < b.Dim ∧ 0 ≤ col ∧ col < b.Dim)

/-- Modelled from the spec: `GetSquare(row, col)` is bounds-checked, and an
out-of-range access is a failure. -/
def Board.GetSquare (b : Board) (row col : Int) : Option Square :=
  if b.posExists row col then some (b.squares row col) else none

/-- The board with the square at `(row, col)` replaced. -/
def Board.putSquare (b : Board) (row col : Int) (s : Square) : Board :=
  { b with squares := fun r c => if r = row ∧ c = col then s else b.squares r c }

/-- The Go statement `b.GetSquare(row, col).SetCrossScore(score, dir)`: the square
is obtained (failing out of range) and its slot for `dir` is overwritten in place. -/
def Board.SetCrossScore (b : Board) (row col : Int) (score : Int)
    (dir : BoardDirection) : Option Board :=
  (b.GetSquare row col).map fun sq => b.putSquare row col (sq.SetCrossScore score dir)

/-- Modelled from the spec: `GetCrossScore(row, col, axis)`. -/
def Board.GetCrossScore (b : Board) (row col : Int) (dir : BoardDirection) : Option Int :=
  (b.GetSquare row col).map fun sq => sq.GetCrossScore dir

/-- Modelled from the spec: `GetCrossSet(row, col, axis)`. -/
def Board.GetCrossSet (b : Board) (row col : Int) (dir : BoardDirection) : Option CrossSet :=
  (b.GetSquare row col).map fun sq => sq.GetCrossSet dir

/-- Whether `(row, col)` is a square of the board that holds a letter. A
coordinate off the board is not occupied. -/
def Board.occupied (A : LetterCodes) (b : Board) (row col : Int) : Bool :=
  b.posExists row col && !(b.squares row col).IsEmpty A

/-- Modelled from the spec: `Transpose()` swaps the grid so that the roles of row
and column invert, and flips the `transposed` flag. -/
def Board.Transpose (b : Board) : Board :=
  { b with squares := fun r c => b.squares c r, transposed := !b.transposed }

/-- The scan of `WordEdge`: starting at `col`, step by `dir` while the cell is an
occupied square of the board; the result is the first column that is not. The
count bounds the number of steps and is never exhausted before the scan stops
when it is at least the number of occupied cells ahead. -/
def Board.scanWhileOccupied (A : LetterCodes) (b : Board) (row : Int) (dir : WordDirection) :
    Nat → Int → Int
  | 0, col => col
  | fuel + 1, col =>
    if b.occupied A row col then b.scanWhileOccupied A row dir fuel (col + dir) else col

/-- Modelled from the spec: `WordEdge(row, col, direction)` scans left or right
from `(row, col)` while cells are occupied and returns the column of the far edge
of the contiguous occupied run; if `(row, col)` itself is not occupied it
returns `col` unchanged (section 4.1). -/
def Board.WordEdge (A : LetterCodes) (b : Board) (row col : Int) (dir : WordDirection) : Int :=
  if b.occupied A row col then b.scanWhileOccupied A row dir b.dim col - dir else col

/-- Modelled from the spec: `LeftAndRightEmpty(row, col)` is true iff both
horizontally adjacent cells are empty or off-board. -/
def Board.LeftAndRightEmpty (A : LetterCodes) (b : Board) (row col : Int) : Bool :=
  !b.occupied A row (col - 1) && !b.occupied A row (col + 1)

/-- The walk of `TraverseBackwardsForScore`: from `col` leftwards while the cell is
an occupied square, adding the point value of each tile. -/
def Board.traverseBack (A : LetterCodes) (ld : LetterDistribution) (b : Board) (row : Int) :
    Nat → Int → Int
  | 0, _ => 0
  | fuel + 1, col =>
    if b.occupied A row col then
      tileScore A ld (b.squares row col).letter + b.traverseBack A ld row fuel (col - 1)
    else 0

/-- Modelled from the spec: `TraverseBackwardsForScore(row, col, distribution)`
walks left from `(row, col)` while occupied, summing letter point values with
blanks as zero. A row holds at most `dim` tiles, which bounds the walk. -/
def Board.TraverseBackwardsForScore (A : LetterCodes) (b : Board) (row col : Int)
    (ld : LetterDistribution) : Int :=
  b.traverseBack A ld row b.dim col

/-! ## Moves -/

/-- Modelled from the spec: a move (section 3), its anchor, orientation, tile
sequence and score. -/
structure Move where
  row : Int
  col : Int
  vertical : Bool
  tiles : List MachineLetter
  score : Int

/-- The tile sequence `m.Tiles()`. -/
def Move.Tiles (m : Move) : List MachineLetter := m.tiles

/-- The triple `m.CoordsAndVertical()`. -/
def Move.CoordsAndVertical (m : Move) : Int × Int × Bool := (m.row, m.col, m.vertical)

/-- The Go statement `squares[row][col].letter = tile`, failing out of range. -/
def Board.SetLetter (b : Board) (row col : Int) (tile : MachineLetter) : Option Board :=
  (b.GetSquare row col).map fun sq => b.putSquare row col { sq with letter := tile }

/-- The loop of `PlaceMoveTiles` over the remaining tiles, `(row, col)` being the
cell of the first of them. -/
def Board.placeTilesFrom (A : LetterCodes) (vertical : Bool) :
    List MachineLetter → Int → Int → Board → Option Board
  | [], _, _, b => some b
  | tile :: rest, row, col, b =>
    let row1 := if vertical then row + 1 else row
    let col1 := if vertical then col else col + 1
    if tile = A.PlayedThroughMarker then
      Board.placeTilesFrom A vertical rest row1 col1 b
    else
      (b.SetLetter row col tile).bind (Board.placeTilesFrom A vertical rest row1 col1)

/-- Modelled from the spec: `PlaceMoveTiles(move)` writes each non-played-through
letter of the move into its board cell along the orientation of the move, starting
at its anchor; played-through positions are left untouched. -/
def Board.PlaceMoveTiles (A : LetterCodes) (b : Board) (m : Move) : Option Board :=
  Board.placeTilesFrom A m.vertical m.Tiles m.row m.col b

/-! ## The generator (`cross_set.go`) -/

/-- The interface `iGenerator`: one method `Generate(b, row, col, dir)`. -/
abbrev iGenerator := Board → Int → Int → BoardDirection → Option Board

/-- A Go loop `for i := start; i < start + count; i++ { body }` over the board. -/
def forLoop (body : Int → Board → Option Board) : Nat → Int → Board → Option Board
  | 0, _, b => some b
  | count + 1, i, b => (body i b).bind (forLoop body count (i + 1))

/-- The function `genCrossScore` of `cross_set.go`. -/
def genCrossScore (A : LetterCodes) (b : Board) (row col : Int) (dir : BoardDirection)
    (ld : LetterDistribution) : Option Board :=
  if row < 0 ∨ row ≥ b.Dim ∨ col < 0 ∨ col ≥ b.Dim then
    some b
  else
    (b.GetSquare row col).bind fun sq =>
      if !sq.IsEmpty A then
        b.SetCrossScore row col 0 dir
      else if b.LeftAndRightEmpty A row col then
        b.SetCrossScore row col 0 dir
      else
        let rightCol := b.WordEdge A row (col + 1) Right
        if rightCol = col then
          let score := b.TraverseBackwardsForScore A row (col - 1) ld
          b.SetCrossScore row col score dir
        else
          let scoreR := b.TraverseBackwardsForScore A row rightCol ld
          let scoreL := b.TraverseBackwardsForScore A row (col - 1) ld
          b.SetCrossScore row col (scoreR + scoreL) dir

/-- The function `generateAll` of `cross_set.go`: every square for the horizontal
axis, then, on the transposed board, every square for the vertical axis, then the
transposition back. -/
def generateAll (g : iGenerator) (b : Board) : Option Board :=
  let n := b.dim
  (forLoop (fun i b1 => forLoop (fun j b2 => g b2 i j .Horizontal) n 0 b1) n 0 b).bind fun b1 =>
    let b2 := b1.Transpose
    (forLoop (fun i b3 => forLoop (fun j b4 => g b4 i j .Vertical) n 0 b3) n 0 b2).bind fun b3 =>
      some b3.Transpose

/-- The closure `calcForAcross` of `updateForMove`: for every tile the move placed,
the squares beyond both edges of the word through it along its row, and the
square of the tile itself. -/
def calcForAcross (A : LetterCodes) (g : iGenerator) (m : Move) (b : Board)
    (rowStart colStart : Int) (csd : BoardDirection) : Option Board :=
  forLoop (fun row b1 =>
    if m.Tiles.getD (row - rowStart).toNat 0 = A.PlayedThroughMarker then
      some b1
    else
      let rightCol := b1.WordEdge A row colStart Right
      let leftCol := b1.WordEdge A row colStart Left
      (g b1 row (rightCol + 1) csd).bind fun b2 =>
        (g b2 row (leftCol - 1) csd).bind fun b3 =>
          g b3 row colStart csd) m.Tiles.length rowStart b

/-- The closure `calcForSelf` of `updateForMove`: the squares of the row of the
word from the column before its first tile to the column after its last. -/
def calcForSelf (g : iGenerator) (m : Move) (b : Board)
    (rowStart colStart : Int) (csd : BoardDirection) : Option Board :=
  forLoop (fun col b1 => g b1 rowStart col csd) (m.Tiles.length + 2) (colStart - 1) b

/-- The function `updateForMove` of `cross_set.go`. -/
def updateForMove (A : LetterCodes) (g : iGenerator) (b : Board) (m : Move) : Option Board :=
  match m.CoordsAndVertical with
  | (row, col, vertical) =>
    if vertical then
      (calcForAcross A g m b row col .Horizontal).bind fun b1 =>
        let b2 := b1.Transpose
        (calcForSelf g m b2 col row .Vertical).bind fun b3 =>
          some b3.Transpose
    else
      (calcForSelf g m b row col .Horizontal).bind fun b1 =>
        let b2 := b1.Transpose
        (calcForAcross A g m b2 col row .Vertical).bind fun b3 =>
          some b3.Transpose

/-- The generator `CrossScoreOnlyGenerator{Dist}`: its `Generate` method. -/
def CrossScoreOnlyGenerator.Generate (A : LetterCodes) (ld : LetterDistribution) : iGenerator :=
  fun b row col dir => genCrossScore A b row col dir ld

/-- The method `CrossScoreOnlyGenerator.GenerateAll`. -/
def CrossScoreOnlyGenerator.GenerateAll (A : LetterCodes) (ld : LetterDistribution)
    (b : Board) : Option Board :=
  generateAll (CrossScoreOnlyGenerator.Generate A ld) b

/-- The method `CrossScoreOnlyGenerator.UpdateForMove`. -/
def CrossScoreOnlyGenerator.UpdateForMove (A : LetterCodes) (ld : LetterDistribution)
    (b : Board) (m : Move) : Option Board :=
  updateForMove A (CrossScoreOnlyGenerator.Generate A ld) b m

/-! ## Closed forms used in the proofs -/

/-- The score that `genCrossScore` stores on the in-range square `(row, col)`:
the body of the function after its range check, without the store. -/
def crossScoreValue (A : LetterCodes) (ld : LetterDistribution) (b : Board)
    (row col : Int) : Int :=
  if !(b.squares row col).IsEmpty A then 0
  else if b.LeftAndRightEmpty A row col then 0
  else
    if b.WordEdge A row (col + 1) Right = col then
      b.TraverseBackwardsForScore A row (col - 1) ld
    else
      b.TraverseBackwardsForScore A row (b.WordEdge A row (col + 1) Right) ld
        + b.TraverseBackwardsForScore A row (col - 1) ld

/-- A call `Generate(b, row, col, dir)` as data. -/
abbrev Target := Int × Int × BoardDirection

/-- The effect of one `Generate` call of the score-only generator. -/
def regen (A : LetterCodes) (ld : LetterDistribution) (b : Board) (t : Target) : Board :=
  if b.posExists t.1 t.2.1 then
    b.putSquare t.1 t.2.1
      ((b.squares t.1 t.2.1).SetCrossScore (crossScoreValue A ld b t.1 t.2.1) t.2.2)
  else b

/-- The calls issued by a loop of `count` rounds from `i`, round `k` issuing `T k`. -/
def loopTargets (T : Int → List Target) : Nat → Int → List Target
  | 0, _ => []
  | count + 1, i => T i ++ loopTargets T count (i + 1)

/-- The calls of one pass of `generateAll` over a board of size `n`. -/
def allTargets (n : Nat) (d : BoardDirection) : List Target :=
  loopTargets (fun i => loopTargets (fun j => [(i, j, d)]) n 0) n 0

/-- The calls of `calcForSelf`. -/
def selfTargets (m : Move) (rowStart colStart : Int) (csd : BoardDirection) : List Target :=
  loopTargets (fun col => [(rowStart, col, csd)]) (m.Tiles.length + 2) (colStart - 1)

/-- The calls of one round of `calcForAcross`, with the word edges read on `b`. -/
def acrossRound (A : LetterCodes) (m : Move) (b : Board) (rowStart colStart : Int)
    (csd : BoardDirection) (row : Int) : List Target :=
  if m.Tiles.getD (row - rowStart).toNat 0 = A.PlayedThroughMarker then []
  else
    [(row, b.WordEdge A row colStart Right + 1, csd),
     (row, b.WordEdge A row colStart Left - 1, csd),
     (row, colStart, csd)]

/-- The calls of `calcForAcross`, with the word edges read on `b`. -/
def acrossTargets (A : LetterCodes) (m : Move) (b : Board) (rowStart colStart : Int)
    (csd : BoardDirection) : List Target :=
  loopTargets (acrossRound A m b rowStart colStart csd) m.Tiles.length rowStart

/-- The score a full scan stores on `(r, c)` for the axis `d`: the vertical axis is
scanned on the transposed board. -/
def scanValue (A : LetterCodes) (ld : LetterDistribution) (b : Board) (r c : Int)
    (d : BoardDirection) : Int :=
  match d with
  | .Horizontal => crossScoreValue A ld b r c
  | .Vertical => crossScoreValue A ld b.Transpose c r

/-- The board after a full scan: every square of the board carries the score of
its row on the horizontal axis and the score of its column on the vertical axis. -/
def fullScan (A : LetterCodes) (ld : LetterDistribution) (b : Board) : Board :=
  { b with squares := fun r c =>
      if b.posExists r c then
        { b.squares r c with
          hcrossScore := crossScoreValue A ld b r c
          vcrossScore := crossScoreValue A ld b.Transpose c r }
      else b.squares r c }

/-- The board after `updateForMove`, as two sequences of `Generate` calls around
the transpositions. -/
def updateFold (A : LetterCodes) (ld : LetterDistribution) (b : Board) (m : Move) : Board :=
  if m.vertical then
    Board.Transpose ((selfTargets m m.col m.row .Vertical).foldl (regen A ld)
      (Board.Transpose ((acrossTargets A m b m.row m.col .Horizontal).foldl (regen A ld) b)))
  else
    Board.Transpose ((acrossTargets A m b.Transpose m.col m.row .Vertical).foldl (regen A ld)
      (Board.Transpose ((selfTargets m m.row m.col .Horizontal).foldl (regen A ld) b)))

/-- Two boards of the same size that hold the same letter on every square. -/
def SameLetters (b b1 : Board) : Prop :=
  b.dim = b1.dim ∧ ∀ r c, b.posExists r c = true →
    (b.squares r c).letter = (b1.squares r c).letter

/-! ## Worked examples -/

/-- Letter codes for the worked examples: letters are 0 (A) to 25 (Z), a blanked
letter is its code plus 100. -/
def exampleCodes : LetterCodes :=
  { EmptySquareMarker := 50
    PlayedThroughMarker := 51
    BlankMachineLetter := 52
    IsBlanked := fun ml => decide (100 ≤ ml) }

/-- A distribution for the worked examples: C is worth 3 points, every other letter 1. -/
def exampleDist : LetterDistribution :=
  { PointValue := fun ml => if ml = 2 then 3 else 1
    Multiplicity := fun _ => 1 }

/-- A square holding the letter `ml`, with cross-sets `cs` and cross-scores `sc`. -/
def exampleSquare (ml : MachineLetter) (cs : CrossSet) (sc : Int) : Square :=
  { letter := ml, hcrossSet := cs, vcrossSet := cs, hcrossScore := sc, vcrossScore := sc }

/-- The letters of a 5 x 5 board with the word CAT in row 2, columns 1 to 3. -/
def catLetters (r c : Int) : MachineLetter :=
  if r = 2 ∧ c = 1 then 2 else if r = 2 ∧ c = 2 then 0 else if r = 2 ∧ c = 3 then 19 else 50

/-- A 5 x 5 board with CAT in row 2, every cross-set 0 and every cross-score 7. -/
def catBoard : Board :=
  { dim := 5, squares := fun r c => exampleSquare (catLetters r c) 0 7, transposed := false }

/-- The same layout with every cross-set 1. -/
def catBoardOnes : Board :=
  { dim := 5, squares := fun r c => exampleSquare (catLetters r c) 1 7, transposed := false }

/-- The move CAT, horizontal from row 2, column 1. -/
def catMove : Move :=
  { row := 2, col := 1, vertical := false, tiles := [2, 0, 19], score := 5 }

/-- A 5 x 5 board whose row 1 holds C and a blanked A in columns 0 and 1, a gap in
column 2 and T in column 3; every cross-set 0 and every cross-score 7. -/
def gapBoard : Board :=
  { dim := 5
    squares := fun r c =>
      exampleSquare
        (if r = 1 ∧ c = 0 then 2 else if r = 1 ∧ c = 1 then 100
          else if r = 1 ∧ c = 3 then 19 else 50) 0 7
    transposed := false }

/-! ## The update with the starts of `WordEdge` recorded -/

/-- The two places of `cross_set.go` that call `WordEdge`: the closure
`calcForAcross` of `updateForMove`, and `genCrossScore`. -/
inductive EdgeSite where
  | across
  | generate
deriving DecidableEq, Repr

/-- A call `b.WordEdge(row, col, dir)` as data: the place of the call and its
arguments, `(row, col)` being the square the scan starts from in the orientation the
board has at the time of the call. -/
structure EdgeCall where
  site : EdgeSite
  row : Int
  col : Int
  dir : WordDirection
deriving DecidableEq, Repr

/-- A board together with the `WordEdge` calls made so far, oldest first. -/
abbrev EdgeTraced := Board × List EdgeCall

/-- The interface `iGenerator` over a board with its record of `WordEdge` calls. -/
abbrev iGeneratorEdges := EdgeTraced → Int → Int → BoardDirection → Option EdgeTraced

/-- The function `genCrossScore` with its `WordEdge` call recorded; every other step
is that of `genCrossScore`. -/
def genCrossScoreEdges (A : LetterCodes) (s : EdgeTraced) (row col : Int) (dir : BoardDirection)
    (ld : LetterDistribution) : Option EdgeTraced :=
  if row < 0 ∨ row ≥ s.1.Dim ∨ col < 0 ∨ col ≥ s.1.Dim then
    some s
  else
    (s.1.GetSquare row col).bind fun sq =>
      if !sq.IsEmpty A then
        (s.1.SetCrossScore row col 0 dir).map fun b1 => (b1, s.2)
      else if s.1.LeftAndRightEmpty A row col then
        (s.1.SetCrossScore row col 0 dir).map fun b1 => (b1, s.2)
      else
        let rightCol := s.1.WordEdge A row (col + 1) Right
        let calls := s.2 ++ [EdgeCall.mk .generate row (col + 1) Right]
        if rightCol = col then
          let score := s.1.TraverseBackwardsForScore A row (col - 1) ld
          (s.1.SetCrossScore row col score dir).map fun b1 => (b1, calls)
        else
          let scoreR := s.1.TraverseBackwardsForScore A row rightCol ld
          let scoreL := s.1.TraverseBackwardsForScore A row (col - 1) ld
          (s.1.SetCrossScore row col (scoreR + scoreL) dir).map fun b1 => (b1, calls)

/-- The method `CrossScoreOnlyGenerator.Generate` with its `WordEdge` call recorded. -/
def CrossScoreOnlyGenerator.GenerateEdges (A : LetterCodes) (ld : LetterDistribution) :
    iGeneratorEdges :=
  fun s row col dir => genCrossScoreEdges A s row col dir ld

/-- The Go loop `for i := start; i < start + count; i++ { body }` over a board with
its record of `WordEdge` calls. -/
def forLoopEdges (body : Int → EdgeTraced → Option EdgeTraced) :
    Nat → Int → EdgeTraced → Option EdgeTraced
  | 0, _, s => some s
  | count + 1, i, s => (body i s).bind (forLoopEdges body count (i + 1))

/-- The closure `calcForAcross` with its two `WordEdge` calls recorded, the call to
the right first. -/
def calcForAcrossEdges (A : LetterCodes) (g : iGeneratorEdges) (m : Move) (s : EdgeTraced)
    (rowStart colStart : Int) (csd : BoardDirection) : Option EdgeTraced :=
  forLoopEdges (fun row s1 =>
    if m.Tiles.getD (row - rowStart).toNat 0 = A.PlayedThroughMarker then
      some s1
    else
      let rightCol := s1.1.WordEdge A row colStart Right
      let leftCol := s1.1.WordEdge A row colStart Left
      let s2 : EdgeTraced :=
        (s1.1, s1.2 ++ [EdgeCall.mk .across row colStart Right,
          EdgeCall.mk .across row colStart Left])
      (g s2 row (rightCol + 1) csd).bind fun s3 =>
        (g s3 row (leftCol - 1) csd).bind fun s4 =>
          g s4 row colStart csd) m.Tiles.length rowStart s

/-- The closure `calcForSelf` over a board with its record of `WordEdge` calls. -/
def calcForSelfEdges (g : iGeneratorEdges) (m : Move) (s : EdgeTraced)
    (rowStart colStart : Int) (csd : BoardDirection) : Option EdgeTraced :=
  forLoopEdges (fun col s1 => g s1 rowStart col csd) (m.Tiles.length + 2) (colStart - 1) s

/-- The function `updateForMove` with every `WordEdge` call recorded, those of
`calcForAcross` and those made inside `Generate`, in the order of the calls and with
the arguments of the calls (a call made between the two transpositions addresses the
transposed board). -/
def updateForMoveEdges (A : LetterCodes) (g : iGeneratorEdges) (b : Board) (m : Move) :
    Option EdgeTraced :=
  match m.CoordsAndVertical with
  | (row, col, vertical) =>
    if vertical then
      (calcForAcrossEdges A g m (b, []) row col .Horizontal).bind fun s1 =>
        let s2 : EdgeTraced := (s1.1.Transpose, s1.2)
        (calcForSelfEdges g m s2 col row .Vertical).bind fun s3 =>
          some (s3.1.Transpose, s3.2)
    else
      (calcForSelfEdges g m (b, []) row col .Horizontal).bind fun s1 =>
        let s2 : EdgeTraced := (s1.1.Transpose, s1.2)
        (calcForAcrossEdges A g m s2 col row .Vertical).bind fun s3 =>
          some (s3.1.Transpose, s3.2)

/-- Where a recorded `WordEdge` call starts on a board of size `N`: its row lies in
`[0, N)`; a call of `calcForAcross` starts at a column in `[0, N)`, on the board; a
call of `genCrossScore` starts at a column in `[1, N]`, one to the right of a square
of the board. -/
def EdgeCall.StartWithin (b : Board) (c : EdgeCall) : Prop :=
  0 ≤ c.row ∧ c.row < b.Dim ∧
    (c.site = .across → 0 ≤ c.col ∧ c.col < b.Dim) ∧
    (c.site = .generate → 1 ≤ c.col ∧ c.col ≤ b.Dim)

/-- The square of the tile of index `i` of a move. -/
def Move.tileCell (m : Move) (i : Nat) : Int × Int :=
  if m.vertical then (m.row + (i : Int), m.col) else (m.row, m.col + (i : Int))

/-- Every tile of the move, played-through or placed, lies on the board. -/
def Move.OnBoard (m : Move) (b : Board) : Prop :=
  ∀ i : Nat, i < m.Tiles.length → b.posExists (m.tileCell i).1 (m.tileCell i).2 = true

instance (m : Move) (b : Board) : Decidable (m.OnBoard b) := by
  unfold Move.OnBoard; infer_instance

/-- The move CAT placed vertically in the last column of a 5 x 5 board, rows 2 to 4. -/
def edgeMove : Move :=
  { row := 2, col := 4, vertical := true, tiles := [2, 0, 19], score := 5 }

/-! ## Well-formed moves -/

/-- The square of the tile of index `i` of a word that starts at `(row, col)`. -/
def cellOf (vertical : Bool) (row col : Int) (i : Nat) : Int × Int :=
  if vertical then (row + (i : Int), col) else (row, col + (i : Int))

/-- The square just before the first tile of the word of a move. -/
def Move.cellBefore (m : Move) : Int × Int :=
  if m.vertical then (m.row - 1, m.col) else (m.row, m.col - 1)

/-- The square just after the last tile of the word of a move. -/
def Move.cellAfter (m : Move) : Int × Int :=
  m.tileCell m.Tiles.length

/-- A well-formed move on a board: every tile lies on the board, the played-through
markers sit exactly on the squares that are already occupied, and the squares just
before and just after the word are empty or off-board. -/
def Move.WellFormed (A : LetterCodes) (m : Move) (b : Board) : Prop :=
  m.OnBoard b ∧
  (∀ i : Nat, i < m.Tiles.length →
    (m.Tiles.getD i 0 = A.PlayedThroughMarker ↔
      b.occupied A (m.tileCell i).1 (m.tileCell i).2 = true)) ∧
  b.occupied A m.cellBefore.1 m.cellBefore.2 = false ∧
  b.occupied A m.cellAfter.1 m.cellAfter.2 = false

instance (A : LetterCodes) (m : Move) (b : Board) : Decidable (m.WellFormed A b) := by
  unfold Move.WellFormed; infer_instance

/-- The board `X1` is the board `X0` with the tiles `ts` that are not played-through
written on the squares `cell i`. -/
def PlacedOn (A : LetterCodes) (ts : List MachineLetter) (cell : Nat → Int × Int)
    (X0 X1 : Board) : Prop :=
  X0.dim = X1.dim ∧
  (∀ i : Nat, i < ts.length → ts.getD i 0 ≠ A.PlayedThroughMarker →
    (X1.squares (cell i).1 (cell i).2).letter = ts.getD i 0) ∧
  (∀ r c, (∀ i : Nat, i < ts.length → ts.getD i 0 ≠ A.PlayedThroughMarker → cell i ≠ (r, c)) →
    (X1.squares r c).letter = (X0.squares r c).letter)

/-- The move EAR, vertical from row 1, column 2, played through the A of CAT. -/
def earMove : Move :=
  { row := 1, col := 2, vertical := true, tiles := [4, 51, 17], score := 3 }

/-- The CAT layout on a fresh board: every cross-set 3 and every cross-score 0. -/
def catBoardFresh : Board :=
  { dim := 5, squares := fun r c => exampleSquare (catLetters r c) 3 0, transposed := false }

/-! ## The update with its `Generate` calls recorded -/

/-- A board together with the `Generate` calls made so far, oldest first. -/
abbrev Traced := Board × List Target

/-- A call `g.Generate(b, row, col, dir)` that is also appended to the record. -/
def tracedGenerate (g : iGenerator) (s : Traced) (row col : Int) (dir : BoardDirection) :
    Option Traced :=
  (g s.1 row col dir).map fun b => (b, s.2 ++ [(row, col, dir)])

/-- The Go loop `for i := start; i < start + count; i++ { body }` over a traced board. -/
def forLoopTraced (body : Int → Traced → Option Traced) : Nat → Int → Traced → Option Traced
  | 0, _, s => some s
  | count + 1, i, s => (body i s).bind (forLoopTraced body count (i + 1))

/-- The closure `calcForAcross` with every `Generate` call recorded. -/
def calcForAcrossTraced (A : LetterCodes) (g : iGenerator) (m : Move) (s : Traced)
    (rowStart colStart : Int) (csd : BoardDirection) : Option Traced :=
  forLoopTraced (fun row s1 =>
    if m.Tiles.getD (row - rowStart).toNat 0 = A.PlayedThroughMarker then
      some s1
    else
      let rightCol := s1.1.WordEdge A row colStart Right
      let leftCol := s1.1.WordEdge A row colStart Left
      (tracedGenerate g s1 row (rightCol + 1) csd).bind fun s2 =>
        (tracedGenerate g s2 row (leftCol - 1) csd).bind fun s3 =>
          tracedGenerate g s3 row colStart csd) m.Tiles.length rowStart s

/-- The closure `calcForSelf` with every `Generate` call recorded. -/
def calcForSelfTraced (g : iGenerator) (m : Move) (s : Traced)
    (rowStart colStart : Int) (csd : BoardDirection) : Option Traced :=
  forLoopTraced (fun col s1 => tracedGenerate g s1 rowStart col csd)
    (m.Tiles.length + 2) (colStart - 1) s

/-- The function `updateForMove` with every `Generate` call recorded, in the order of
the calls and with the arguments of the calls (a call made between the two
transpositions addresses the transposed board). -/
def updateForMoveTraced (A : LetterCodes) (g : iGenerator) (b : Board) (m : Move) :
    Option Traced :=
  match m.CoordsAndVertical with
  | (row, col, vertical) =>
    if vertical then
      (calcForAcrossTraced A g m (b, []) row col .Horizontal).bind fun s1 =>
        let s2 : Traced := (s1.1.Transpose, s1.2)
        (calcForSelfTraced g m s2 col row .Vertical).bind fun s3 =>
          some (s3.1.Transpose, s3.2)
    else
      (calcForSelfTraced g m (b, []) row col .Horizontal).bind fun s1 =>
        let s2 : Traced := (s1.1.Transpose, s1.2)
        (calcForAcrossTraced A g m s2 col row .Vertical).bind fun s3 =>
          some (s3.1.Transpose, s3.2)

/-- The `Generate` calls of `updateForMove` on the board `b`, in order. -/
def updateCalls (A : LetterCodes) (b : Board) (m : Move) : List Target :=
  if m.vertical then
    acrossTargets A m b m.row m.col .Horizontal ++ selfTargets m m.col m.row .Vertical
  else
    selfTargets m m.row m.col .Horizontal ++ acrossTargets A m b.Transpose m.col m.row .Vertical

/-- The move that plays through the three tiles of CAT and places nothing. -/
def throughMove : Move :=
  { row := 2, col := 1, vertical := false, tiles := [51, 51, 51], score := 5 }

/-- An empty 15 x 15 board with every cross-set 0 and every cross-score 7. -/
def emptyBoard15 : Board :=
  { dim := 15, squares := fun _ _ => exampleSquare 50 0 7, transposed := false }

/-- The move CAT, horizontal from row 8, column 8. -/
def catMove88 : Move :=
  { row := 8, col := 8, vertical := false, tiles := [2, 0, 19], score := 5 }

/-! ## The tile bag (`alphabet/bag.go`) -/

/-- A Go map `map[MachineLetter]uint8`, read with the zero value for an absent key. -/
abbrev TileMap := MachineLetter → Nat

/-- The statement `m[ml]++` on a `uint8` value. -/
def TileMap.incr (tm : TileMap) (ml : MachineLetter) : TileMap :=
  fun k => if k = ml then (tm ml + 1) % 256 else tm k

/-- The statement `m[ml]--` on a `uint8` value. -/
def TileMap.decr (tm : TileMap) (ml : MachineLetter) : TileMap :=
  fun k => if k = ml then (tm ml + 255) % 256 else tm k

/-- The function `copyTileMap`: a new map with the value of every key of `orig`. -/
def copyTileMap (orig : TileMap) : TileMap :=
  fun k => orig k

/-- The random source `*rand.Rand` of the library `math/rand`. The library is taken as
a parameter: `swapCalls state n` is the sequence of index pairs on which
`Shuffle(n, swap)` calls `swap` when the source is in the state `state`; a call of
`Shuffle` advances the state. -/
structure RandSource where
  state : Nat
  swapCalls : Nat → Nat → List (Nat × Nat)

/-- The bag of tiles. -/
structure Bag where
  initialTiles : List MachineLetter
  tiles : List MachineLetter
  initialTileMap : TileMap
  tileMap : TileMap
  letterDistribution : LetterDistribution
  randSource : RandSource

/-- The errors that the bag returns. -/
inductive BagError where
  | notEnoughTiles (wanted inBag : Nat)
  | tilesNotInBag
  | moreTilesThanInitial
deriving DecidableEq, Repr

/-- The closure passed to `Shuffle`, `b.tiles[i], b.tiles[j] = b.tiles[j], b.tiles[i]`.
The library calls it with indices below the length only; any other pair is ignored. -/
def swapTiles (tiles : List MachineLetter) (ij : Nat × Nat) : List MachineLetter :=
  if ij.1 < tiles.length ∧ ij.2 < tiles.length then
    (tiles.set ij.1 (tiles.getD ij.2 0)).set ij.2 (tiles.getD ij.1 0)
  else tiles

/-- The method `Shuffle`. -/
def Bag.Shuffle (b : Bag) : Bag :=
  { b with
    tiles := (b.randSource.swapCalls b.randSource.state b.tiles.length).foldl swapTiles b.tiles
    randSource := { b.randSource with state := b.randSource.state + 1 } }

/-- The method `Refill`. -/
def Bag.Refill (b : Bag) : Bag :=
  Bag.Shuffle { b with tiles := [] ++ b.initialTiles, tileMap := copyTileMap b.initialTileMap }

/-- The method `Draw`, for `n >= 0`: the result and the bag after the call. -/
def Bag.Draw (b : Bag) (n : Nat) : Except BagError (List MachineLetter) × Bag :=
  if n > b.tiles.length then
    (.error (.notEnoughTiles n b.tiles.length), b)
  else
    let drawn := b.tiles.take n
    (.ok drawn, { b with tileMap := drawn.foldl TileMap.decr b.tileMap, tiles := b.tiles.drop n })

/-- The method `DrawAtMost`, for `n >= 0`: the tiles drawn and the bag after the call. -/
def Bag.DrawAtMost (b : Bag) (n : Nat) : List MachineLetter × Bag :=
  let n1 := if n > b.tiles.length then b.tiles.length else n
  match b.Draw n1 with
  | (.ok drawn, b1) => (drawn, b1)
  | (.error _, b1) => ([], b1)

/-- The method `Peek`. -/
def Bag.Peek (b : Bag) : List MachineLetter := b.tiles

/-- The method `PutBack`. -/
def Bag.PutBack (b : Bag) (letters : List MachineLetter) : Bag :=
  if letters.length = 0 then b
  else
    Bag.Shuffle { b with
      tiles := b.tiles ++ letters
      tileMap := letters.foldl TileMap.incr b.tileMap }

/-- The method `Exchange`: the result and the bag after the call. -/
def Bag.Exchange (b : Bag) (letters : List MachineLetter) :
    Except BagError (List MachineLetter) × Bag :=
  match b.Draw letters.length with
  | (.error err, b1) => (.error err, b1)
  | (.ok newTiles, b1) => (.ok newTiles, b1.PutBack letters)

/-- The bucket a letter is counted in: a blanked letter counts as the generic blank. -/
def blankBucket (A : LetterCodes) (ml : MachineLetter) : MachineLetter :=
  if A.IsBlanked ml then A.BlankMachineLetter else ml

/-- The map `submap` that `hasRack` builds from the rack. -/
def rackSubmap (A : LetterCodes) (letters : List MachineLetter) : TileMap :=
  letters.foldl (fun sm ml =>
    if A.IsBlanked ml then TileMap.incr sm A.BlankMachineLetter else TileMap.incr sm ml)
    (fun _ => 0)

/-- The method `hasRack`. The keys of `submap` are the buckets of the letters of the
rack, each visited once. -/
def Bag.hasRack (A : LetterCodes) (b : Bag) (letters : List MachineLetter) : Bool :=
  let submap := rackSubmap A letters
  (letters.map (blankBucket A)).dedup.all fun ml => !decide (b.tileMap ml < submap ml)

/-- The method `TilesRemaining`. -/
def Bag.TilesRemaining (b : Bag) : Nat := b.tiles.length

/-- The method `remove`; `log.Fatal` ends the process, which is `none`. -/
def Bag.remove (b : Bag) (t : MachineLetter) : Option Bag :=
  if b.tileMap t = 0 then none
  else some { b with tileMap := TileMap.decr b.tileMap t }

/-- The method `rebuildTileSlice`. The list `order` is the order in which `range`
visits the keys of `tileMap`. A negative length for `make` and a write past the end
of the new slice are run-time failures, which are `none`; the cells of the new slice
that are not written keep the zero value. -/
def Bag.rebuildTileSlice (order : List MachineLetter) (b : Bag) (numTilesInBag : Int) :
    Option (Except BagError Unit × Bag) :=
  if numTilesInBag > (b.initialTiles.length : Int) then
    some (.error .moreTilesThanInitial, b)
  else if numTilesInBag < 0 then none
  else
    let written := order.flatMap fun l => List.replicate (b.tileMap l) l
    if written.length > numTilesInBag.toNat then none
    else
      some (.ok (), Bag.Shuffle { b with
        tiles := written ++ List.replicate (numTilesInBag.toNat - written.length) 0 })

/-- The method `Redraw`. -/
def Bag.Redraw (b : Bag) (currentRack : List MachineLetter) : List MachineLetter × Bag :=
  (b.PutBack currentRack).DrawAtMost 7

/-- The loop of `RemoveTiles` over the remaining tiles. -/
def Bag.removeEach (A : LetterCodes) : List MachineLetter → Bag → Option Bag
  | [], b => some b
  | t :: rest, b =>
    (if A.IsBlanked t then b.remove A.BlankMachineLetter else b.remove t).bind
      (Bag.removeEach A rest)

/-- The method `RemoveTiles`; `order` is the order in which `rebuildTileSlice` visits
the keys of `tileMap`. -/
def Bag.RemoveTiles (A : LetterCodes) (order : List MachineLetter) (b : Bag)
    (tiles : List MachineLetter) : Option (Except BagError Unit × Bag) :=
  if !b.hasRack A tiles then
    some (.error .tilesNotInBag, b)
  else
    (Bag.removeEach A tiles b).bind fun b1 =>
      b1.rebuildTileSlice order ((b1.tiles.length : Int) - (tiles.length : Int))

/-- The function `NewBag`. The fields `numLetters` and `Distribution` of the letter
distribution are not among the sources: `numLetters` is a parameter, `order` lists the
letters `alph.Val(rn)` of the keys of `Distribution` in the order `range` visits them,
and the count of a letter is its multiplicity as a `uint8`. A write past the end of
the slice is a run-time failure, which is `none`. -/
def NewBag (ld : LetterDistribution) (numLetters : Nat) (order : List MachineLetter)
    (randSource : RandSource) : Option Bag :=
  let written := order.flatMap fun val => List.replicate (ld.Multiplicity val % 256) val
  let tileMap : TileMap :=
    order.foldl (fun tm val => fun k => if k = val then ld.Multiplicity val % 256 else tm k)
      (fun _ => 0)
  if written.length > numLetters then none
  else
    let tiles := written ++ List.replicate (numLetters - written.length) 0
    some
      { tiles := tiles
        tileMap := tileMap
        initialTiles := [] ++ tiles
        initialTileMap := copyTileMap tileMap
        letterDistribution := ld
        randSource := randSource }

/-! ## Sequences of bag calls -/

/-- A call of `Draw`, `PutBack` or `Exchange` by a caller. -/
inductive BagCall where
  | draw (n : Nat)
  | putBack (letters : List MachineLetter)
  | exchange (letters : List MachineLetter)

/-- One successful call by a caller who holds `held` tiles, keeps every tile drawn
and gives up every tile put back or exchanged; `none` when the call returns an error. -/
def BagCall.run (c : BagCall) (s : Bag × Int) : Option (Bag × Int) :=
  match c with
  | .draw n =>
    match s.1.Draw n with
    | (.ok drawn, b1) => some (b1, s.2 + (drawn.length : Int))
    | (.error _, _) => none
  | .putBack letters => some (s.1.PutBack letters, s.2 - (letters.length : Int))
  | .exchange letters =>
    match s.1.Exchange letters with
    | (.ok newTiles, b1) => some (b1, s.2 - (letters.length : Int) + (newTiles.length : Int))
    | (.error _, _) => none

/-- A sequence of successful calls, from the first to the last. -/
def runCalls : List BagCall → Bag × Int → Option (Bag × Int)
  | [], s => some s
  | c :: rest, s => (c.run s).bind (runCalls rest)

/-- A call of a method that changes the bag. -/
inductive BagOp where
  | draw (n : Nat)
  | drawAtMost (n : Nat)
  | putBack (letters : List MachineLetter)
  | exchange (letters : List MachineLetter)
  | removeTiles (order tiles : List MachineLetter)
  | refill

/-- The bag after one call, whatever the call returns; `none` when the process ends. -/
def BagOp.apply (A : LetterCodes) (op : BagOp) (b : Bag) : Option Bag :=
  match op with
  | .draw n => some (b.Draw n).2
  | .drawAtMost n => some (b.DrawAtMost n).2
  | .putBack letters => some (b.PutBack letters)
  | .exchange letters => some (b.Exchange letters).2
  | .removeTiles order tiles => (b.RemoveTiles A order tiles).map Prod.snd
  | .refill => some b.Refill

/-- The bag after a sequence of calls. -/
def runOps (A : LetterCodes) : List BagOp → Bag → Option Bag
  | [], b => some b
  | op :: rest, b => (op.apply A b).bind (runOps A rest)

/-- The per-letter counts of the bag agree with its tile sequence (and are `uint8`
values). -/
def Bag.CountsAgree (b : Bag) : Prop :=
  ∀ ml, b.tileMap ml = b.tiles.count ml ∧ b.tileMap ml < 256

/-- The list `order` visits every key of the map once: it has no repetition and holds
every letter whose count is not zero. -/
def KeyOrder (tm : TileMap) (order : List MachineLetter) : Prop :=
  order.Nodup ∧ ∀ ml, tm ml ≠ 0 → ml ∈ order

/-- The rack is in the bag in its entirety: after replacing every blanked letter by
the generic blank, each letter occurs in the rack at most as many times as the count
of the bag for that letter. -/
def Bag.Contains (A : LetterCodes) (b : Bag) (letters : List MachineLetter) : Prop :=
  ∀ ml, (letters.map (blankBucket A)).count ml ≤ b.tileMap ml

/-- A random source whose `Shuffle` swaps the first and the last tile. -/
def exampleRand : RandSource :=
  { state := 0, swapCalls := fun _ n => [(0, n - 1)] }

/-- A bag with the tiles A, A, B, C, the same tiles as initial tiles, and counts that
agree with them. -/
def exampleBag : Bag :=
  { initialTiles := [0, 0, 1, 2]
    tiles := [0, 0, 1, 2]
    initialTileMap := fun ml => List.count ml [0, 0, 1, 2]
    tileMap := fun ml => List.count ml [0, 0, 1, 2]
    letterDistribution := exampleDist
    randSource := exampleRand }

/-- A bag created with the single tile A, after two tiles B were put back into it. -/
def oversizedBag : Bag :=
  Bag.PutBack
    { initialTiles := [0]
      tiles := [0]
      initialTileMap := fun ml => List.count ml [0]
      tileMap := fun ml => List.count ml [0]
      letterDistribution := exampleDist
      randSource := exampleRand } [1, 1]

/-- A rack of 256 tiles A. -/
def hugeRack : List MachineLetter := List.replicate 256 0

/-- The bag `b1` has the initial tiles and the initial counts of the bag `b`. -/
def SameInitial (b b1 : Bag) : Prop :=
  b1.initialTiles = b.initialTiles ∧ b1.initialTileMap = b.initialTileMap

/-! ## Copying a bag -/

/-- The method `Copy`; a nil `randSource` is `none`. The initial tiles and the
initial counts are shared with the original. -/
def Bag.Copy (b : Bag) (randSource : Option RandSource) : Bag :=
  { tiles := [] ++ b.tiles
    tileMap := fun k => b.tileMap k
    initialTiles := b.initialTiles
    initialTileMap := b.initialTileMap
    letterDistribution := b.letterDistribution
    randSource :=
      match randSource with
      | none => b.randSource
      | some r => r }

/-- The method `CopyFrom`: the bag `b` after `b.CopyFrom(other)`. -/
def Bag.CopyFrom (b other : Bag) : Bag :=
  if other.tiles.length = 0 then
    { b with tiles := [], tileMap := fun _ => 0 }
  else
    { b with
      tiles := [] ++ other.tiles
      tileMap := copyTileMap other.tileMap
      randSource := other.randSource }

/-- A bag without tiles whose counts are all zero. -/
def emptiedBag : Bag :=
  { initialTiles := [0, 0, 1, 2]
    tiles := []
    initialTileMap := fun ml => List.count ml [0, 0, 1, 2]
    tileMap := fun _ => 0
    letterDistribution := exampleDist
    randSource := exampleRand }

/-- The bag reached from a new bag with the single tile A by `PutBack` of B, B, then
`RemoveTiles` of one B (which returns the error of `rebuildTileSlice`), then `Draw(3)`:
it holds no tiles. -/
def driftedBag : Bag :=
  match oversizedBag.RemoveTiles exampleCodes [0, 1] [1] with
  | some (_, b1) => (b1.Draw 3).2
  | none => oversizedBag

/-! ## Basic facts about squares and boards -/

theorem posExists_iff (b : Board) (r c : Int) :
    b.posExists r c = true ↔ 0 ≤ r ∧ r < (b.dim : Int) ∧ 0 ≤ c ∧ c < (b.dim : Int) := by
  simp [Board.posExists, Board.Dim]

theorem posExists_transpose (b : Board) (r c : Int) :
    b.Transpose.posExists r c = b.posExists c r := by
  simp only [Board.posExists, Board.Dim, Board.Transpose]
  apply decide_eq_decide.mpr
  constructor <;> (intro h; omega)

theorem transpose_transpose (b : Board) : b.Transpose.Transpose = b := by
  cases b
  simp [Board.Transpose]

theorem sameLetters_refl (b : Board) : SameLetters b b :=
  ⟨rfl, fun _ _ _ => rfl⟩

theorem sameLetters_symm {b b1 : Board} (h : SameLetters b b1) : SameLetters b1 b := by
  refine ⟨h.1.symm, fun r c hp => ?_⟩
  have hp1 : b.posExists r c = true := by
    simpa [Board.posExists, Board.Dim, h.1] using hp
  exact (h.2 r c hp1).symm

theorem sameLetters_trans {b b1 b2 : Board} (h : SameLetters b b1) (h1 : SameLetters b1 b2) :
    SameLetters b b2 := by
  refine ⟨h.1.trans h1.1, fun r c hp => ?_⟩
  have hp1 : b1.posExists r c = true := by
    simpa [Board.posExists, Board.Dim, h.1] using hp
  exact (h.2 r c hp).trans (h1.2 r c hp1)

theorem sameLetters_transpose {b b1 : Board} (h : SameLetters b b1) :
    SameLetters b.Transpose b1.Transpose := by
  refine ⟨h.1, fun r c hp => ?_⟩
  rw [posExists_transpose] at hp
  exact h.2 c r hp

theorem posExists_congr {b b1 : Board} (h : SameLetters b b1) (r c : Int) :
    b.posExists r c = b1.posExists r c := by
  simp [Board.posExists, Board.Dim, h.1]

theorem occupied_congr (A : LetterCodes) {b b1 : Board} (h : SameLetters b b1) (r c : Int) :
    b.occupied A r c = b1.occupied A r c := by
  unfold Board.occupied
  rw [← posExists_congr h]
  cases hp : b.posExists r c
  · simp
  · simp [Square.IsEmpty, h.2 r c hp]

theorem scanWhileOccupied_congr (A : LetterCodes) {b b1 : Board} (h : SameLetters b b1)
    (row : Int) (dir : WordDirection) (fuel : Nat) (col : Int) :
    b.scanWhileOccupied A row dir fuel col = b1.scanWhileOccupied A row dir fuel col := by
  induction fuel generalizing col with
  | zero => rfl
  | succ n ih => simp only [Board.scanWhileOccupied, occupied_congr A h, ih]

theorem wordEdge_congr (A : LetterCodes) {b b1 : Board} (h : SameLetters b b1)
    (row col : Int) (dir : WordDirection) :
    b.WordEdge A row col dir = b1.WordEdge A row col dir := by
  simp only [Board.WordEdge, occupied_congr A h, scanWhileOccupied_congr A h, h.1]

theorem leftAndRightEmpty_congr (A : LetterCodes) {b b1 : Board} (h : SameLetters b b1)
    (row col : Int) : b.LeftAndRightEmpty A row col = b1.LeftAndRightEmpty A row col := by
  simp only [Board.LeftAndRightEmpty, occupied_congr A h]

theorem traverseBack_congr (A : LetterCodes) (ld : LetterDistribution) {b b1 : Board}
    (h : SameLetters b b1) (row : Int) (fuel : Nat) (col : Int) :
    b.traverseBack A ld row fuel col = b1.traverseBack A ld row fuel col := by
  induction fuel generalizing col with
  | zero => rfl
  | succ n ih =>
    simp only [Board.traverseBack, ← occupied_congr A h, ih]
    split
    · rename_i ho
      have hp : b.posExists row col = true := by
        simp only [Board.occupied, Bool.and_eq_true] at ho
        exact ho.1
      rw [h.2 row col hp]
    · rfl

theorem traverseBackwardsForScore_congr (A : LetterCodes) (ld : LetterDistribution)
    {b b1 : Board} (h : SameLetters b b1) (row col : Int) :
    b.TraverseBackwardsForScore A row col ld = b1.TraverseBackwardsForScore A row col ld := by
  simp only [Board.TraverseBackwardsForScore, traverseBack_congr A ld h, h.1]

theorem crossScoreValue_congr (A : LetterCodes) (ld : LetterDistribution) {b b1 : Board}
    (h : SameLetters b b1) (row col : Int) (hp : b.posExists row col = true) :
    crossScoreValue A ld b row col = crossScoreValue A ld b1 row col := by
  simp only [crossScoreValue, Square.IsEmpty, h.2 row col hp, leftAndRightEmpty_congr A h,
    wordEdge_congr A h, traverseBackwardsForScore_congr A ld h]

/-! ## One call of `Generate` -/

theorem genCrossScore_eq (A : LetterCodes) (ld : LetterDistribution) (b : Board)
    (row col : Int) (dir : BoardDirection) :
    genCrossScore A b row col dir ld = some (regen A ld b (row, col, dir)) := by
  unfold genCrossScore regen
  by_cases hp : b.posExists row col = true
  · have hr := (posExists_iff b row col).mp hp
    have hguard : ¬ (row < 0 ∨ row ≥ b.Dim ∨ col < 0 ∨ col ≥ b.Dim) := by
      simp only [Board.Dim]; omega
    simp only [hguard, if_false, Board.GetSquare, hp, if_true, Option.some_bind,
      Board.SetCrossScore, Option.map_some', crossScoreValue]
    split
    · rfl
    · split
      · rfl
      · split <;> rfl
  · have hguard : row < 0 ∨ row ≥ b.Dim ∨ col < 0 ∨ col ≥ b.Dim := by
      have := (posExists_iff b row col).not.mp hp
      simp only [Board.Dim]; omega
    simp [hguard, hp]

theorem generate_eq (A : LetterCodes) (ld : LetterDistribution) (b : Board)
    (row col : Int) (dir : BoardDirection) :
    CrossScoreOnlyGenerator.Generate A ld b row col dir = some (regen A ld b (row, col, dir)) :=
  genCrossScore_eq A ld b row col dir

theorem regen_dim (A : LetterCodes) (ld : LetterDistribution) (b : Board) (t : Target) :
    (regen A ld b t).dim = b.dim := by
  unfold regen; split <;> rfl

theorem regen_transposed (A : LetterCodes) (ld : LetterDistribution) (b : Board) (t : Target) :
    (regen A ld b t).transposed = b.transposed := by
  unfold regen; split <;> rfl

theorem regen_squares (A : LetterCodes) (ld : LetterDistribution) (b : Board) (t : Target)
    (r c : Int) :
    (regen A ld b t).squares r c =
      if b.posExists r c = true ∧ r = t.1 ∧ c = t.2.1 then
        (b.squares r c).SetCrossScore (crossScoreValue A ld b r c) t.2.2
      else b.squares r c := by
  unfold regen
  by_cases hp : b.posExists t.1 t.2.1 = true
  · simp only [hp, if_true, Board.putSquare]
    by_cases h : r = t.1 ∧ c = t.2.1
    · obtain ⟨h1, h2⟩ := h
      subst h1 h2
      simp [hp]
    · have h2 : ¬ (b.posExists r c = true ∧ r = t.1 ∧ c = t.2.1) := fun hh => h hh.2
      rw [if_neg h, if_neg h2]
  · have h2 : ¬ (b.posExists r c = true ∧ r = t.1 ∧ c = t.2.1) := by
      rintro ⟨h1, h2, h3⟩
      subst h2 h3
      exact hp h1
    rw [if_neg hp, if_neg h2]

theorem setCrossScore_letter (s : Square) (v : Int) (d : BoardDirection) :
    (s.SetCrossScore v d).letter = s.letter := by
  cases d <;> rfl

theorem setCrossScore_hcrossSet (s : Square) (v : Int) (d : BoardDirection) :
    (s.SetCrossScore v d).hcrossSet = s.hcrossSet := by
  cases d <;> rfl

theorem setCrossScore_vcrossSet (s : Square) (v : Int) (d : BoardDirection) :
    (s.SetCrossScore v d).vcrossSet = s.vcrossSet := by
  cases d <;> rfl

theorem getCrossScore_setCrossScore (s : Square) (v : Int) (d e : BoardDirection) :
    (s.SetCrossScore v d).GetCrossScore e = if e = d then v else s.GetCrossScore e := by
  cases d <;> cases e <;> simp [Square.SetCrossScore, Square.GetCrossScore]

theorem square_ext {s t : Square} (h1 : s.letter = t.letter) (h2 : s.hcrossSet = t.hcrossSet)
    (h3 : s.vcrossSet = t.vcrossSet)
    (h4 : ∀ d, s.GetCrossScore d = t.GetCrossScore d) : s = t := by
  cases s; cases t
  have hh := h4 .Horizontal
  have hv := h4 .Vertical
  simp only [Square.GetCrossScore] at hh hv
  simp only [Square.mk.injEq]
  exact ⟨h1, h2, h3, hh, hv⟩

theorem regen_letter (A : LetterCodes) (ld : LetterDistribution) (b : Board) (t : Target)
    (r c : Int) : ((regen A ld b t).squares r c).letter = (b.squares r c).letter := by
  rw [regen_squares]; split <;> simp [setCrossScore_letter]

theorem regen_hcrossSet (A : LetterCodes) (ld : LetterDistribution) (b : Board) (t : Target)
    (r c : Int) : ((regen A ld b t).squares r c).hcrossSet = (b.squares r c).hcrossSet := by
  rw [regen_squares]; split <;> simp [setCrossScore_hcrossSet]

theorem regen_vcrossSet (A : LetterCodes) (ld : LetterDistribution) (b : Board) (t : Target)
    (r c : Int) : ((regen A ld b t).squares r c).vcrossSet = (b.squares r c).vcrossSet := by
  rw [regen_squares]; split <;> simp [setCrossScore_vcrossSet]

theorem regen_sameLetters (A : LetterCodes) (ld : LetterDistribution) (b : Board) (t : Target) :
    SameLetters b (regen A ld b t) :=
  ⟨(regen_dim A ld b t).symm, fun r c _ => (regen_letter A ld b t r c).symm⟩

/-! ## A sequence of `Generate` calls -/

theorem foldl_regen_dim (A : LetterCodes) (ld : LetterDistribution) (ts : List Target)
    (b : Board) : (ts.foldl (regen A ld) b).dim = b.dim := by
  induction ts generalizing b with
  | nil => rfl
  | cons t ts ih => rw [List.foldl_cons, ih, regen_dim]

theorem foldl_regen_transposed (A : LetterCodes) (ld : LetterDistribution) (ts : List Target)
    (b : Board) : (ts.foldl (regen A ld) b).transposed = b.transposed := by
  induction ts generalizing b with
  | nil => rfl
  | cons t ts ih => rw [List.foldl_cons, ih, regen_transposed]

theorem foldl_regen_letter (A : LetterCodes) (ld : LetterDistribution) (ts : List Target)
    (b : Board) (r c : Int) :
    ((ts.foldl (regen A ld) b).squares r c).letter = (b.squares r c).letter := by
  induction ts generalizing b with
  | nil => rfl
  | cons t ts ih => rw [List.foldl_cons, ih, regen_letter]

theorem foldl_regen_hcrossSet (A : LetterCodes) (ld : LetterDistribution) (ts : List Target)
    (b : Board) (r c : Int) :
    ((ts.foldl (regen A ld) b).squares r c).hcrossSet = (b.squares r c).hcrossSet := by
  induction ts generalizing b with
  | nil => rfl
  | cons t ts ih => rw [List.foldl_cons, ih, regen_hcrossSet]

theorem foldl_regen_vcrossSet (A : LetterCodes) (ld : LetterDistribution) (ts : List Target)
    (b : Board) (r c : Int) :
    ((ts.foldl (regen A ld) b).squares r c).vcrossSet = (b.squares r c).vcrossSet := by
  induction ts generalizing b with
  | nil => rfl
  | cons t ts ih => rw [List.foldl_cons, ih, regen_vcrossSet]

theorem foldl_regen_sameLetters (A : LetterCodes) (ld : LetterDistribution) (ts : List Target)
    (b : Board) : SameLetters b (ts.foldl (regen A ld) b) :=
  ⟨(foldl_regen_dim A ld ts b).symm, fun r c _ => (foldl_regen_letter A ld ts b r c).symm⟩

theorem foldl_regen_score (A : LetterCodes) (ld : LetterDistribution) (ts : List Target)
    (b : Board) (r c : Int) (d : BoardDirection) :
    ((ts.foldl (regen A ld) b).squares r c).GetCrossScore d =
      if (r, c, d) ∈ ts ∧ b.posExists r c = true then crossScoreValue A ld b r c
      else (b.squares r c).GetCrossScore d := by
  induction ts generalizing b with
  | nil => simp
  | cons t ts ih =>
    rw [List.foldl_cons, ih]
    have hpe : (regen A ld b t).posExists r c = b.posExists r c :=
      (posExists_congr (regen_sameLetters A ld b t) r c).symm
    rw [hpe]
    by_cases hp : b.posExists r c = true
    · have hcsv := (crossScoreValue_congr A ld (regen_sameLetters A ld b t) r c hp).symm
      rw [hcsv, regen_squares]
      by_cases hmem : (r, c, d) ∈ ts
      · simp [hmem, hp]
      · by_cases ht : (r, c, d) = t
        · subst ht
          simp [hmem, hp, getCrossScore_setCrossScore]
        · have ht2 : ¬ (r = t.1 ∧ c = t.2.1 ∧ d = t.2.2) := by
            rintro ⟨h1, h2, h3⟩
            exact ht (by rw [h1, h2, h3])
          simp only [hmem, hp, List.mem_cons, ht, or_false, false_and, if_false, true_and]
          by_cases hrc : r = t.1 ∧ c = t.2.1
          · have hd : ¬ d = t.2.2 := fun hd => ht2 ⟨hrc.1, hrc.2, hd⟩
            simp [hrc, getCrossScore_setCrossScore, hd]
          · simp [hrc]
    · have hp2 : b.posExists r c = false := by simpa using hp
      rw [regen_squares]
      simp [hp2]

/-! ## Loops of `Generate` calls -/

theorem mem_loopTargets (T : Int → List Target) (t : Target) (n : Nat) (i : Int) :
    t ∈ loopTargets T n i ↔ ∃ k : Int, i ≤ k ∧ k < i + n ∧ t ∈ T k := by
  induction n generalizing i with
  | zero =>
    simp only [loopTargets, List.not_mem_nil, false_iff]
    rintro ⟨k, h1, h2, _⟩
    simp at h2
    omega
  | succ n ih =>
    simp only [loopTargets, List.mem_append, ih]
    constructor
    · rintro (h | ⟨k, h1, h2, h3⟩)
      · exact ⟨i, le_refl _, by push_cast; omega, h⟩
      · exact ⟨k, by omega, by push_cast; omega, h3⟩
    · rintro ⟨k, h1, h2, h3⟩
      by_cases hk : k = i
      · subst hk; exact Or.inl h3
      · exact Or.inr ⟨k, by omega, by push_cast at h2; omega, h3⟩

theorem forLoop_regen_range (A : LetterCodes) (ld : LetterDistribution) (b0 : Board)
    (body : Int → Board → Option Board) (T : Int → List Target) (n : Nat) (i : Int)
    (hbody : ∀ k b1, i ≤ k → k < i + (n : Int) → SameLetters b0 b1 →
      body k b1 = some ((T k).foldl (regen A ld) b1))
    (b1 : Board) (h : SameLetters b0 b1) :
    forLoop body n i b1 = some ((loopTargets T n i).foldl (regen A ld) b1) := by
  induction n generalizing i b1 with
  | zero => rfl
  | succ n ih =>
    simp only [forLoop, loopTargets,
      hbody i b1 (le_refl _) (by push_cast; omega) h, Option.some_bind, List.foldl_append]
    exact ih (i + 1) (fun k b2 h1 h2 h3 => hbody k b2 (by omega) (by push_cast; omega) h3) _
      (sameLetters_trans h (foldl_regen_sameLetters A ld (T i) b1))

theorem forLoop_regen (A : LetterCodes) (ld : LetterDistribution) (b0 : Board)
    (body : Int → Board → Option Board) (T : Int → List Target)
    (hbody : ∀ i b1, SameLetters b0 b1 → body i b1 = some ((T i).foldl (regen A ld) b1))
    (n : Nat) (i : Int) (b1 : Board) (h : SameLetters b0 b1) :
    forLoop body n i b1 = some ((loopTargets T n i).foldl (regen A ld) b1) :=
  forLoop_regen_range A ld b0 body T n i (fun k b2 _ _ h3 => hbody k b2 h3) b1 h

theorem mem_allTargets (n : Nat) (d : BoardDirection) (r c : Int) (e : BoardDirection) :
    (r, c, e) ∈ allTargets n d ↔ 0 ≤ r ∧ r < (n : Int) ∧ 0 ≤ c ∧ c < (n : Int) ∧ e = d := by
  simp only [allTargets, mem_loopTargets, List.mem_singleton, Prod.mk.injEq]
  constructor
  · rintro ⟨i, hi1, hi2, j, hj1, hj2, h1, h2, h3⟩
    subst h1 h2 h3
    exact ⟨hi1, by omega, hj1, by omega, rfl⟩
  · rintro ⟨h1, h2, h3, h4, h5⟩
    exact ⟨r, h1, by omega, c, h3, by omega, rfl, rfl, h5⟩

theorem forLoop_generate (A : LetterCodes) (ld : LetterDistribution)
    (f : Int → Target) (n : Nat) (i : Int) (b : Board) :
    forLoop (fun j b2 => CrossScoreOnlyGenerator.Generate A ld b2 (f j).1 (f j).2.1 (f j).2.2)
      n i b = some ((loopTargets (fun j => [f j]) n i).foldl (regen A ld) b) := by
  apply forLoop_regen A ld b _ _ _ n i b (sameLetters_refl b)
  intro j b1 _
  simp [generate_eq]

theorem generatePass_eq (A : LetterCodes) (ld : LetterDistribution) (d : BoardDirection)
    (n : Nat) (b : Board) :
    forLoop (fun i b1 =>
        forLoop (fun j b2 => CrossScoreOnlyGenerator.Generate A ld b2 i j d) n 0 b1) n 0 b
      = some ((allTargets n d).foldl (regen A ld) b) := by
  apply forLoop_regen A ld b _ _ _ n 0 b (sameLetters_refl b)
  intro i b1 _
  exact forLoop_generate A ld (fun j => (i, j, d)) n 0 b1

theorem generateAll_eq_fold (A : LetterCodes) (ld : LetterDistribution) (b : Board) :
    generateAll (CrossScoreOnlyGenerator.Generate A ld) b =
      some ((allTargets b.dim .Vertical).foldl (regen A ld)
        ((allTargets b.dim .Horizontal).foldl (regen A ld) b).Transpose).Transpose := by
  simp only [generateAll, generatePass_eq, Option.some_bind]

theorem generateAll_eq (A : LetterCodes) (ld : LetterDistribution) (b : Board) :
    generateAll (CrossScoreOnlyGenerator.Generate A ld) b = some (fullScan A ld b) := by
  rw [generateAll_eq_fold]
  congr 1
  have hsl : SameLetters b.Transpose
      ((allTargets b.dim .Horizontal).foldl (regen A ld) b).Transpose :=
    sameLetters_transpose (foldl_regen_sameLetters A ld _ b)
  have hdim : (Board.Transpose ((allTargets b.dim .Vertical).foldl (regen A ld)
        ((allTargets b.dim .Horizontal).foldl (regen A ld) b).Transpose)).dim = b.dim := by
    simp [Board.Transpose, foldl_regen_dim]
  have htr : (Board.Transpose ((allTargets b.dim .Vertical).foldl (regen A ld)
        ((allTargets b.dim .Horizontal).foldl (regen A ld) b).Transpose)).transposed
        = b.transposed := by
    simp [Board.Transpose, foldl_regen_transposed]
  have hsq : ∀ r c, (Board.Transpose ((allTargets b.dim .Vertical).foldl (regen A ld)
        ((allTargets b.dim .Horizontal).foldl (regen A ld) b).Transpose)).squares r c
        = (fullScan A ld b).squares r c := by
    intro r c
    have hT : ∀ (bb : Board) (x y : Int), bb.Transpose.squares x y = bb.squares y x :=
      fun _ _ _ => rfl
    rw [hT]
    have hpc : (Board.Transpose ((allTargets b.dim .Horizontal).foldl (regen A ld) b)).posExists
        c r = b.posExists r c := by
      rw [posExists_transpose, ← posExists_congr (foldl_regen_sameLetters A ld _ b)]
    apply square_ext
    · rw [foldl_regen_letter, hT, foldl_regen_letter]
      simp only [fullScan]; split <;> rfl
    · rw [foldl_regen_hcrossSet, hT, foldl_regen_hcrossSet]
      simp only [fullScan]; split <;> rfl
    · rw [foldl_regen_vcrossSet, hT, foldl_regen_vcrossSet]
      simp only [fullScan]; split <;> rfl
    · intro d
      rw [foldl_regen_score, hpc, hT, foldl_regen_score]
      simp only [mem_allTargets, fullScan]
      by_cases hp : b.posExists r c = true
      · have hr := (posExists_iff b r c).mp hp
        have hcs : crossScoreValue A ld
            (Board.Transpose ((allTargets b.dim .Horizontal).foldl (regen A ld) b)) c r
            = crossScoreValue A ld b.Transpose c r :=
          (crossScoreValue_congr A ld hsl c r (by rw [posExists_transpose]; exact hp)).symm
        cases d <;> simp [hp, hr, hcs, Square.GetCrossScore]
      · have hp2 : b.posExists r c = false := by simpa using hp
        simp [hp2]
  cases hb : Board.Transpose ((allTargets b.dim .Vertical).foldl (regen A ld)
        ((allTargets b.dim .Horizontal).foldl (regen A ld) b).Transpose) with
  | mk d sq tr =>
    rw [hb] at hdim htr hsq
    simp only at hdim htr hsq
    have : sq = (fullScan A ld b).squares := funext fun r => funext fun c => hsq r c
    subst this
    subst hdim htr
    rfl

/-! ## The incremental update as a sequence of `Generate` calls -/

theorem calcForSelf_eq (A : LetterCodes) (ld : LetterDistribution) (m : Move) (b : Board)
    (rowStart colStart : Int) (csd : BoardDirection) :
    calcForSelf (CrossScoreOnlyGenerator.Generate A ld) m b rowStart colStart csd =
      some ((selfTargets m rowStart colStart csd).foldl (regen A ld) b) :=
  forLoop_generate A ld (fun col => (rowStart, col, csd)) _ _ b

theorem calcForAcross_eq (A : LetterCodes) (ld : LetterDistribution) (m : Move) (b0 b : Board)
    (h : SameLetters b0 b) (rowStart colStart : Int) (csd : BoardDirection) :
    calcForAcross A (CrossScoreOnlyGenerator.Generate A ld) m b rowStart colStart csd =
      some ((acrossTargets A m b0 rowStart colStart csd).foldl (regen A ld) b) := by
  apply forLoop_regen A ld b0 _ _ _ _ _ b h
  intro row b1 h1
  simp only [acrossRound]
  split
  · rfl
  · simp only [generate_eq, Option.some_bind, List.foldl_cons, List.foldl_nil]
    rw [wordEdge_congr A h1 row colStart Right, wordEdge_congr A h1 row colStart Left]

theorem updateForMove_eq (A : LetterCodes) (ld : LetterDistribution) (b : Board) (m : Move) :
    updateForMove A (CrossScoreOnlyGenerator.Generate A ld) b m = some (updateFold A ld b m) := by
  unfold updateForMove updateFold
  simp only [Move.CoordsAndVertical]
  split
  · rw [calcForAcross_eq A ld m b b (sameLetters_refl b)]
    simp only [Option.some_bind, calcForSelf_eq]
  · rw [calcForSelf_eq]
    simp only [Option.some_bind]
    rw [calcForAcross_eq A ld m b.Transpose _
      (sameLetters_transpose (foldl_regen_sameLetters A ld _ b))]
    simp only [Option.some_bind]

theorem sameLetters_fullScan (A : LetterCodes) (ld : LetterDistribution) (b : Board) :
    SameLetters b (fullScan A ld b) := by
  refine ⟨rfl, fun r c hp => ?_⟩
  simp [fullScan, hp]

theorem posExists_fullScan (A : LetterCodes) (ld : LetterDistribution) (b : Board) (r c : Int) :
    (fullScan A ld b).posExists r c = b.posExists r c :=
  (posExists_congr (sameLetters_fullScan A ld b) r c).symm

theorem fullScan_letter (A : LetterCodes) (ld : LetterDistribution) (b : Board) (r c : Int) :
    ((fullScan A ld b).squares r c).letter = (b.squares r c).letter := by
  simp only [fullScan]; split <;> rfl

theorem fullScan_hcrossSet (A : LetterCodes) (ld : LetterDistribution) (b : Board) (r c : Int) :
    ((fullScan A ld b).squares r c).hcrossSet = (b.squares r c).hcrossSet := by
  simp only [fullScan]; split <;> rfl

theorem fullScan_vcrossSet (A : LetterCodes) (ld : LetterDistribution) (b : Board) (r c : Int) :
    ((fullScan A ld b).squares r c).vcrossSet = (b.squares r c).vcrossSet := by
  simp only [fullScan]; split <;> rfl

theorem fullScan_score (A : LetterCodes) (ld : LetterDistribution) (b : Board) (r c : Int)
    (d : BoardDirection) :
    ((fullScan A ld b).squares r c).GetCrossScore d =
      if b.posExists r c = true then scanValue A ld b r c d
      else (b.squares r c).GetCrossScore d := by
  simp only [fullScan]
  split <;> cases d <;> rfl

theorem scanValue_congr (A : LetterCodes) (ld : LetterDistribution) {b b1 : Board}
    (h : SameLetters b b1) (r c : Int) (d : BoardDirection) (hp : b.posExists r c = true) :
    scanValue A ld b r c d = scanValue A ld b1 r c d := by
  cases d
  · exact crossScoreValue_congr A ld h r c hp
  · exact crossScoreValue_congr A ld (sameLetters_transpose h) c r
      (by rw [posExists_transpose]; exact hp)

theorem board_ext {b b1 : Board} (hd : b.dim = b1.dim) (ht : b.transposed = b1.transposed)
    (hs : ∀ r c, b.squares r c = b1.squares r c) : b = b1 := by
  cases b; cases b1
  simp only at hd ht hs
  subst hd ht
  simp only [Board.mk.injEq, true_and, and_true]
  exact funext fun r => funext fun c => hs r c

theorem fullScan_idem (A : LetterCodes) (ld : LetterDistribution) (b : Board) :
    fullScan A ld (fullScan A ld b) = fullScan A ld b := by
  have hsl := sameLetters_fullScan A ld b
  refine board_ext rfl rfl fun r c => ?_
  apply square_ext
  · rw [fullScan_letter]
  · rw [fullScan_hcrossSet]
  · rw [fullScan_vcrossSet]
  · intro d
    rw [fullScan_score, posExists_fullScan]
    by_cases hp : b.posExists r c = true
    · rw [if_pos hp, fullScan_score, if_pos hp, scanValue_congr A ld hsl r c d hp]
    · rw [if_neg hp]

theorem foldl_regen_untouched (A : LetterCodes) (ld : LetterDistribution) (ts : List Target)
    (b : Board) (r c : Int) (h : ∀ d, (r, c, d) ∉ ts) :
    (ts.foldl (regen A ld) b).squares r c = b.squares r c := by
  apply square_ext
  · exact foldl_regen_letter A ld ts b r c
  · exact foldl_regen_hcrossSet A ld ts b r c
  · exact foldl_regen_vcrossSet A ld ts b r c
  · intro d
    rw [foldl_regen_score]
    simp [h d]

theorem updateFold_dim (A : LetterCodes) (ld : LetterDistribution) (b : Board) (m : Move) :
    (updateFold A ld b m).dim = b.dim := by
  unfold updateFold
  split <;> simp [Board.Transpose, foldl_regen_dim]

theorem updateFold_transposed (A : LetterCodes) (ld : LetterDistribution) (b : Board)
    (m : Move) : (updateFold A ld b m).transposed = b.transposed := by
  unfold updateFold
  split <;> simp [Board.Transpose, foldl_regen_transposed]

theorem updateFold_letter (A : LetterCodes) (ld : LetterDistribution) (b : Board) (m : Move)
    (r c : Int) : ((updateFold A ld b m).squares r c).letter = (b.squares r c).letter := by
  unfold updateFold
  split <;> simp [Board.Transpose, foldl_regen_letter]

theorem updateFold_hcrossSet (A : LetterCodes) (ld : LetterDistribution) (b : Board) (m : Move)
    (r c : Int) :
    ((updateFold A ld b m).squares r c).hcrossSet = (b.squares r c).hcrossSet := by
  unfold updateFold
  split <;> simp [Board.Transpose, foldl_regen_hcrossSet]

theorem updateFold_vcrossSet (A : LetterCodes) (ld : LetterDistribution) (b : Board) (m : Move)
    (r c : Int) :
    ((updateFold A ld b m).squares r c).vcrossSet = (b.squares r c).vcrossSet := by
  unfold updateFold
  split <;> simp [Board.Transpose, foldl_regen_vcrossSet]

theorem mem_selfTargets (m : Move) (rowStart colStart : Int) (csd : BoardDirection)
    (r c : Int) (d : BoardDirection) :
    (r, c, d) ∈ selfTargets m rowStart colStart csd ↔
      r = rowStart ∧ colStart - 1 ≤ c ∧ c ≤ colStart + m.Tiles.length ∧ d = csd := by
  simp only [selfTargets, mem_loopTargets, List.mem_singleton, Prod.mk.injEq]
  constructor
  · rintro ⟨k, h1, h2, h3, h4, h5⟩
    subst h4
    push_cast at h2
    exact ⟨h3, h1, by omega, h5⟩
  · rintro ⟨h1, h2, h3, h4⟩
    exact ⟨c, h2, by push_cast; omega, h1, rfl, h4⟩

theorem mem_acrossTargets (A : LetterCodes) (m : Move) (b : Board) (rowStart colStart : Int)
    (csd : BoardDirection) (r c : Int) (d : BoardDirection) :
    (r, c, d) ∈ acrossTargets A m b rowStart colStart csd ↔
      ∃ i : Nat, i < m.Tiles.length ∧ m.Tiles.getD i 0 ≠ A.PlayedThroughMarker ∧
        r = rowStart + i ∧ d = csd ∧
        (c = b.WordEdge A r colStart Right + 1 ∨ c = b.WordEdge A r colStart Left - 1
          ∨ c = colStart) := by
  simp only [acrossTargets, mem_loopTargets, acrossRound]
  constructor
  · rintro ⟨k, h1, h2, h3⟩
    split at h3
    · simp at h3
    · rename_i hne
      have hk : (k - rowStart).toNat < m.Tiles.length := by omega
      refine ⟨(k - rowStart).toNat, hk, hne, ?_⟩
      simp only [List.mem_cons, Prod.mk.injEq, List.mem_singleton, List.not_mem_nil,
        or_false] at h3
      have hk2 : ((k - rowStart).toNat : Int) = k - rowStart := Int.toNat_of_nonneg (by omega)
      rcases h3 with ⟨e1, e2, e3⟩ | ⟨e1, e2, e3⟩ | ⟨e1, e2, e3⟩
      · subst e1; exact ⟨by omega, e3, Or.inl e2⟩
      · subst e1; exact ⟨by omega, e3, Or.inr (Or.inl e2)⟩
      · subst e1; exact ⟨by omega, e3, Or.inr (Or.inr e2)⟩
  · rintro ⟨i, h1, h2, h3, h4, h5⟩
    refine ⟨r, by omega, by omega, ?_⟩
    have hi : (r - rowStart).toNat = i := by omega
    rw [hi, if_neg h2]
    subst h4
    simp only [List.mem_cons, Prod.mk.injEq, List.mem_singleton, List.not_mem_nil, or_false,
      true_and, and_true]
    exact h5

/-! ## Runs of occupied squares -/

theorem occupied_posExists (A : LetterCodes) {b : Board} {row col : Int}
    (h : b.occupied A row col = true) : b.posExists row col = true := by
  simp only [Board.occupied, Bool.and_eq_true] at h
  exact h.1

theorem occupied_range (A : LetterCodes) {b : Board} {row col : Int}
    (h : b.occupied A row col = true) : 0 ≤ col ∧ col < (b.dim : Int) := by
  have := (posExists_iff b row col).mp (occupied_posExists A h)
  omega

theorem occupied_iff (A : LetterCodes) (b : Board) (row col : Int) :
    b.occupied A row col = true ↔
      b.posExists row col = true ∧ (b.squares row col).IsEmpty A = false := by
  simp [Board.occupied]

theorem scan_right (A : LetterCodes) (b : Board) (row : Int) (fuel : Nat) (col hi : Int)
    (hrun : ∀ j, col ≤ j → j ≤ hi → b.occupied A row j = true)
    (hend : b.occupied A row (hi + 1) = false)
    (hle : col ≤ hi + 1) (hfuel : hi + 1 - col ≤ (fuel : Int)) :
    b.scanWhileOccupied A row Right fuel col = hi + 1 := by
  induction fuel generalizing col with
  | zero =>
    simp only [Board.scanWhileOccupied]
    simp at hfuel
    omega
  | succ n ih =>
    simp only [Board.scanWhileOccupied]
    by_cases hc : col = hi + 1
    · subst hc
      simp [hend]
    · have hocc := hrun col (le_refl _) (by omega)
      rw [if_pos hocc]
      apply ih
      · intro j h1 h2
        exact hrun j (by simp only [Right] at h1; omega) h2
      · simp only [Right]; omega
      · simp only [Right]; push_cast at hfuel; omega

theorem scan_left (A : LetterCodes) (b : Board) (row : Int) (fuel : Nat) (col lo : Int)
    (hrun : ∀ j, lo ≤ j → j ≤ col → b.occupied A row j = true)
    (hend : b.occupied A row (lo - 1) = false)
    (hle : lo - 1 ≤ col) (hfuel : col - (lo - 1) ≤ (fuel : Int)) :
    b.scanWhileOccupied A row Left fuel col = lo - 1 := by
  induction fuel generalizing col with
  | zero =>
    simp only [Board.scanWhileOccupied]
    simp at hfuel
    omega
  | succ n ih =>
    simp only [Board.scanWhileOccupied]
    by_cases hc : col = lo - 1
    · subst hc
      simp [hend]
    · have hocc := hrun col (by omega) (le_refl _)
      rw [if_pos hocc]
      apply ih
      · intro j h1 h2
        exact hrun j h1 (by simp only [Left] at h2; omega)
      · simp only [Left]; omega
      · simp only [Left]; push_cast at hfuel; omega

theorem wordEdge_right (A : LetterCodes) (b : Board) (row col hi : Int) (hle : col ≤ hi)
    (hrun : ∀ j, col ≤ j → j ≤ hi → b.occupied A row j = true)
    (hend : b.occupied A row (hi + 1) = false) :
    b.WordEdge A row col Right = hi := by
  have h1 := occupied_range A (hrun col (le_refl _) hle)
  have h2 := occupied_range A (hrun hi hle (le_refl _))
  unfold Board.WordEdge
  rw [if_pos (hrun col (le_refl _) hle),
    scan_right A b row b.dim col hi hrun hend (by omega) (by omega)]
  simp [Right]

theorem wordEdge_left (A : LetterCodes) (b : Board) (row col lo : Int) (hle : lo ≤ col)
    (hrun : ∀ j, lo ≤ j → j ≤ col → b.occupied A row j = true)
    (hend : b.occupied A row (lo - 1) = false) :
    b.WordEdge A row col Left = lo := by
  have h1 := occupied_range A (hrun col hle (le_refl _))
  have h2 := occupied_range A (hrun lo (le_refl _) hle)
  unfold Board.WordEdge
  rw [if_pos (hrun col hle (le_refl _)),
    scan_left A b row b.dim col lo hrun hend (by omega) (by omega)]
  simp [Left]

theorem wordEdge_unoccupied (A : LetterCodes) (b : Board) (row col : Int)
    (dir : WordDirection) (h : b.occupied A row col = false) :
    b.WordEdge A row col dir = col := by
  simp [Board.WordEdge, h]

theorem Icc_insert_top (lo col : Int) (h : lo ≤ col) :
    Finset.Icc lo col = insert col (Finset.Icc lo (col - 1)) := by
  ext j
  simp only [Finset.mem_Icc, Finset.mem_insert]
  omega

theorem traverseBack_eq_sum (A : LetterCodes) (ld : LetterDistribution) (b : Board) (row : Int)
    (fuel : Nat) (col lo : Int)
    (hrun : ∀ j, lo ≤ j → j ≤ col → b.occupied A row j = true)
    (hend : b.occupied A row (lo - 1) = false)
    (hle : lo ≤ col + 1) (hfuel : col + 1 - lo ≤ (fuel : Int)) :
    b.traverseBack A ld row fuel col =
      ∑ j in Finset.Icc lo col, tileScore A ld (b.squares row j).letter := by
  induction fuel generalizing col with
  | zero =>
    simp only [Board.traverseBack]
    simp at hfuel
    rw [Finset.Icc_eq_empty (by omega), Finset.sum_empty]
  | succ n ih =>
    simp only [Board.traverseBack]
    by_cases hc : col = lo - 1
    · subst hc
      rw [if_neg (by simp [hend]), Finset.Icc_eq_empty (by omega), Finset.sum_empty]
    · have hocc := hrun col (by omega) (le_refl _)
      rw [if_pos hocc, Icc_insert_top lo col (by omega),
        Finset.sum_insert (by simp), ih (col - 1)]
      · intro j h1 h2
        exact hrun j h1 (by omega)
      · omega
      · push_cast at hfuel; omega

theorem traverseBackwardsForScore_eq_sum (A : LetterCodes) (ld : LetterDistribution)
    (b : Board) (row col lo : Int)
    (hrun : ∀ j, lo ≤ j → j ≤ col → b.occupied A row j = true)
    (hend : b.occupied A row (lo - 1) = false)
    (hle : lo ≤ col + 1) :
    b.TraverseBackwardsForScore A row col ld =
      ∑ j in Finset.Icc lo col, tileScore A ld (b.squares row j).letter := by
  unfold Board.TraverseBackwardsForScore
  apply traverseBack_eq_sum A ld b row b.dim col lo hrun hend hle
  by_cases hc : col + 1 = lo
  · omega
  · have h1 := occupied_range A (hrun col (by omega) (le_refl _))
    have h2 := occupied_range A (hrun lo (le_refl _) (by omega))
    omega

/-- The score stored on an empty square between the run `[lo, col - 1]` on its left and
the run `[col + 1, hi]` on its right (either run may be empty). -/
theorem crossScoreValue_eq_sum (A : LetterCodes) (ld : LetterDistribution) (b : Board)
    (row col lo hi : Int)
    (hempty : (b.squares row col).IsEmpty A = true)
    (hlo : lo ≤ col)
    (hleft : ∀ j, lo ≤ j → j < col → b.occupied A row j = true)
    (hlomax : b.occupied A row (lo - 1) = false)
    (hhi : col ≤ hi)
    (hright : ∀ j, col < j → j ≤ hi → b.occupied A row j = true)
    (hhimax : b.occupied A row (hi + 1) = false) :
    crossScoreValue A ld b row col =
      ∑ j in Finset.Icc lo (col - 1), tileScore A ld (b.squares row j).letter
        + ∑ j in Finset.Icc (col + 1) hi, tileScore A ld (b.squares row j).letter := by
  have hcol : b.occupied A row col = false := by
    simp [Board.occupied, hempty]
  have hL : b.TraverseBackwardsForScore A row (col - 1) ld =
      ∑ j in Finset.Icc lo (col - 1), tileScore A ld (b.squares row j).letter :=
    traverseBackwardsForScore_eq_sum A ld b row (col - 1) lo
      (fun j h1 h2 => hleft j h1 (by omega)) hlomax (by omega)
  unfold crossScoreValue
  simp only [hempty, Bool.not_true, Bool.false_eq_true, if_false]
  by_cases hlre : b.LeftAndRightEmpty A row col = true
  · rw [if_pos hlre]
    simp only [Board.LeftAndRightEmpty, Bool.and_eq_true, Bool.not_eq_true'] at hlre
    have e1 : lo = col := by
      by_contra hne
      have := hleft (col - 1) (by omega) (by omega)
      rw [hlre.1] at this
      exact Bool.false_ne_true this
    have e2 : hi = col := by
      by_contra hne
      have := hright (col + 1) (by omega) (by omega)
      rw [hlre.2] at this
      exact Bool.false_ne_true this
    subst e1 e2
    rw [Finset.Icc_eq_empty (by omega), Finset.Icc_eq_empty (by omega)]
    simp
  · rw [if_neg hlre]
    by_cases hr : b.occupied A row (col + 1) = true
    · have hhi2 : col + 1 ≤ hi := by
        by_contra hne
        have e : hi = col := by omega
        subst e
        rw [hhimax] at hr
        exact Bool.false_ne_true hr
      have hwe : b.WordEdge A row (col + 1) Right = hi :=
        wordEdge_right A b row (col + 1) hi hhi2 (fun j h1 h2 => hright j (by omega) h2) hhimax
      have hR : b.TraverseBackwardsForScore A row hi ld =
          ∑ j in Finset.Icc (col + 1) hi, tileScore A ld (b.squares row j).letter :=
        traverseBackwardsForScore_eq_sum A ld b row hi (col + 1)
          (fun j h1 h2 => hright j (by omega) h2) (by simpa using hcol) (by omega)
      rw [hwe, if_neg (by omega), hR, hL, add_comm]
    · have hr2 : b.occupied A row (col + 1) = false := by simpa using hr
      have e : hi = col := by
        by_contra hne
        have := hright (col + 1) (by omega) (by omega)
        rw [hr2] at this
        exact Bool.false_ne_true this
      subst e
      have hR : b.TraverseBackwardsForScore A row (hi + 1) ld = 0 := by
        rw [traverseBackwardsForScore_eq_sum A ld b row (hi + 1) (hi + 2)
          (fun j h1 h2 => by omega)
          (by rw [show hi + 2 - 1 = hi + 1 by omega]; exact hr2) (by omega)]
        rw [Finset.Icc_eq_empty (by omega), Finset.sum_empty]
      rw [wordEdge_unoccupied A b row (hi + 1) Right hr2, if_neg (by omega), hR, hL,
        Finset.Icc_eq_empty (by omega : ¬ hi + 1 ≤ hi), Finset.sum_empty]
      simp

theorem exists_left_run (A : LetterCodes) (b : Board) (row : Int) (col : Int) :
    ∃ lo, lo ≤ col ∧ (∀ j, lo ≤ j → j < col → b.occupied A row j = true) ∧
      b.occupied A row (lo - 1) = false := by
  have key : ∀ n : Nat, ∀ col : Int, col ≤ (n : Int) →
      ∃ lo, lo ≤ col ∧ (∀ j, lo ≤ j → j < col → b.occupied A row j = true) ∧
        b.occupied A row (lo - 1) = false := by
    intro n
    induction n with
    | zero =>
      intro col hcol
      refine ⟨col, le_refl _, fun j h1 h2 => by omega, ?_⟩
      by_contra h
      have := occupied_range A (by simpa using h : b.occupied A row (col - 1) = true)
      simp at hcol
      omega
    | succ n ih =>
      intro col hcol
      by_cases h : b.occupied A row (col - 1) = true
      · obtain ⟨lo, h1, h2, h3⟩ := ih (col - 1) (by push_cast at hcol; omega)
        refine ⟨lo, by omega, fun j hj1 hj2 => ?_, h3⟩
        by_cases hj : j = col - 1
        · subst hj; exact h
        · exact h2 j hj1 (by omega)
      · exact ⟨col, le_refl _, fun j h1 h2 => by omega, by simpa using h⟩
  exact key col.toNat col (Int.self_le_toNat col)

theorem exists_right_run (A : LetterCodes) (b : Board) (row : Int) (col : Int) :
    ∃ hi, col ≤ hi ∧ (∀ j, col < j → j ≤ hi → b.occupied A row j = true) ∧
      b.occupied A row (hi + 1) = false := by
  have key : ∀ n : Nat, ∀ col : Int, (b.dim : Int) - col ≤ (n : Int) →
      ∃ hi, col ≤ hi ∧ (∀ j, col < j → j ≤ hi → b.occupied A row j = true) ∧
        b.occupied A row (hi + 1) = false := by
    intro n
    induction n with
    | zero =>
      intro col hcol
      refine ⟨col, le_refl _, fun j h1 h2 => by omega, ?_⟩
      by_contra h
      have := occupied_range A (by simpa using h : b.occupied A row (col + 1) = true)
      simp at hcol
      omega
    | succ n ih =>
      intro col hcol
      by_cases h : b.occupied A row (col + 1) = true
      · obtain ⟨hi, h1, h2, h3⟩ := ih (col + 1) (by push_cast at hcol; omega)
        refine ⟨hi, by omega, fun j hj1 hj2 => ?_, h3⟩
        by_cases hj : j = col + 1
        · subst hj; exact h
        · exact h2 j (by omega) hj2
      · exact ⟨col, le_refl _, fun j h1 h2 => by omega, by simpa using h⟩
  exact key ((b.dim : Int) - col).toNat col (Int.self_le_toNat _)

/-! ## Placing the tiles of a move -/

theorem setLetter_eq (b : Board) (row col : Int) (t : MachineLetter) (b1 : Board)
    (h : b.SetLetter row col t = some b1) :
    b.posExists row col = true ∧
      b1 = b.putSquare row col { b.squares row col with letter := t } := by
  unfold Board.SetLetter Board.GetSquare at h
  by_cases hp : b.posExists row col = true
  · simp only [hp, if_true, Option.map_some', Option.some.injEq] at h
    exact ⟨hp, h.symm⟩
  · simp [hp] at h

theorem cellOf_succ (v : Bool) (row col : Int) (i : Nat) :
    cellOf v row col (i + 1)
      = cellOf v (if v = true then row + 1 else row) (if v = true then col else col + 1) i := by
  cases v <;> simp [cellOf] <;> omega

theorem cellOf_zero (v : Bool) (row col : Int) : cellOf v row col 0 = (row, col) := by
  cases v <;> simp [cellOf]

theorem cellOf_succ_ne (v : Bool) (row col : Int) (i : Nat) :
    cellOf v (if v = true then row + 1 else row) (if v = true then col else col + 1) i
      ≠ (row, col) := by
  cases v <;> simp [cellOf] <;> omega

theorem placeTilesFrom_spec (A : LetterCodes) (v : Bool) (ts : List MachineLetter)
    (row col : Int) (b b1 : Board)
    (h : Board.placeTilesFrom A v ts row col b = some b1) :
    b1.dim = b.dim ∧ b1.transposed = b.transposed ∧
    (∀ r c, (b1.squares r c).hcrossSet = (b.squares r c).hcrossSet ∧
      (b1.squares r c).vcrossSet = (b.squares r c).vcrossSet ∧
      (b1.squares r c).hcrossScore = (b.squares r c).hcrossScore ∧
      (b1.squares r c).vcrossScore = (b.squares r c).vcrossScore) ∧
    (∀ i : Nat, i < ts.length → ts.getD i 0 ≠ A.PlayedThroughMarker →
      b.posExists (cellOf v row col i).1 (cellOf v row col i).2 = true ∧
      (b1.squares (cellOf v row col i).1 (cellOf v row col i).2).letter = ts.getD i 0) ∧
    (∀ r c, (∀ i : Nat, i < ts.length → ts.getD i 0 ≠ A.PlayedThroughMarker →
        cellOf v row col i ≠ (r, c)) →
      (b1.squares r c).letter = (b.squares r c).letter) := by
  induction ts generalizing row col b with
  | nil =>
    simp only [Board.placeTilesFrom, Option.some.injEq] at h
    subst h
    simp
  | cons t rest ih =>
    simp only [Board.placeTilesFrom] at h
    by_cases ht : t = A.PlayedThroughMarker
    · rw [if_pos ht] at h
      obtain ⟨h1, h2, h3, h4, h5⟩ := ih _ _ b h
      refine ⟨h1, h2, h3, ?_, ?_⟩
      · intro i hi hne
        cases i with
        | zero => exact absurd ht (by simpa using hne)
        | succ k =>
          rw [cellOf_succ]
          exact h4 k (by simpa using hi) (by simpa using hne)
      · intro r c hcell
        apply h5
        intro i hi hne
        have := hcell (i + 1) (by simpa using hi) (by simpa using hne)
        rwa [cellOf_succ] at this
    · rw [if_neg ht] at h
      cases hs : b.SetLetter row col t with
      | none => rw [hs] at h; simp at h
      | some b2 =>
        rw [hs, Option.some_bind] at h
        obtain ⟨hp, hb2⟩ := setLetter_eq b row col t b2 hs
        obtain ⟨h1, h2, h3, h4, h5⟩ := ih _ _ b2 h
        have hsq : ∀ r c, b2.squares r c =
            if r = row ∧ c = col then { b.squares row col with letter := t }
            else b.squares r c := by
          intro r c; rw [hb2]; rfl
        have hpe : ∀ r c, b2.posExists r c = b.posExists r c := by
          intro r c; rw [hb2]; rfl
        refine ⟨by rw [h1, hb2]; rfl, by rw [h2, hb2]; rfl, ?_, ?_, ?_⟩
        · intro r c
          have := h3 r c
          rw [hsq] at this
          by_cases hrc : r = row ∧ c = col
          · obtain ⟨e1, e2⟩ := hrc
            subst e1 e2
            simpa using this
          · simpa [hrc] using this
        · intro i hi hne
          cases i with
          | zero =>
            rw [cellOf_zero]
            refine ⟨hp, ?_⟩
            rw [h5 row col (fun j _ _ => cellOf_succ_ne v row col j), hsq]
            simp
          | succ k =>
            rw [cellOf_succ]
            have := h4 k (by simpa using hi) (by simpa using hne)
            rw [hpe] at this
            simpa using this
        · intro r c hcell
          rw [h5 r c (fun i hi hne => by
            have := hcell (i + 1) (by simpa using hi) (by simpa using hne)
            rwa [cellOf_succ] at this), hsq]
          have h0 := hcell 0 (by simp) (by simpa using ht)
          rw [cellOf_zero] at h0
          have : ¬ (r = row ∧ c = col) := fun hh => h0 (by rw [hh.1, hh.2])
          rw [if_neg this]

theorem placeTilesFrom_isSome (A : LetterCodes) (v : Bool) (ts : List MachineLetter)
    (row col : Int) (b : Board)
    (hon : ∀ i : Nat, i < ts.length → ts.getD i 0 ≠ A.PlayedThroughMarker →
      b.posExists (cellOf v row col i).1 (cellOf v row col i).2 = true) :
    ∃ b1, Board.placeTilesFrom A v ts row col b = some b1 := by
  induction ts generalizing row col b with
  | nil => exact ⟨b, rfl⟩
  | cons t rest ih =>
    simp only [Board.placeTilesFrom]
    have hrest : ∀ b2 : Board, b2.dim = b.dim → ∀ i : Nat, i < rest.length →
        rest.getD i 0 ≠ A.PlayedThroughMarker →
        b2.posExists
          (cellOf v (if v = true then row + 1 else row) (if v = true then col else col + 1) i).1
          (cellOf v (if v = true then row + 1 else row) (if v = true then col else col + 1) i).2
          = true := by
      intro b2 hd i hi hne
      have := hon (i + 1) (by simpa using hi) (by simpa using hne)
      rw [cellOf_succ] at this
      simpa [Board.posExists, Board.Dim, hd] using this
    by_cases ht : t = A.PlayedThroughMarker
    · rw [if_pos ht]
      exact ih _ _ b (hrest b rfl)
    · rw [if_neg ht]
      have hp := hon 0 (by simp) (by simpa using ht)
      rw [cellOf_zero] at hp
      simp only [Board.SetLetter, Board.GetSquare, hp, if_true, Option.map_some',
        Option.some_bind]
      exact ih _ _ _ (hrest _ rfl)

theorem tileCell_eq (m : Move) (i : Nat) : m.tileCell i = cellOf m.vertical m.row m.col i := by
  unfold Move.tileCell cellOf
  rfl

theorem placeMoveTiles_spec (A : LetterCodes) (b b1 : Board) (m : Move)
    (h : b.PlaceMoveTiles A m = some b1) :
    PlacedOn A m.Tiles m.tileCell b b1 ∧ b1.transposed = b.transposed ∧
      (∀ r c d, (b1.squares r c).GetCrossScore d = (b.squares r c).GetCrossScore d) ∧
      (∀ r c d, (b1.squares r c).GetCrossSet d = (b.squares r c).GetCrossSet d) := by
  obtain ⟨h1, h2, h3, h4, h5⟩ := placeTilesFrom_spec A m.vertical m.Tiles m.row m.col b b1 h
  refine ⟨⟨h1.symm, ?_, ?_⟩, h2, ?_, ?_⟩
  · intro i hi hne
    rw [tileCell_eq]
    exact (h4 i hi hne).2
  · intro r c hcell
    exact h5 r c (fun i hi hne => by rw [← tileCell_eq]; exact hcell i hi hne)
  · intro r c d
    cases d
    · exact (h3 r c).2.2.1
    · exact (h3 r c).2.2.2
  · intro r c d
    cases d
    · exact (h3 r c).1
    · exact (h3 r c).2.1

theorem placeMoveTiles_isSome (A : LetterCodes) (b : Board) (m : Move) (hon : m.OnBoard b) :
    ∃ b1, b.PlaceMoveTiles A m = some b1 :=
  placeTilesFrom_isSome A m.vertical m.Tiles m.row m.col b
    (fun i hi _ => by rw [← tileCell_eq]; exact hon i hi)

/-! ## Scores that a placement leaves unchanged -/

theorem occupied_of_letter_eq (A : LetterCodes) {X0 X1 : Board} (hdim : X0.dim = X1.dim)
    {r c : Int} (h : (X0.squares r c).letter = (X1.squares r c).letter) :
    X0.occupied A r c = X1.occupied A r c := by
  simp [Board.occupied, Board.posExists, Board.Dim, hdim, Square.IsEmpty, h]

theorem posExists_of_dim_eq {X0 X1 : Board} (hdim : X0.dim = X1.dim) (r c : Int) :
    X0.posExists r c = X1.posExists r c := by
  simp [Board.posExists, Board.Dim, hdim]

/-- The score of `(r, c)` is the same on two boards of the same size when the square
holds the same letter on both, a square that differs was empty on the first board
and is occupied on the second, and no square that differs belongs to a run of the
second board that touches `(r, c)`. -/
theorem crossScoreValue_stable (A : LetterCodes) (ld : LetterDistribution) (X0 X1 : Board)
    (r c : Int) (hdim : X0.dim = X1.dim)
    (hchg : ∀ p, (X0.squares r p).letter ≠ (X1.squares r p).letter →
      X0.occupied A r p = false)
    (hsame : (X0.squares r c).letter = (X1.squares r c).letter)
    (hsepL : (X1.squares r c).IsEmpty A = true → ∀ p, p < c →
      (∀ j, p ≤ j → j < c → X1.occupied A r j = true) →
      (X0.squares r p).letter = (X1.squares r p).letter)
    (hsepR : (X1.squares r c).IsEmpty A = true → ∀ p, c < p →
      (∀ j, c < j → j ≤ p → X1.occupied A r j = true) →
      (X0.squares r p).letter = (X1.squares r p).letter) :
    crossScoreValue A ld X0 r c = crossScoreValue A ld X1 r c := by
  have hE : (X0.squares r c).IsEmpty A = (X1.squares r c).IsEmpty A := by
    simp [Square.IsEmpty, hsame]
  by_cases hempty : (X1.squares r c).IsEmpty A = true
  · obtain ⟨lo, hlo, hleft, hlomax⟩ := exists_left_run A X1 r c
    obtain ⟨hi, hhi, hright, hhimax⟩ := exists_right_run A X1 r c
    have hLsame : ∀ j, lo ≤ j → j < c →
        (X0.squares r j).letter = (X1.squares r j).letter := fun j h1 h2 =>
      hsepL hempty j h2 (fun k hk1 hk2 => hleft k (by omega) hk2)
    have hRsame : ∀ j, c < j → j ≤ hi →
        (X0.squares r j).letter = (X1.squares r j).letter := fun j h1 h2 =>
      hsepR hempty j h1 (fun k hk1 hk2 => hright k hk1 (by omega))
    have hnot : ∀ p, X1.occupied A r p = false → X0.occupied A r p = false := by
      intro p hp
      by_cases hl : (X0.squares r p).letter = (X1.squares r p).letter
      · rw [occupied_of_letter_eq A hdim hl]; exact hp
      · exact hchg p hl
    rw [crossScoreValue_eq_sum A ld X1 r c lo hi hempty hlo hleft hlomax hhi hright hhimax,
      crossScoreValue_eq_sum A ld X0 r c lo hi (by rw [hE]; exact hempty) hlo
        (fun j h1 h2 => by rw [occupied_of_letter_eq A hdim (hLsame j h1 h2)]; exact hleft j h1 h2)
        (hnot _ hlomax) hhi
        (fun j h1 h2 => by
          rw [occupied_of_letter_eq A hdim (hRsame j h1 h2)]; exact hright j h1 h2)
        (hnot _ hhimax)]
    congr 1
    · apply Finset.sum_congr rfl
      intro j hj
      rw [Finset.mem_Icc] at hj
      rw [hLsame j hj.1 (by omega)]
    · apply Finset.sum_congr rfl
      intro j hj
      rw [Finset.mem_Icc] at hj
      rw [hRsame j (by omega) hj.2]
  · have h1 : (X1.squares r c).IsEmpty A = false := by simpa using hempty
    have h0 : (X0.squares r c).IsEmpty A = false := by rw [hE]; exact h1
    simp [crossScoreValue, h0, h1]

/-- A square whose letter a placement changed is the square of a placed tile; it was
not occupied and is occupied afterwards. -/
theorem placedOn_changed (A : LetterCodes) (ts : List MachineLetter) (cell : Nat → Int × Int)
    (X0 X1 : Board) (hpl : PlacedOn A ts cell X0 X1)
    (hw : ∀ i : Nat, i < ts.length → ts.getD i 0 ≠ A.PlayedThroughMarker →
      X0.posExists (cell i).1 (cell i).2 = true ∧ X0.occupied A (cell i).1 (cell i).2 = false)
    (r p : Int) (hne : (X0.squares r p).letter ≠ (X1.squares r p).letter) :
    (∃ i : Nat, i < ts.length ∧ ts.getD i 0 ≠ A.PlayedThroughMarker ∧ cell i = (r, p)) ∧
      X0.occupied A r p = false ∧ X1.occupied A r p = true := by
  have hex : ∃ i : Nat, i < ts.length ∧ ts.getD i 0 ≠ A.PlayedThroughMarker ∧ cell i = (r, p) := by
    by_contra hcon
    apply hne
    symm
    apply hpl.2.2 r p
    intro i hi hne2 hc
    exact hcon ⟨i, hi, hne2, hc⟩
  refine ⟨hex, ?_⟩
  obtain ⟨i, hi, hne2, hc⟩ := hex
  have h1 := hw i hi hne2
  have h2 := hpl.2.1 i hi hne2
  rw [hc] at h1 h2
  simp only at h1 h2
  refine ⟨h1.2, ?_⟩
  have hemp : (X0.squares r p).letter = A.EmptySquareMarker := by
    have := h1.2
    simp only [Board.occupied, h1.1, Bool.true_and, Bool.not_eq_false', Square.IsEmpty,
      decide_eq_true_eq] at this
    exact this
  have hp1 : X1.posExists r p = true := by
    rw [← posExists_of_dim_eq hpl.1]; exact h1.1
  simp only [Board.occupied, hp1, Bool.true_and, Bool.not_eq_true', Square.IsEmpty,
    decide_eq_false_iff_not]
  intro hh
  exact hne (by rw [hemp, hh])

/-- The score of a square that `calcForAcross` does not regenerate is the same before
and after the placement. -/
theorem crossScoreValue_across (A : LetterCodes) (ld : LetterDistribution) (m : Move)
    (cell : Nat → Int × Int) (X0 X1 : Board) (R C : Int) (csd : BoardDirection)
    (hcell : ∀ i, cell i = (R + (i : Int), C))
    (hpl : PlacedOn A m.Tiles cell X0 X1)
    (hw : ∀ i : Nat, i < m.Tiles.length → m.Tiles.getD i 0 ≠ A.PlayedThroughMarker →
      X0.posExists (cell i).1 (cell i).2 = true ∧ X0.occupied A (cell i).1 (cell i).2 = false)
    (r c : Int) (hnt : (r, c, csd) ∉ acrossTargets A m X1 R C csd) :
    crossScoreValue A ld X0 r c = crossScoreValue A ld X1 r c := by
  have hmem := mem_acrossTargets A m X1 R C csd r c csd
  have hchanged := placedOn_changed A m.Tiles cell X0 X1 hpl hw r
  have hrow : ∀ p, (X0.squares r p).letter ≠ (X1.squares r p).letter →
      p = C ∧ X1.occupied A r C = true ∧
        ∃ i : Nat, i < m.Tiles.length ∧ m.Tiles.getD i 0 ≠ A.PlayedThroughMarker ∧
          r = R + (i : Int) := by
    intro p hne
    obtain ⟨⟨i, hi, hne2, hc⟩, _, h3⟩ := hchanged p hne
    rw [hcell] at hc
    simp only [Prod.mk.injEq] at hc
    obtain ⟨e1, e2⟩ := hc
    subst e2
    exact ⟨rfl, h3, i, hi, hne2, e1.symm⟩
  apply crossScoreValue_stable A ld X0 X1 r c hpl.1
  · intro p hne
    exact (hchanged p hne).2.1
  · by_contra hne
    obtain ⟨e, _, i, hi, hne2, hr⟩ := hrow c hne
    exact hnt (hmem.mpr ⟨i, hi, hne2, hr, rfl, Or.inr (Or.inr e)⟩)
  · intro hempty p hp hrun
    by_contra hne
    obtain ⟨e, _, i, hi, hne2, hr⟩ := hrow p hne
    subst e
    have hcn : X1.occupied A r (c - 1 + 1) = false := by
      rw [show c - 1 + 1 = c by omega]
      simp [Board.occupied, hempty]
    have hwe := wordEdge_right A X1 r p (c - 1) (by omega)
      (fun j h1 h2 => hrun j h1 (by omega)) hcn
    exact hnt (hmem.mpr ⟨i, hi, hne2, hr, rfl, Or.inl (by rw [hwe]; omega)⟩)
  · intro hempty p hp hrun
    by_contra hne
    obtain ⟨e, _, i, hi, hne2, hr⟩ := hrow p hne
    subst e
    have hcn : X1.occupied A r (c + 1 - 1) = false := by
      rw [show c + 1 - 1 = c by omega]
      simp [Board.occupied, hempty]
    have hwe := wordEdge_left A X1 r p (c + 1) (by omega)
      (fun j h1 h2 => hrun j (by omega) h2) hcn
    exact hnt (hmem.mpr ⟨i, hi, hne2, hr, rfl, Or.inr (Or.inl (by rw [hwe]; omega))⟩)

/-- The score of a square that `calcForSelf` does not regenerate is the same before
and after the placement. -/
theorem crossScoreValue_self (A : LetterCodes) (ld : LetterDistribution) (m : Move)
    (cell : Nat → Int × Int) (X0 X1 : Board) (R C : Int) (csd : BoardDirection)
    (hcell : ∀ i, cell i = (R, C + (i : Int)))
    (hpl : PlacedOn A m.Tiles cell X0 X1)
    (hw : ∀ i : Nat, i < m.Tiles.length → m.Tiles.getD i 0 ≠ A.PlayedThroughMarker →
      X0.posExists (cell i).1 (cell i).2 = true ∧ X0.occupied A (cell i).1 (cell i).2 = false)
    (hbefore : X0.occupied A R (C - 1) = false)
    (hafter : X0.occupied A R (C + (m.Tiles.length : Int)) = false)
    (r c : Int) (hnt : (r, c, csd) ∉ selfTargets m R C csd) :
    crossScoreValue A ld X0 r c = crossScoreValue A ld X1 r c := by
  have hmem := mem_selfTargets m R C csd r c csd
  have hchanged := placedOn_changed A m.Tiles cell X0 X1 hpl hw r
  have hrow : ∀ p, (X0.squares r p).letter ≠ (X1.squares r p).letter →
      r = R ∧ C ≤ p ∧ p < C + (m.Tiles.length : Int) := by
    intro p hne
    obtain ⟨⟨i, hi, hne2, hc⟩, _, _⟩ := hchanged p hne
    rw [hcell] at hc
    simp only [Prod.mk.injEq] at hc
    obtain ⟨e1, e2⟩ := hc
    subst e1 e2
    exact ⟨rfl, by omega, by omega⟩
  have hkeep : ∀ p, X0.occupied A r p = false →
      ¬ (r = R ∧ C ≤ p ∧ p < C + (m.Tiles.length : Int)) → X1.occupied A r p = false := by
    intro p hp hn
    by_cases hl : (X0.squares r p).letter = (X1.squares r p).letter
    · rw [← occupied_of_letter_eq A hpl.1 hl]; exact hp
    · exact absurd (hrow p hl) hn
  apply crossScoreValue_stable A ld X0 X1 r c hpl.1
  · intro p hne
    exact (hchanged p hne).2.1
  · by_contra hne
    obtain ⟨e1, e2, e3⟩ := hrow c hne
    exact hnt (hmem.mpr ⟨e1, by omega, by omega, rfl⟩)
  · intro _ p hp hrun
    by_contra hne
    obtain ⟨e1, e2, e3⟩ := hrow p hne
    subst e1
    have hc : C + (m.Tiles.length : Int) < c := by
      by_contra hh
      exact hnt (hmem.mpr ⟨rfl, by omega, by omega, rfl⟩)
    have h1 := hrun (C + (m.Tiles.length : Int)) (by omega) hc
    rw [hkeep _ hafter (by omega)] at h1
    exact Bool.false_ne_true h1
  · intro _ p hp hrun
    by_contra hne
    obtain ⟨e1, e2, e3⟩ := hrow p hne
    subst e1
    have hc : c < C - 1 := by
      by_contra hh
      exact hnt (hmem.mpr ⟨rfl, by omega, by omega, rfl⟩)
    have h1 := hrun (C - 1) hc (by omega)
    rw [hkeep _ hbefore (by omega)] at h1
    exact Bool.false_ne_true h1

/-! ## The incremental update against the full scan -/

theorem occupied_transpose (A : LetterCodes) (b : Board) (r c : Int) :
    b.Transpose.occupied A r c = b.occupied A c r := by
  simp only [Board.occupied, posExists_transpose]
  rfl

theorem placedOn_transpose (A : LetterCodes) (ts : List MachineLetter) (cell : Nat → Int × Int)
    (X0 X1 : Board) (h : PlacedOn A ts cell X0 X1) :
    PlacedOn A ts (fun i => ((cell i).2, (cell i).1)) X0.Transpose X1.Transpose := by
  refine ⟨h.1, fun i hi hne => h.2.1 i hi hne, fun r c hc => ?_⟩
  apply h.2.2 c r
  intro i hi hne heq
  apply hc i hi hne
  simp only [heq]

theorem acrossTargets_dir (A : LetterCodes) (m : Move) (b : Board) (R C : Int)
    (csd : BoardDirection) (r c : Int) (d : BoardDirection) (hd : d ≠ csd) :
    (r, c, d) ∉ acrossTargets A m b R C csd := by
  intro h
  obtain ⟨_, _, _, _, e, _⟩ := (mem_acrossTargets A m b R C csd r c d).mp h
  exact hd e

theorem selfTargets_dir (m : Move) (R C : Int) (csd : BoardDirection) (r c : Int)
    (d : BoardDirection) (hd : d ≠ csd) : (r, c, d) ∉ selfTargets m R C csd := by
  intro h
  exact hd ((mem_selfTargets m R C csd r c d).mp h).2.2.2

theorem wellFormed_cells (A : LetterCodes) (m : Move) (b : Board) (hwf : m.WellFormed A b)
    (i : Nat) (hi : i < m.Tiles.length) (hne : m.Tiles.getD i 0 ≠ A.PlayedThroughMarker) :
    b.posExists (m.tileCell i).1 (m.tileCell i).2 = true ∧
      b.occupied A (m.tileCell i).1 (m.tileCell i).2 = false := by
  refine ⟨hwf.1 i hi, ?_⟩
  by_contra h
  exact hne ((hwf.2.1 i hi).mpr (by simpa using h))

/-- After a well-formed move is placed on a board that carries the scores of a full
scan, the incremental update leaves on every square the scores of a full scan of the
new layout. -/
theorem updateFold_score (A : LetterCodes) (ld : LetterDistribution) (bg b1 : Board) (m : Move)
    (hfix : ∀ r c d, bg.posExists r c = true →
      (bg.squares r c).GetCrossScore d = scanValue A ld bg r c d)
    (hwf : m.WellFormed A bg)
    (hpl : PlacedOn A m.Tiles m.tileCell bg b1)
    (hsc : ∀ r c d, (b1.squares r c).GetCrossScore d = (bg.squares r c).GetCrossScore d)
    (r c : Int) (d : BoardDirection) (hin : bg.posExists r c = true) :
    ((updateFold A ld b1 m).squares r c).GetCrossScore d = scanValue A ld b1 r c d := by
  have hT : ∀ (bb : Board) (x y : Int), bb.Transpose.squares x y = bb.squares y x :=
    fun _ _ _ => rfl
  have hin1 : b1.posExists r c = true := by
    rw [← posExists_of_dim_eq hpl.1]; exact hin
  have hw := wellFormed_cells A m bg hwf
  have hplT := placedOn_transpose A m.Tiles m.tileCell bg b1 hpl
  have hwT : ∀ i : Nat, i < m.Tiles.length → m.Tiles.getD i 0 ≠ A.PlayedThroughMarker →
      bg.Transpose.posExists (m.tileCell i).2 (m.tileCell i).1 = true ∧
        bg.Transpose.occupied A (m.tileCell i).2 (m.tileCell i).1 = false := by
    intro i hi hne
    rw [posExists_transpose, occupied_transpose]
    exact hw i hi hne
  have hbefore := hwf.2.2.1
  have hafter := hwf.2.2.2
  unfold updateFold
  by_cases hv : m.vertical = true
  · have hcell : ∀ i, m.tileCell i = (m.row + (i : Int), m.col) := by
      intro i; simp [Move.tileCell, hv]
    have hcellT : ∀ i, (fun i => ((m.tileCell i).2, (m.tileCell i).1)) i
        = (m.col, m.row + (i : Int)) := by
      intro i; simp [Move.tileCell, hv]
    simp only [Move.cellBefore, Move.cellAfter, Move.tileCell, hv, if_true] at hbefore hafter
    rw [if_pos hv, hT, foldl_regen_score]
    have hpT : (Board.Transpose ((acrossTargets A m b1 m.row m.col .Horizontal).foldl
        (regen A ld) b1)).posExists c r = true := by
      rw [posExists_transpose, ← posExists_congr (foldl_regen_sameLetters A ld _ b1)]
      exact hin1
    have hslT : SameLetters b1.Transpose
        (Board.Transpose ((acrossTargets A m b1 m.row m.col .Horizontal).foldl
          (regen A ld) b1)) :=
      sameLetters_transpose (foldl_regen_sameLetters A ld _ b1)
    cases d with
    | Horizontal =>
      rw [if_neg (fun h => selfTargets_dir m m.col m.row .Vertical c r .Horizontal
        (by decide) h.1), hT, foldl_regen_score]
      by_cases ht : (r, c, BoardDirection.Horizontal)
          ∈ acrossTargets A m b1 m.row m.col .Horizontal
      · rw [if_pos ⟨ht, hin1⟩]; rfl
      · rw [if_neg (fun h => ht h.1), hsc, hfix r c _ hin]
        exact crossScoreValue_across A ld m m.tileCell bg b1 m.row m.col .Horizontal hcell
          hpl hw r c ht
    | Vertical =>
      by_cases ht : (c, r, BoardDirection.Vertical) ∈ selfTargets m m.col m.row .Vertical
      · rw [if_pos ⟨ht, hpT⟩]
        exact (crossScoreValue_congr A ld hslT c r
          (by rw [posExists_transpose]; exact hin1)).symm
      · rw [if_neg (fun h => ht h.1), hT, foldl_regen_score,
          if_neg (fun h => acrossTargets_dir A m b1 m.row m.col .Horizontal r c .Vertical
            (by decide) h.1), hsc, hfix r c _ hin]
        exact crossScoreValue_self A ld m _ bg.Transpose b1.Transpose m.col m.row .Vertical
          hcellT hplT hwT (by rw [occupied_transpose]; exact hbefore)
          (by rw [occupied_transpose]; exact hafter) c r ht
  · have hv2 : m.vertical = false := by simpa using hv
    have hcell : ∀ i, m.tileCell i = (m.row, m.col + (i : Int)) := by
      intro i; simp [Move.tileCell, hv2]
    have hcellT : ∀ i, (fun i => ((m.tileCell i).2, (m.tileCell i).1)) i
        = (m.col + (i : Int), m.row) := by
      intro i; simp [Move.tileCell, hv2]
    simp only [Move.cellBefore, Move.cellAfter, Move.tileCell, hv2, Bool.false_eq_true,
      if_false] at hbefore hafter
    rw [if_neg hv, hT, foldl_regen_score]
    have hpT : (Board.Transpose ((selfTargets m m.row m.col .Horizontal).foldl
        (regen A ld) b1)).posExists c r = true := by
      rw [posExists_transpose, ← posExists_congr (foldl_regen_sameLetters A ld _ b1)]
      exact hin1
    have hslT : SameLetters b1.Transpose
        (Board.Transpose ((selfTargets m m.row m.col .Horizontal).foldl (regen A ld) b1)) :=
      sameLetters_transpose (foldl_regen_sameLetters A ld _ b1)
    cases d with
    | Horizontal =>
      rw [if_neg (fun h => acrossTargets_dir A m b1.Transpose m.col m.row .Vertical c r
        .Horizontal (by decide) h.1), hT, foldl_regen_score]
      by_cases ht : (r, c, BoardDirection.Horizontal) ∈ selfTargets m m.row m.col .Horizontal
      · rw [if_pos ⟨ht, hin1⟩]; rfl
      · rw [if_neg (fun h => ht h.1), hsc, hfix r c _ hin]
        exact crossScoreValue_self A ld m m.tileCell bg b1 m.row m.col .Horizontal hcell
          hpl hw hbefore hafter r c ht
    | Vertical =>
      by_cases ht : (c, r, BoardDirection.Vertical)
          ∈ acrossTargets A m b1.Transpose m.col m.row .Vertical
      · rw [if_pos ⟨ht, hpT⟩]
        exact (crossScoreValue_congr A ld hslT c r
          (by rw [posExists_transpose]; exact hin1)).symm
      · rw [if_neg (fun h => ht h.1), hT, foldl_regen_score,
          if_neg (fun h => selfTargets_dir m m.row m.col .Horizontal r c .Vertical
            (by decide) h.1), hsc, hfix r c _ hin]
        exact crossScoreValue_across A ld m _ bg.Transpose b1.Transpose m.col m.row .Vertical
          hcellT hplT hwT c r ht

theorem placedOn_sameLetters (A : LetterCodes) (ts : List MachineLetter)
    (cell : Nat → Int × Int) (X0 X1 Y0 Y1 : Board) (h : SameLetters X0 Y0)
    (hx : PlacedOn A ts cell X0 X1) (hy : PlacedOn A ts cell Y0 Y1) : SameLetters X1 Y1 := by
  refine ⟨by rw [← hx.1, ← hy.1, h.1], fun r c hp => ?_⟩
  have hp0 : X0.posExists r c = true := by rw [posExists_of_dim_eq hx.1]; exact hp
  by_cases hex : ∃ i : Nat, i < ts.length ∧ ts.getD i 0 ≠ A.PlayedThroughMarker ∧ cell i = (r, c)
  · obtain ⟨i, hi, hne, hc⟩ := hex
    have h1 := hx.2.1 i hi hne
    have h2 := hy.2.1 i hi hne
    rw [hc] at h1 h2
    simp only at h1 h2
    rw [h1, h2]
  · have hno : ∀ i : Nat, i < ts.length → ts.getD i 0 ≠ A.PlayedThroughMarker →
        cell i ≠ (r, c) := fun i hi hne hc => hex ⟨i, hi, hne, hc⟩
    rw [hx.2.2 r c hno, hy.2.2 r c hno]
    exact h.2 r c hp0

theorem fullScan_fixed (A : LetterCodes) (ld : LetterDistribution) (b : Board) (r c : Int)
    (d : BoardDirection) (hin : (fullScan A ld b).posExists r c = true) :
    ((fullScan A ld b).squares r c).GetCrossScore d = scanValue A ld (fullScan A ld b) r c d := by
  rw [posExists_fullScan] at hin
  rw [fullScan_score, if_pos hin]
  exact scanValue_congr A ld (sameLetters_fullScan A ld b) r c d hin

/-! ## The claims -/

theorem regen_getCrossScore (A : LetterCodes) (ld : LetterDistribution) (b : Board)
    (row col : Int) (dir : BoardDirection) (hin : b.posExists row col = true) :
    (regen A ld b (row, col, dir)).GetCrossScore row col dir
      = some (crossScoreValue A ld b row col) := by
  have hp1 : (regen A ld b (row, col, dir)).posExists row col = true := by
    rw [← posExists_congr (regen_sameLetters A ld b _)]; exact hin
  simp only [Board.GetCrossScore, Board.GetSquare, hp1, if_true, Option.map_some',
    regen_squares, hin, and_self, getCrossScore_setCrossScore]

/-- C1: full-rescan equivalence. Let `bg` be a board whose cross-scores were produced
by `GenerateAll`, `m` a well-formed move on it, and `c0` any board with the same
layout (same size, same letters). Placing the tiles of `m` on `bg` and calling
`UpdateForMove` succeeds and yields, on every square of the board, the same letter
and the same two cross-scores as placing the tiles on `c0` and calling
`GenerateAll`. -/
theorem C1_update_equals_full_rescan (A : LetterCodes) (ld : LetterDistribution)
    (b0 bg c0 : Board) (m : Move)
    (hgen : CrossScoreOnlyGenerator.GenerateAll A ld b0 = some bg)
    (hwf : m.WellFormed A bg)
    (hlay : SameLetters bg c0) :
    ∃ b1 b2 c1 c2, bg.PlaceMoveTiles A m = some b1 ∧
      CrossScoreOnlyGenerator.UpdateForMove A ld b1 m = some b2 ∧
      c0.PlaceMoveTiles A m = some c1 ∧
      CrossScoreOnlyGenerator.GenerateAll A ld c1 = some c2 ∧
      ∀ r c, bg.posExists r c = true →
        (b2.squares r c).letter = (c2.squares r c).letter ∧
        ∀ d, (b2.squares r c).GetCrossScore d = (c2.squares r c).GetCrossScore d := by
  have hbg : bg = fullScan A ld b0 := by
    unfold CrossScoreOnlyGenerator.GenerateAll at hgen
    rw [generateAll_eq] at hgen
    exact (Option.some.inj hgen).symm
  obtain ⟨b1, hb1⟩ := placeMoveTiles_isSome A bg m hwf.1
  have honc : m.OnBoard c0 := fun i hi => by
    rw [← posExists_of_dim_eq hlay.1]; exact hwf.1 i hi
  obtain ⟨c1, hc1⟩ := placeMoveTiles_isSome A c0 m honc
  obtain ⟨hplb, _, hscb, _⟩ := placeMoveTiles_spec A bg b1 m hb1
  obtain ⟨hplc, _, _, _⟩ := placeMoveTiles_spec A c0 c1 m hc1
  have hsl : SameLetters b1 c1 :=
    placedOn_sameLetters A m.Tiles m.tileCell bg b1 c0 c1 hlay hplb hplc
  refine ⟨b1, updateFold A ld b1 m, c1, fullScan A ld c1, hb1, updateForMove_eq A ld b1 m,
    hc1, generateAll_eq A ld c1, fun r c hin => ?_⟩
  have hin1 : b1.posExists r c = true := by
    rw [← posExists_of_dim_eq hplb.1]; exact hin
  have hinc : c1.posExists r c = true := by
    rw [← posExists_congr hsl]; exact hin1
  refine ⟨?_, fun d => ?_⟩
  · rw [updateFold_letter, fullScan_letter]
    exact hsl.2 r c hin1
  · rw [updateFold_score A ld bg b1 m
      (fun r c d h => by subst hbg; exact fullScan_fixed A ld b0 r c d h)
      hwf hplb hscb r c d hin, fullScan_score, if_pos hinc]
    exact scanValue_congr A ld hsl r c d hin1

/-- Witness for C1: the board with CAT after a full scan, the move EAR played
vertically through the A, and a fresh board with the same layout. -/
theorem C1_update_equals_full_rescan_witness :
    earMove.WellFormed exampleCodes (fullScan exampleCodes exampleDist catBoard) ∧
    ∃ b1 b2 c1 c2,
      (fullScan exampleCodes exampleDist catBoard).PlaceMoveTiles exampleCodes earMove
        = some b1 ∧
      CrossScoreOnlyGenerator.UpdateForMove exampleCodes exampleDist b1 earMove = some b2 ∧
      catBoardFresh.PlaceMoveTiles exampleCodes earMove = some c1 ∧
      CrossScoreOnlyGenerator.GenerateAll exampleCodes exampleDist c1 = some c2 ∧
      ∀ r c, (fullScan exampleCodes exampleDist catBoard).posExists r c = true →
        (b2.squares r c).letter = (c2.squares r c).letter ∧
        ∀ d, (b2.squares r c).GetCrossScore d = (c2.squares r c).GetCrossScore d :=
  ⟨by decide,
   C1_update_equals_full_rescan exampleCodes exampleDist catBoard
    (fullScan exampleCodes exampleDist catBoard) catBoardFresh earMove
    (generateAll_eq exampleCodes exampleDist catBoard) (by decide)
    (sameLetters_trans (sameLetters_symm (sameLetters_fullScan exampleCodes exampleDist catBoard))
      ⟨rfl, fun _ _ _ => rfl⟩)⟩

/-- C2: on an in-range empty square `(row, col)`, with `[lo, col - 1]` the maximal
contiguous occupied run ending at `col - 1` and `[col + 1, hi]` the maximal contiguous
occupied run starting at `col + 1`, `Generate(row, col, dir)` of the score-only
generator stores for `dir` the sum of the point values of the tiles of the two runs,
each tile once, a blank counting zero. The statement also covers the square without
an occupied neighbour, where both runs are empty and the sum is 0. -/
theorem C2_cross_score_is_run_sum (A : LetterCodes) (ld : LetterDistribution) (b : Board)
    (row col : Int) (dir : BoardDirection) (lo hi : Int)
    (hin : b.posExists row col = true)
    (hempty : (b.squares row col).IsEmpty A = true)
    (hlo : lo ≤ col)
    (hleft : ∀ j, lo ≤ j → j < col → b.occupied A row j = true)
    (hlomax : b.occupied A row (lo - 1) = false)
    (hhi : col ≤ hi)
    (hright : ∀ j, col < j → j ≤ hi → b.occupied A row j = true)
    (hhimax : b.occupied A row (hi + 1) = false) :
    ∃ b1, CrossScoreOnlyGenerator.Generate A ld b row col dir = some b1 ∧
      b1.GetCrossScore row col dir = some
        (∑ j in Finset.Icc lo (col - 1), tileScore A ld (b.squares row j).letter
          + ∑ j in Finset.Icc (col + 1) hi, tileScore A ld (b.squares row j).letter) := by
  refine ⟨regen A ld b (row, col, dir), generate_eq A ld b row col dir, ?_⟩
  rw [regen_getCrossScore A ld b row col dir hin,
    crossScoreValue_eq_sum A ld b row col lo hi hempty hlo hleft hlomax hhi hright hhimax]

/-- Witness for C2: the gap (1, 2) between C, blanked A on its left and T on its
right; the stored score is 3 + 0 + 1. -/
theorem C2_cross_score_is_run_sum_witness :
    (∃ b1, CrossScoreOnlyGenerator.Generate exampleCodes exampleDist gapBoard 1 2 .Horizontal
        = some b1 ∧
      b1.GetCrossScore 1 2 .Horizontal = some
        (∑ j in Finset.Icc (0 : Int) (2 - 1),
            tileScore exampleCodes exampleDist (gapBoard.squares 1 j).letter
          + ∑ j in Finset.Icc ((2 : Int) + 1) 3,
            tileScore exampleCodes exampleDist (gapBoard.squares 1 j).letter)) ∧
    (∑ j in Finset.Icc (0 : Int) (2 - 1),
        tileScore exampleCodes exampleDist (gapBoard.squares 1 j).letter
      + ∑ j in Finset.Icc ((2 : Int) + 1) 3,
        tileScore exampleCodes exampleDist (gapBoard.squares 1 j).letter) = 4 :=
  ⟨C2_cross_score_is_run_sum exampleCodes exampleDist gapBoard 1 2 .Horizontal 0 3
    (by decide) (by decide) (by decide) (by decide) (by decide) (by decide) (by decide)
    (by decide), by decide⟩

/-- C3: `GenerateAll` is idempotent. For every board and letter distribution the
first call returns a board, and a second call on that board returns exactly the
same board. -/
theorem C3_generateAll_idempotent (A : LetterCodes) (ld : LetterDistribution) (b : Board) :
    ∃ b1, CrossScoreOnlyGenerator.GenerateAll A ld b = some b1 ∧
      CrossScoreOnlyGenerator.GenerateAll A ld b1 = some b1 := by
  refine ⟨fullScan A ld b, generateAll_eq A ld b, ?_⟩
  unfold CrossScoreOnlyGenerator.GenerateAll
  rw [generateAll_eq, fullScan_idem]

/-- C4: `GenerateAll` and `UpdateForMove` both return with the orientation of the
board as on entry: the `transposed` flag has its entry value and every letter is at
the same `(row, col)` address as before the call, for every board and every move. -/
theorem C4_orientation_restored (A : LetterCodes) (ld : LetterDistribution) (b : Board)
    (m : Move) :
    (∃ b1, CrossScoreOnlyGenerator.GenerateAll A ld b = some b1 ∧
        b1.transposed = b.transposed ∧
        ∀ r c, (b1.squares r c).letter = (b.squares r c).letter) ∧
    (∃ b2, CrossScoreOnlyGenerator.UpdateForMove A ld b m = some b2 ∧
        b2.transposed = b.transposed ∧
        ∀ r c, (b2.squares r c).letter = (b.squares r c).letter) :=
  ⟨⟨fullScan A ld b, generateAll_eq A ld b, rfl, fullScan_letter A ld b⟩,
   ⟨updateFold A ld b m, updateForMove_eq A ld b m, updateFold_transposed A ld b m,
    updateFold_letter A ld b m⟩⟩

/-- C5: on an in-range occupied square `Generate(row, col, dir)` stores cross-score
0 for `dir`, whatever the neighbours hold; and after `GenerateAll` the square has
cross-score 0 on both axes. -/
theorem C5_occupied_score_zero (A : LetterCodes) (ld : LetterDistribution) (b : Board)
    (row col : Int) (dir : BoardDirection)
    (hin : b.posExists row col = true)
    (hocc : (b.squares row col).IsEmpty A = false) :
    (∃ b1, CrossScoreOnlyGenerator.Generate A ld b row col dir = some b1 ∧
        b1.GetCrossScore row col dir = some 0) ∧
    (∃ b2, CrossScoreOnlyGenerator.GenerateAll A ld b = some b2 ∧
        ∀ d, b2.GetCrossScore row col d = some 0) := by
  have hv : crossScoreValue A ld b row col = 0 := by simp [crossScoreValue, hocc]
  have hvT : crossScoreValue A ld b.Transpose col row = 0 := by
    have : (b.Transpose.squares col row).IsEmpty A = false := hocc
    simp [crossScoreValue, this]
  constructor
  · refine ⟨regen A ld b (row, col, dir), generate_eq A ld b row col dir, ?_⟩
    have hp1 : (regen A ld b (row, col, dir)).posExists row col = true := by
      rw [← posExists_congr (regen_sameLetters A ld b _)]; exact hin
    simp only [Board.GetCrossScore, Board.GetSquare, hp1, if_true, Option.map_some',
      regen_squares, hin, and_self, getCrossScore_setCrossScore, hv]
  · refine ⟨fullScan A ld b, generateAll_eq A ld b, fun d => ?_⟩
    have hp1 : (fullScan A ld b).posExists row col = true := by
      rw [posExists_fullScan]; exact hin
    simp only [Board.GetCrossScore, Board.GetSquare, hp1, if_true, Option.map_some',
      fullScan_score, hin]
    cases d <;> simp [scanValue, hv, hvT]

/-- Witness for C5: the square holding the A of CAT. -/
theorem C5_occupied_score_zero_witness :
    (∃ b1, CrossScoreOnlyGenerator.Generate exampleCodes exampleDist catBoard 2 2 .Horizontal
          = some b1 ∧ b1.GetCrossScore 2 2 .Horizontal = some 0) ∧
    (∃ b2, CrossScoreOnlyGenerator.GenerateAll exampleCodes exampleDist catBoard = some b2 ∧
        ∀ d, b2.GetCrossScore 2 2 d = some 0) :=
  C5_occupied_score_zero exampleCodes exampleDist catBoard 2 2 .Horizontal (by decide)
    (by decide)

/-- C6: on an in-range empty square whose two neighbours along the scanned axis
are each empty or off-board, `Generate(row, col, dir)` stores cross-score 0. -/
theorem C6_isolated_score_zero (A : LetterCodes) (ld : LetterDistribution) (b : Board)
    (row col : Int) (dir : BoardDirection)
    (hin : b.posExists row col = true)
    (hempty : (b.squares row col).IsEmpty A = true)
    (hleft : b.posExists row (col - 1) = true → (b.squares row (col - 1)).IsEmpty A = true)
    (hright : b.posExists row (col + 1) = true → (b.squares row (col + 1)).IsEmpty A = true) :
    ∃ b1, CrossScoreOnlyGenerator.Generate A ld b row col dir = some b1 ∧
      b1.GetCrossScore row col dir = some 0 := by
  have hlr : b.LeftAndRightEmpty A row col = true := by
    simp only [Board.LeftAndRightEmpty, Board.occupied, Bool.and_eq_true, Bool.not_eq_true',
      Bool.and_eq_false_iff, Bool.not_eq_false']
    constructor
    · by_cases h : b.posExists row (col - 1) = true
      · exact Or.inr (hleft h)
      · exact Or.inl (by simpa using h)
    · by_cases h : b.posExists row (col + 1) = true
      · exact Or.inr (hright h)
      · exact Or.inl (by simpa using h)
  have hv : crossScoreValue A ld b row col = 0 := by simp [crossScoreValue, hempty, hlr]
  refine ⟨regen A ld b (row, col, dir), generate_eq A ld b row col dir, ?_⟩
  have hp1 : (regen A ld b (row, col, dir)).posExists row col = true := by
    rw [← posExists_congr (regen_sameLetters A ld b _)]; exact hin
  simp only [Board.GetCrossScore, Board.GetSquare, hp1, if_true, Option.map_some',
    regen_squares, hin, and_self, getCrossScore_setCrossScore, hv]

/-- Witness for C6: the corner square (0, 0) of the CAT board, whose stored score
was 7 before the call. -/
theorem C6_isolated_score_zero_witness :
    ∃ b1, CrossScoreOnlyGenerator.Generate exampleCodes exampleDist catBoard 0 0 .Vertical
        = some b1 ∧ b1.GetCrossScore 0 0 .Vertical = some 0 :=
  C6_isolated_score_zero exampleCodes exampleDist catBoard 0 0 .Vertical (by decide)
    (by decide) (by decide) (by decide)

/-- C7 as stated fails: there is no cross-set value that `Generate` of the
score-only generator leaves on every isolated empty square whatever the square held
before. On the corner of the CAT board the cross-set stays 0 when it was 0 and
stays 1 when it was 1. -/
theorem C7_trivial_crossSet_counterexample :
    ¬ ∃ trivial : CrossSet, ∀ (A : LetterCodes) (ld : LetterDistribution) (b : Board)
      (row col : Int) (dir : BoardDirection),
      b.posExists row col = true →
      (b.squares row col).IsEmpty A = true →
      (b.posExists row (col - 1) = true → (b.squares row (col - 1)).IsEmpty A = true) →
      (b.posExists row (col + 1) = true → (b.squares row (col + 1)).IsEmpty A = true) →
      ∃ b1, CrossScoreOnlyGenerator.Generate A ld b row col dir = some b1 ∧
        b1.GetCrossSet row col dir = some trivial := by
  rintro ⟨trivial, h⟩
  obtain ⟨b1, h1, h2⟩ := h exampleCodes exampleDist catBoard 0 0 .Horizontal
    (by decide) (by decide) (by decide) (by decide)
  obtain ⟨b2, h3, h4⟩ := h exampleCodes exampleDist catBoardOnes 0 0 .Horizontal
    (by decide) (by decide) (by decide) (by decide)
  rw [generate_eq] at h1 h3
  cases h1
  cases h3
  have e1 : (regen exampleCodes exampleDist catBoard (0, 0, .Horizontal)).GetCrossSet 0 0
      .Horizontal = some 0 := by decide
  have e2 : (regen exampleCodes exampleDist catBoardOnes (0, 0, .Horizontal)).GetCrossSet 0 0
      .Horizontal = some 1 := by decide
  rw [e1] at h2
  rw [e2] at h4
  cases h2
  cases h4

/-- C7, amended: on an in-range empty square whose two neighbours along the scanned
axis are each empty or off-board, `Generate(row, col, dir)` of the score-only
generator leaves both cross-sets of every square, that square included, exactly as
they were before the call. -/
theorem C7_crossSet_unchanged (A : LetterCodes) (ld : LetterDistribution) (b : Board)
    (row col : Int) (dir : BoardDirection)
    (hin : b.posExists row col = true)
    (_hempty : (b.squares row col).IsEmpty A = true)
    (_hleft : b.posExists row (col - 1) = true → (b.squares row (col - 1)).IsEmpty A = true)
    (_hright : b.posExists row (col + 1) = true → (b.squares row (col + 1)).IsEmpty A = true) :
    ∃ b1, CrossScoreOnlyGenerator.Generate A ld b row col dir = some b1 ∧
      b1.GetCrossSet row col dir = b.GetCrossSet row col dir ∧
      ∀ r c d, (b1.squares r c).GetCrossSet d = (b.squares r c).GetCrossSet d := by
  refine ⟨regen A ld b (row, col, dir), generate_eq A ld b row col dir, ?_, ?_⟩
  · have hp1 : (regen A ld b (row, col, dir)).posExists row col = true := by
      rw [← posExists_congr (regen_sameLetters A ld b _)]; exact hin
    simp only [Board.GetCrossSet, Board.GetSquare, hp1, hin, if_true, Option.map_some']
    cases dir
    · simp only [Square.GetCrossSet, regen_hcrossSet]
    · simp only [Square.GetCrossSet, regen_vcrossSet]
  · intro r c d
    cases d
    · simp only [Square.GetCrossSet, regen_hcrossSet]
    · simp only [Square.GetCrossSet, regen_vcrossSet]

/-- Witness for C7, amended: the corner of the CAT board keeps its cross-set. -/
theorem C7_crossSet_unchanged_witness :
    ∃ b1, CrossScoreOnlyGenerator.Generate exampleCodes exampleDist catBoard 0 0 .Horizontal
        = some b1 ∧
      b1.GetCrossSet 0 0 .Horizontal = catBoard.GetCrossSet 0 0 .Horizontal ∧
      ∀ r c d, (b1.squares r c).GetCrossSet d = (catBoard.squares r c).GetCrossSet d :=
  C7_crossSet_unchanged exampleCodes exampleDist catBoard 0 0 .Horizontal (by decide)
    (by decide) (by decide) (by decide)

/-- C8: a coordinate outside the grid makes `Generate(row, col, dir)` return
without failure and with the whole board unchanged. -/
theorem C8_out_of_range_noop (A : LetterCodes) (ld : LetterDistribution) (b : Board)
    (row col : Int) (dir : BoardDirection)
    (hout : row < 0 ∨ row ≥ b.Dim ∨ col < 0 ∨ col ≥ b.Dim) :
    CrossScoreOnlyGenerator.Generate A ld b row col dir = some b := by
  unfold CrossScoreOnlyGenerator.Generate genCrossScore
  rw [if_pos hout]

/-- Witness for C8: column 5 of a 5 x 5 board. -/
theorem C8_out_of_range_noop_witness :
    CrossScoreOnlyGenerator.Generate exampleCodes exampleDist catBoard 2 5 .Horizontal
      = some catBoard :=
  C8_out_of_range_noop exampleCodes exampleDist catBoard 2 5 .Horizontal (by decide)

/-! ### The recorded `WordEdge` calls -/

theorem genCrossScoreEdges_spec (A : LetterCodes) (ld : LetterDistribution) (s : EdgeTraced)
    (row col : Int) (dir : BoardDirection) :
    ∃ E : List EdgeCall,
      genCrossScoreEdges A s row col dir ld = some (regen A ld s.1 (row, col, dir), s.2 ++ E) ∧
      ∀ c ∈ E, c = EdgeCall.mk .generate row (col + 1) Right ∧
        s.1.posExists row col = true := by
  unfold genCrossScoreEdges regen
  by_cases hp : s.1.posExists row col = true
  · have hr := (posExists_iff s.1 row col).mp hp
    have hguard : ¬ (row < 0 ∨ row ≥ s.1.Dim ∨ col < 0 ∨ col ≥ s.1.Dim) := by
      simp only [Board.Dim]; omega
    simp only [hguard, if_false, Board.GetSquare, hp, if_true, Option.some_bind,
      Board.SetCrossScore, Option.map_some', crossScoreValue]
    split
    · exact ⟨[], by simp, by simp⟩
    · split
      · exact ⟨[], by simp, by simp⟩
      · refine ⟨[EdgeCall.mk .generate row (col + 1) Right], ?_, ?_⟩
        · split <;> rfl
        · intro c hc
          exact ⟨List.mem_singleton.mp hc, trivial⟩
  · have hguard : row < 0 ∨ row ≥ s.1.Dim ∨ col < 0 ∨ col ≥ s.1.Dim := by
      have := (posExists_iff s.1 row col).not.mp hp
      simp only [Board.Dim]; omega
    exact ⟨[], by simp [hguard, hp], by simp⟩

theorem generateEdges_startWithin (A : LetterCodes) (ld : LetterDistribution) (b0 : Board)
    (s : EdgeTraced) (row col : Int) (dir : BoardDirection) (hd : s.1.dim = b0.dim)
    (hP : ∀ c ∈ s.2, c.StartWithin b0) :
    ∃ s1, CrossScoreOnlyGenerator.GenerateEdges A ld s row col dir = some s1 ∧
      s1.1 = regen A ld s.1 (row, col, dir) ∧ ∀ c ∈ s1.2, c.StartWithin b0 := by
  obtain ⟨E, h1, h2⟩ := genCrossScoreEdges_spec A ld s row col dir
  refine ⟨_, h1, rfl, ?_⟩
  intro c hc
  rcases List.mem_append.mp hc with hc | hc
  · exact hP c hc
  · obtain ⟨e, hp⟩ := h2 c hc
    have hr := (posExists_iff s.1 row col).mp hp
    subst e
    rw [hd] at hr
    exact ⟨hr.1, hr.2.1, fun h => EdgeSite.noConfusion h,
      fun _ => ⟨by show 1 ≤ col + 1; omega, by show col + 1 ≤ (b0.dim : Int); omega⟩⟩

theorem forLoopEdges_regen (A : LetterCodes) (ld : LetterDistribution) (b0 : Board)
    (P : EdgeCall → Prop) (body : Int → EdgeTraced → Option EdgeTraced) (T : Int → List Target)
    (n : Nat) (i : Int)
    (hbody : ∀ k (s : EdgeTraced), i ≤ k → k < i + (n : Int) → SameLetters b0 s.1 →
      (∀ c ∈ s.2, P c) →
      ∃ s1, body k s = some s1 ∧ s1.1 = (T k).foldl (regen A ld) s.1 ∧ ∀ c ∈ s1.2, P c)
    (s : EdgeTraced) (h : SameLetters b0 s.1) (hP : ∀ c ∈ s.2, P c) :
    ∃ s1, forLoopEdges body n i s = some s1 ∧
      s1.1 = (loopTargets T n i).foldl (regen A ld) s.1 ∧ ∀ c ∈ s1.2, P c := by
  induction n generalizing i s with
  | zero => exact ⟨s, rfl, rfl, hP⟩
  | succ n ih =>
    obtain ⟨s1, e1, e2, e3⟩ := hbody i s (le_refl _) (by push_cast; omega) h hP
    obtain ⟨s2, f1, f2, f3⟩ := ih (i + 1)
      (fun k s3 h1 h2 h3 h4 => hbody k s3 (by omega) (by push_cast; omega) h3 h4) s1
      (by rw [e2]; exact sameLetters_trans h (foldl_regen_sameLetters A ld (T i) s.1)) e3
    refine ⟨s2, ?_, ?_, f3⟩
    · simp only [forLoopEdges, e1, Option.some_bind, f1]
    · rw [f2, e2, loopTargets, List.foldl_append]

theorem calcForSelfEdges_spec (A : LetterCodes) (ld : LetterDistribution) (b0 : Board)
    (m : Move) (s : EdgeTraced) (h : SameLetters b0 s.1) (hP : ∀ c ∈ s.2, c.StartWithin b0)
    (rowStart colStart : Int) (csd : BoardDirection) :
    ∃ s1, calcForSelfEdges (CrossScoreOnlyGenerator.GenerateEdges A ld) m s rowStart colStart csd
        = some s1 ∧
      s1.1 = (selfTargets m rowStart colStart csd).foldl (regen A ld) s.1 ∧
      ∀ c ∈ s1.2, c.StartWithin b0 := by
  apply forLoopEdges_regen A ld b0 _ _ _ _ _ _ s h hP
  intro col s1 _ _ h1 hP1
  exact generateEdges_startWithin A ld b0 s1 rowStart col csd h1.1.symm hP1

theorem calcForAcrossEdges_spec (A : LetterCodes) (ld : LetterDistribution) (b0 : Board)
    (m : Move) (s : EdgeTraced) (h : SameLetters b0 s.1) (hP : ∀ c ∈ s.2, c.StartWithin b0)
    (rowStart colStart : Int) (csd : BoardDirection)
    (hon : ∀ i : Nat, i < m.Tiles.length → b0.posExists (rowStart + (i : Int)) colStart = true) :
    ∃ s1, calcForAcrossEdges A (CrossScoreOnlyGenerator.GenerateEdges A ld) m s
        rowStart colStart csd = some s1 ∧
      s1.1 = (acrossTargets A m b0 rowStart colStart csd).foldl (regen A ld) s.1 ∧
      ∀ c ∈ s1.2, c.StartWithin b0 := by
  apply forLoopEdges_regen A ld b0 _ _ _ _ _ _ s h hP
  intro row s1 hr1 hr2 h1 hP1
  simp only [acrossRound]
  split
  · exact ⟨s1, rfl, rfl, hP1⟩
  · have hp : b0.posExists row colStart = true := by
      have := hon (row - rowStart).toNat (by omega)
      rwa [Int.toNat_of_nonneg (by omega), show rowStart + (row - rowStart) = row by omega]
        at this
    have hr := (posExists_iff b0 row colStart).mp hp
    have hP2 : ∀ c ∈ s1.2 ++ [EdgeCall.mk .across row colStart Right,
        EdgeCall.mk .across row colStart Left], c.StartWithin b0 := by
      intro c hc
      rcases List.mem_append.mp hc with hc | hc
      · exact hP1 c hc
      · simp only [List.mem_cons, List.mem_singleton, List.not_mem_nil, or_false] at hc
        rcases hc with e | e <;> subst e <;>
          exact ⟨hr.1, hr.2.1, fun _ => ⟨hr.2.2.1, hr.2.2.2⟩, fun h => EdgeSite.noConfusion h⟩
    obtain ⟨s3, e1, e2, e3⟩ := generateEdges_startWithin A ld b0
      (s1.1, s1.2 ++ [EdgeCall.mk .across row colStart Right,
        EdgeCall.mk .across row colStart Left])
      row (s1.1.WordEdge A row colStart Right + 1) csd h1.1.symm hP2
    have hs3 : SameLetters b0 s3.1 := by
      rw [e2]; exact sameLetters_trans h1 (regen_sameLetters A ld _ _)
    obtain ⟨s4, f1, f2, f3⟩ := generateEdges_startWithin A ld b0 s3
      row (s1.1.WordEdge A row colStart Left - 1) csd hs3.1.symm e3
    have hs4 : SameLetters b0 s4.1 := by
      rw [f2]; exact sameLetters_trans hs3 (regen_sameLetters A ld _ _)
    obtain ⟨s5, g1, g2, g3⟩ := generateEdges_startWithin A ld b0 s4 row colStart csd hs4.1.symm f3
    refine ⟨s5, ?_, ?_, g3⟩
    · simp only [e1, f1, g1, Option.some_bind]
    · rw [g2, f2, e2]
      simp only [List.foldl_cons, List.foldl_nil]
      rw [wordEdge_congr A h1 row colStart Right, wordEdge_congr A h1 row colStart Left]

theorem updateForMoveEdges_spec (A : LetterCodes) (ld : LetterDistribution) (b : Board)
    (m : Move) (hon : m.OnBoard b) :
    ∃ calls, updateForMoveEdges A (CrossScoreOnlyGenerator.GenerateEdges A ld) b m
        = some (updateFold A ld b m, calls) ∧ ∀ c ∈ calls, c.StartWithin b := by
  unfold updateForMoveEdges updateFold
  simp only [Move.CoordsAndVertical]
  by_cases hv : m.vertical = true
  · rw [if_pos hv, if_pos hv]
    obtain ⟨s1, e1, e2, e3⟩ := calcForAcrossEdges_spec A ld b m (b, []) (sameLetters_refl b)
      (by simp) m.row m.col .Horizontal
      (fun i hi => by simpa [Move.tileCell, hv] using hon i hi)
    have hs1 : SameLetters b.Transpose s1.1.Transpose := by
      rw [e2]; exact sameLetters_transpose (foldl_regen_sameLetters A ld _ b)
    obtain ⟨s3, f1, f2, f3⟩ := calcForSelfEdges_spec A ld b.Transpose m
      (s1.1.Transpose, s1.2) hs1 e3 m.col m.row .Vertical
    refine ⟨s3.2, ?_, f3⟩
    rw [e1]
    simp only [Option.some_bind]
    rw [f1]
    simp only [Option.some_bind, f2, e2]
  · rw [if_neg hv, if_neg hv]
    obtain ⟨s1, e1, e2, e3⟩ := calcForSelfEdges_spec A ld b m (b, []) (sameLetters_refl b)
      (by simp) m.row m.col .Horizontal
    have hs1 : SameLetters b.Transpose s1.1.Transpose := by
      rw [e2]; exact sameLetters_transpose (foldl_regen_sameLetters A ld _ b)
    obtain ⟨s3, f1, f2, f3⟩ := calcForAcrossEdges_spec A ld b.Transpose m
      (s1.1.Transpose, s1.2) hs1 e3 m.col m.row .Vertical
      (fun i hi => by
        rw [posExists_transpose]
        simpa [Move.tileCell, hv] using hon i hi)
    refine ⟨s3.2, ?_, f3⟩
    rw [e1]
    simp only [Option.some_bind]
    rw [f1]
    simp only [Option.some_bind, f2, e2]

/-- C9 as stated fails: the move CAT in row 2, columns 1 to 3 of a 5 x 5 board lies on
the board, and `UpdateForMove` starts `WordEdge` from the square (2, 5), outside the
board: `calcForSelf` calls `Generate(2, 4)`, the square (2, 4) is empty with the T of
CAT to its left, and `genCrossScore` calls `WordEdge(2, 5, Right)`. The calls listed
are all the `WordEdge` calls of the run, in order. -/
theorem C9_wordEdge_start_counterexample :
    catMove.OnBoard catBoard ∧
    catBoard.posExists 2 5 = false ∧
    (updateForMoveEdges exampleCodes
        (CrossScoreOnlyGenerator.GenerateEdges exampleCodes exampleDist)
        catBoard catMove).map Prod.snd
      = some [EdgeCall.mk .generate 2 1 Right, EdgeCall.mk .generate 2 5 Right,
          EdgeCall.mk .across 1 2 Right, EdgeCall.mk .across 1 2 Left,
          EdgeCall.mk .generate 1 4 Right, EdgeCall.mk .generate 1 2 Right,
          EdgeCall.mk .across 2 2 Right, EdgeCall.mk .across 2 2 Left,
          EdgeCall.mk .generate 2 4 Right, EdgeCall.mk .generate 2 2 Right,
          EdgeCall.mk .across 3 2 Right, EdgeCall.mk .across 3 2 Left,
          EdgeCall.mk .generate 3 4 Right, EdgeCall.mk .generate 3 2 Right] := by
  refine ⟨by decide, by decide, ?_⟩
  decide

/-- C9, amended: for a move all of whose tiles lie on the board, `UpdateForMove`
runs to its end with every `GetSquare` call in range (an out-of-range `GetSquare`
would make the run fail) and returns the board of the plain run; a `Generate` call
at a coordinate outside the grid is ignored, leaving the board and the record as
they are; every `WordEdge` call of `calcForAcross` starts from a square of the
board, and every `WordEdge` call made inside `Generate` starts at a row in `[0, N)`
and a column in `[1, N]`, one to the right of a square of the board, so that it may
start at column `N`, one past the last column. -/
theorem C9_update_edge_starts (A : LetterCodes) (ld : LetterDistribution) (b : Board)
    (m : Move) (hon : m.OnBoard b) :
    (∃ b1 calls,
      updateForMoveEdges A (CrossScoreOnlyGenerator.GenerateEdges A ld) b m
        = some (b1, calls) ∧
      CrossScoreOnlyGenerator.UpdateForMove A ld b m = some b1 ∧
      ∀ c ∈ calls, c.StartWithin b) ∧
    ∀ (s : EdgeTraced) (row col : Int) (dir : BoardDirection),
      (row < 0 ∨ row ≥ s.1.Dim ∨ col < 0 ∨ col ≥ s.1.Dim) →
      CrossScoreOnlyGenerator.GenerateEdges A ld s row col dir = some s := by
  obtain ⟨calls, h1, h2⟩ := updateForMoveEdges_spec A ld b m hon
  refine ⟨⟨updateFold A ld b m, calls, h1, updateForMove_eq A ld b m, h2⟩, ?_⟩
  intro s row col dir hout
  unfold CrossScoreOnlyGenerator.GenerateEdges genCrossScoreEdges
  rw [if_pos hout]

/-- Witness for C9, amended: a vertical move in the last column that reaches the
last row. -/
theorem C9_update_edge_starts_witness :
    edgeMove.OnBoard catBoard ∧
    (∃ b1 calls,
      updateForMoveEdges exampleCodes
          (CrossScoreOnlyGenerator.GenerateEdges exampleCodes exampleDist) catBoard edgeMove
        = some (b1, calls) ∧
      CrossScoreOnlyGenerator.UpdateForMove exampleCodes exampleDist catBoard edgeMove
        = some b1 ∧
      ∀ c ∈ calls, c.StartWithin catBoard) ∧
    ∀ (s : EdgeTraced) (row col : Int) (dir : BoardDirection),
      (row < 0 ∨ row ≥ s.1.Dim ∨ col < 0 ∨ col ≥ s.1.Dim) →
      CrossScoreOnlyGenerator.GenerateEdges exampleCodes exampleDist s row col dir = some s :=
  ⟨by decide, C9_update_edge_starts exampleCodes exampleDist catBoard edgeMove (by decide)⟩

/-- C10: `UpdateForMove` changes no letter, and a square outside both the line
of the word of the move (its row for a horizontal move, its column for a vertical
one) and the perpendicular lines through the tiles the move placed (the positions
that are not played-through) is identical before and after the call. -/
theorem C10_update_frame (A : LetterCodes) (ld : LetterDistribution) (b : Board) (m : Move)
    (r c : Int)
    (hout : if m.vertical = true then
        c ≠ m.col ∧ ∀ i : Nat, i < m.Tiles.length →
          m.Tiles.getD i 0 ≠ A.PlayedThroughMarker → r ≠ m.row + (i : Int)
      else
        r ≠ m.row ∧ ∀ i : Nat, i < m.Tiles.length →
          m.Tiles.getD i 0 ≠ A.PlayedThroughMarker → c ≠ m.col + (i : Int)) :
    ∃ b1, CrossScoreOnlyGenerator.UpdateForMove A ld b m = some b1 ∧
      (∀ r1 c1, (b1.squares r1 c1).letter = (b.squares r1 c1).letter) ∧
      b1.squares r c = b.squares r c := by
  refine ⟨updateFold A ld b m, updateForMove_eq A ld b m, updateFold_letter A ld b m, ?_⟩
  have hT : ∀ (bb : Board) (x y : Int), bb.Transpose.squares x y = bb.squares y x :=
    fun _ _ _ => rfl
  unfold updateFold
  by_cases hv : m.vertical = true
  · rw [if_pos hv] at hout
    rw [if_pos hv, hT, foldl_regen_untouched, hT, foldl_regen_untouched]
    · intro d hmem
      obtain ⟨i, hi, hne, hr, _⟩ := (mem_acrossTargets A m b m.row m.col _ r c d).mp hmem
      exact hout.2 i hi hne hr
    · intro d hmem
      exact hout.1 ((mem_selfTargets m m.col m.row _ c r d).mp hmem).1
  · rw [if_neg hv] at hout
    rw [if_neg hv, hT, foldl_regen_untouched, hT, foldl_regen_untouched]
    · intro d hmem
      exact hout.1 ((mem_selfTargets m m.row m.col _ r c d).mp hmem).1
    · intro d hmem
      obtain ⟨i, hi, hne, hr, _⟩ :=
        (mem_acrossTargets A m b.Transpose m.col m.row _ c r d).mp hmem
      exact hout.2 i hi hne hr

/-- Witness for C10: the move CAT in row 2, columns 1 to 3, and the square (0, 0). -/
theorem C10_update_frame_witness :
    ∃ b1, CrossScoreOnlyGenerator.UpdateForMove exampleCodes exampleDist catBoard catMove
        = some b1 ∧
      (∀ r1 c1, (b1.squares r1 c1).letter = (catBoard.squares r1 c1).letter) ∧
      b1.squares 0 0 = catBoard.squares 0 0 :=
  C10_update_frame exampleCodes exampleDist catBoard catMove 0 0 (by decide)

/-! ## The recorded `Generate` calls -/

theorem tracedGenerate_eq (A : LetterCodes) (ld : LetterDistribution) (s : Traced)
    (row col : Int) (dir : BoardDirection) :
    tracedGenerate (CrossScoreOnlyGenerator.Generate A ld) s row col dir
      = some (regen A ld s.1 (row, col, dir), s.2 ++ [(row, col, dir)]) := by
  simp [tracedGenerate, generate_eq]

theorem forLoopTraced_regen (A : LetterCodes) (ld : LetterDistribution) (b0 : Board)
    (body : Int → Traced → Option Traced) (T : Int → List Target)
    (hbody : ∀ i (s : Traced), SameLetters b0 s.1 →
      body i s = some ((T i).foldl (regen A ld) s.1, s.2 ++ T i))
    (n : Nat) (i : Int) (s : Traced) (h : SameLetters b0 s.1) :
    forLoopTraced body n i s
      = some ((loopTargets T n i).foldl (regen A ld) s.1, s.2 ++ loopTargets T n i) := by
  induction n generalizing i s with
  | zero => simp [forLoopTraced, loopTargets]
  | succ n ih =>
    simp only [forLoopTraced, loopTargets, hbody i s h, Option.some_bind, List.foldl_append]
    rw [ih (i + 1) _ (sameLetters_trans h (foldl_regen_sameLetters A ld (T i) s.1))]
    simp [List.append_assoc]

theorem calcForSelfTraced_eq (A : LetterCodes) (ld : LetterDistribution) (m : Move)
    (s : Traced) (rowStart colStart : Int) (csd : BoardDirection) :
    calcForSelfTraced (CrossScoreOnlyGenerator.Generate A ld) m s rowStart colStart csd =
      some ((selfTargets m rowStart colStart csd).foldl (regen A ld) s.1,
        s.2 ++ selfTargets m rowStart colStart csd) := by
  apply forLoopTraced_regen A ld s.1 _ _ _ _ _ s (sameLetters_refl s.1)
  intro col s1 _
  simp [tracedGenerate_eq]

theorem calcForAcrossTraced_eq (A : LetterCodes) (ld : LetterDistribution) (m : Move)
    (b0 : Board) (s : Traced) (h : SameLetters b0 s.1) (rowStart colStart : Int)
    (csd : BoardDirection) :
    calcForAcrossTraced A (CrossScoreOnlyGenerator.Generate A ld) m s rowStart colStart csd =
      some ((acrossTargets A m b0 rowStart colStart csd).foldl (regen A ld) s.1,
        s.2 ++ acrossTargets A m b0 rowStart colStart csd) := by
  apply forLoopTraced_regen A ld b0 _ _ _ _ _ s h
  intro row s1 h1
  simp only [acrossRound]
  split
  · simp
  · simp only [tracedGenerate_eq, Option.some_bind, List.foldl_cons, List.foldl_nil]
    rw [wordEdge_congr A h1 row colStart Right, wordEdge_congr A h1 row colStart Left]
    simp [List.append_assoc]

/-- The recorded run returns the board of `updateForMove` and the calls
`updateCalls`. -/
theorem updateForMoveTraced_eq (A : LetterCodes) (ld : LetterDistribution) (b : Board)
    (m : Move) :
    updateForMoveTraced A (CrossScoreOnlyGenerator.Generate A ld) b m
      = some (updateFold A ld b m, updateCalls A b m) := by
  unfold updateForMoveTraced updateFold updateCalls
  simp only [Move.CoordsAndVertical]
  split
  · rw [calcForAcrossTraced_eq A ld m b (b, []) (sameLetters_refl b)]
    simp only [Option.some_bind, calcForSelfTraced_eq, List.nil_append]
  · rw [calcForSelfTraced_eq]
    simp only [Option.some_bind]
    rw [calcForAcrossTraced_eq A ld m b.Transpose _
      (sameLetters_transpose (foldl_regen_sameLetters A ld _ b))]
    simp only [Option.some_bind, List.nil_append]

theorem loopTargets_nil (n : Nat) (i : Int) (T : Int → List Target)
    (h : ∀ k, i ≤ k → k < i + (n : Int) → T k = []) : loopTargets T n i = [] := by
  induction n generalizing i with
  | zero => rfl
  | succ n ih =>
    simp only [loopTargets]
    rw [h i (le_refl _) (by push_cast; omega),
      ih (i + 1) (fun k h1 h2 => h k (by omega) (by push_cast; omega))]
    rfl

theorem loopTargets_singleton (f : Int → Target) (n : Nat) (i : Int) :
    loopTargets (fun k => [f k]) n i = (List.range n).map (fun k : Nat => f (i + (k : Int))) := by
  induction n generalizing i with
  | zero => rfl
  | succ n ih =>
    simp only [loopTargets, ih, List.range_succ_eq_map, List.map_cons, List.map_map,
      List.singleton_append]
    congr 1
    · simp
    · apply List.map_congr_left
      intro k _
      simp only [Function.comp_apply]
      congr 1
      push_cast
      omega

theorem acrossTargets_all_through (A : LetterCodes) (m : Move) (b : Board) (R C : Int)
    (csd : BoardDirection) (hall : ∀ t ∈ m.Tiles, t = A.PlayedThroughMarker) :
    acrossTargets A m b R C csd = [] := by
  apply loopTargets_nil
  intro k h1 h2
  have hk : (k - R).toNat < m.Tiles.length := by omega
  have : m.Tiles.getD (k - R).toNat 0 = A.PlayedThroughMarker := by
    rw [List.getD_eq_getElem _ _ hk]
    exact hall _ (List.getElem_mem _)
  simp only [acrossRound, this, if_true]

/-- C11 as stated fails: the move that plays through the three tiles of CAT (row 2,
columns 1 to 3) consists only of played-through markers, and `UpdateForMove` calls
`Generate` on five squares, the three interior positions of the word included, not
on the two end squares (2, 0) and (2, 4) alone. -/
theorem C11_through_move_counterexample :
    (∀ t ∈ throughMove.Tiles, t = exampleCodes.PlayedThroughMarker) ∧
    (updateForMoveTraced exampleCodes (CrossScoreOnlyGenerator.Generate exampleCodes exampleDist)
        catBoard throughMove).map Prod.snd
      = some [((2 : Int), (0 : Int), BoardDirection.Horizontal), (2, 1, .Horizontal),
          (2, 2, .Horizontal), (2, 3, .Horizontal), (2, 4, .Horizontal)] := by
  constructor
  · decide
  · rw [updateForMoveTraced_eq]
    decide

/-- C11, amended: for a move whose tiles are all played-through markers,
`UpdateForMove` calls `Generate` exactly on the `len + 2` squares of the line of the
word, from the square just before the first tile to the square just after the last
one, every position of the word included, in that order, and makes no call for the
perpendicular lines. For a vertical move the calls are made on the transposed board:
`Generate(col, r, Vertical)` for `r` from `row - 1` to `row + len`. The board returned
is that of the plain `UpdateForMove`. -/
theorem C11_through_move_calls (A : LetterCodes) (ld : LetterDistribution) (b : Board)
    (m : Move) (hall : ∀ t ∈ m.Tiles, t = A.PlayedThroughMarker) :
    ∃ b1, CrossScoreOnlyGenerator.UpdateForMove A ld b m = some b1 ∧
      updateForMoveTraced A (CrossScoreOnlyGenerator.Generate A ld) b m
        = some (b1, (List.range (m.Tiles.length + 2)).map (fun k : Nat =>
            if m.vertical = true then (m.col, m.row - 1 + (k : Int), BoardDirection.Vertical)
            else (m.row, m.col - 1 + (k : Int), BoardDirection.Horizontal))) := by
  refine ⟨updateFold A ld b m, updateForMove_eq A ld b m, ?_⟩
  rw [updateForMoveTraced_eq]
  congr 2
  unfold updateCalls
  by_cases hv : m.vertical = true
  · simp only [hv, if_true, acrossTargets_all_through A m b _ _ _ hall, List.nil_append,
      selfTargets, loopTargets_singleton]
  · simp only [hv, if_false, acrossTargets_all_through A m b.Transpose _ _ _ hall,
      List.append_nil, selfTargets, loopTargets_singleton]
    simp

/-- Witness for C11, amended: the move through the three tiles of CAT. -/
theorem C11_through_move_calls_witness :
    ∃ b1, CrossScoreOnlyGenerator.UpdateForMove exampleCodes exampleDist catBoard throughMove
        = some b1 ∧
      updateForMoveTraced exampleCodes (CrossScoreOnlyGenerator.Generate exampleCodes exampleDist)
          catBoard throughMove
        = some (b1, (List.range (throughMove.Tiles.length + 2)).map (fun k : Nat =>
            if throughMove.vertical = true then
              (throughMove.col, throughMove.row - 1 + (k : Int), BoardDirection.Vertical)
            else (throughMove.row, throughMove.col - 1 + (k : Int),
              BoardDirection.Horizontal))) :=
  C11_through_move_calls exampleCodes exampleDist catBoard throughMove (by decide)

/-! ## A word on an empty board -/

/-- The score stored above a tile of a horizontal word that stands alone in its
column: the point value of the tile. -/
theorem crossScoreValue_above_tile (A : LetterCodes) (ld : LetterDistribution) (X : Board)
    (c r : Int) (t : MachineLetter)
    (hin : X.posExists c r = true) (hlet : (X.squares c r).letter = t)
    (hreal : t ≠ A.EmptySquareMarker) (hnb : A.IsBlanked t = false)
    (hup : (X.squares c (r - 1)).IsEmpty A = true)
    (hup2 : X.occupied A c (r - 2) = false)
    (hdown : X.occupied A c (r + 1) = false) :
    crossScoreValue A ld X c (r - 1) = ld.PointValue t := by
  have hocc : X.occupied A c r = true := by
    simp [Board.occupied, hin, Square.IsEmpty, hlet, hreal]
  rw [crossScoreValue_eq_sum A ld X c (r - 1) (r - 1) r hup (le_refl _)
    (fun j h1 h2 => by omega) (by rw [show r - 1 - 1 = r - 2 by omega]; exact hup2) (by omega)
    (fun j h1 h2 => by rw [show j = r by omega]; exact hocc) hdown]
  rw [Finset.Icc_eq_empty (by omega), Finset.sum_empty, show r - 1 + 1 = r by omega,
    Finset.Icc_self, Finset.sum_singleton, hlet]
  simp [tileScore, hnb]

/-- C12: a horizontal move of real letters (not blanked, not played-through) placed
on an otherwise empty board at a row `r >= 1`: after `PlaceMoveTiles` and the
score-only `UpdateForMove`, the square directly above each placed tile is empty and
its cross-score on the vertical axis, the axis perpendicular to the word, is the
point value of that tile. -/
theorem C12_score_above_word (A : LetterCodes) (ld : LetterDistribution) (b : Board) (m : Move)
    (hhor : m.vertical = false) (hrow : 1 ≤ m.row) (hon : m.OnBoard b)
    (hemptyBoard : ∀ r c, b.posExists r c = true → (b.squares r c).IsEmpty A = true)
    (hreal : ∀ i : Nat, i < m.Tiles.length →
      m.Tiles.getD i 0 ≠ A.PlayedThroughMarker ∧ m.Tiles.getD i 0 ≠ A.EmptySquareMarker ∧
        A.IsBlanked (m.Tiles.getD i 0) = false) :
    ∃ b1 b2, b.PlaceMoveTiles A m = some b1 ∧
      CrossScoreOnlyGenerator.UpdateForMove A ld b1 m = some b2 ∧
      ∀ i : Nat, i < m.Tiles.length →
        (b2.squares (m.row - 1) (m.col + (i : Int))).IsEmpty A = true ∧
        b2.GetCrossScore (m.row - 1) (m.col + (i : Int)) .Vertical
          = some (ld.PointValue (m.Tiles.getD i 0)) := by
  obtain ⟨b1, hb1⟩ := placeMoveTiles_isSome A b m hon
  obtain ⟨hpl, _, _, _⟩ := placeMoveTiles_spec A b b1 m hb1
  refine ⟨b1, updateFold A ld b1 m, hb1, updateForMove_eq A ld b1 m, fun i hi => ?_⟩
  have hT : ∀ (bb : Board) (x y : Int), bb.Transpose.squares x y = bb.squares y x :=
    fun _ _ _ => rfl
  have hcell : ∀ k, m.tileCell k = (m.row, m.col + (k : Int)) := by
    intro k; simp [Move.tileCell, hhor]
  obtain ⟨hne, hnempty, hnb⟩ := hreal i hi
  -- the square of the tile and the squares of its column on the new layout
  have hpi : b.posExists m.row (m.col + (i : Int)) = true := by
    have := hon i hi
    rwa [hcell] at this
  have hpi1 : b1.posExists m.row (m.col + (i : Int)) = true := by
    rw [← posExists_of_dim_eq hpl.1]; exact hpi
  have hlet : (b1.squares m.row (m.col + (i : Int))).letter = m.Tiles.getD i 0 := by
    have := hpl.2.1 i hi hne
    rwa [hcell] at this
  have hoff : ∀ r c, r ≠ m.row → b1.posExists r c = true →
      (b1.squares r c).IsEmpty A = true := by
    intro r c hr hp
    have : (b1.squares r c).letter = (b.squares r c).letter := by
      apply hpl.2.2 r c
      intro k _ _ hk
      rw [hcell] at hk
      simp only [Prod.mk.injEq] at hk
      exact hr hk.1.symm
    have he := hemptyBoard r c (by rw [posExists_of_dim_eq hpl.1]; exact hp)
    simp only [Square.IsEmpty, decide_eq_true_eq] at he ⊢
    rw [this, he]
  have hoffocc : ∀ r c, r ≠ m.row → b1.occupied A r c = false := by
    intro r c hr
    by_cases hp : b1.posExists r c = true
    · simp [Board.occupied, hoff r c hr hp]
    · simp [Board.occupied, hp]
  have hup : b1.posExists (m.row - 1) (m.col + (i : Int)) = true := by
    have := (posExists_iff b1 m.row (m.col + (i : Int))).mp hpi1
    rw [posExists_iff]
    omega
  have hocc : b1.Transpose.occupied A (m.col + (i : Int)) m.row = true := by
    rw [occupied_transpose, occupied_iff]
    refine ⟨hpi1, ?_⟩
    simp only [Square.IsEmpty, hlet, decide_eq_false_iff_not]
    exact hnempty
  have hwe : b1.Transpose.WordEdge A (m.col + (i : Int)) m.row Left = m.row :=
    wordEdge_left A b1.Transpose (m.col + (i : Int)) m.row m.row (le_refl _)
      (fun j h1 h2 => by rw [show j = m.row by omega]; exact hocc)
      (by rw [occupied_transpose]; exact hoffocc _ _ (by omega))
  have hmem : (m.col + (i : Int), m.row - 1, BoardDirection.Vertical)
      ∈ acrossTargets A m b1.Transpose m.col m.row .Vertical :=
    (mem_acrossTargets A m b1.Transpose m.col m.row .Vertical _ _ _).mpr
      ⟨i, hi, hne, rfl, rfl, Or.inr (Or.inl (by rw [hwe]))⟩
  have hslT : SameLetters b1.Transpose
      (Board.Transpose ((selfTargets m m.row m.col .Horizontal).foldl (regen A ld) b1)) :=
    sameLetters_transpose (foldl_regen_sameLetters A ld _ b1)
  have hpT : (Board.Transpose ((selfTargets m m.row m.col .Horizontal).foldl
      (regen A ld) b1)).posExists (m.col + (i : Int)) (m.row - 1) = true := by
    rw [← posExists_congr hslT, posExists_transpose]; exact hup
  constructor
  · have := updateFold_letter A ld b1 m (m.row - 1) (m.col + (i : Int))
    have he := hoff (m.row - 1) (m.col + (i : Int)) (by omega) hup
    simp only [Square.IsEmpty, decide_eq_true_eq] at he ⊢
    rw [this, he]
  · have hp2 : (updateFold A ld b1 m).posExists (m.row - 1) (m.col + (i : Int)) = true := by
      rw [posExists_of_dim_eq (updateFold_dim A ld b1 m)]; exact hup
    simp only [Board.GetCrossScore, Board.GetSquare, hp2, if_true, Option.map_some',
      Option.some.injEq]
    unfold updateFold
    rw [if_neg (by simp [hhor]), hT, foldl_regen_score, if_pos ⟨hmem, hpT⟩,
      ← crossScoreValue_congr A ld hslT _ _ (by rw [posExists_transpose]; exact hup)]
    exact crossScoreValue_above_tile A ld b1.Transpose (m.col + (i : Int)) m.row
      (m.Tiles.getD i 0) (by rw [posExists_transpose]; exact hpi1) (by rw [hT]; exact hlet)
      hnempty hnb (by rw [hT]; exact hoff _ _ (by omega) hup)
      (by rw [occupied_transpose]; exact hoffocc _ _ (by omega))
      (by rw [occupied_transpose]; exact hoffocc _ _ (by omega))

/-- Witness for C12: CAT at row 8, column 8 of an empty 15 x 15 board; the square
(7, 8) gets the point value of C. -/
theorem C12_score_above_word_witness :
    (∃ b1 b2, emptyBoard15.PlaceMoveTiles exampleCodes catMove88 = some b1 ∧
      CrossScoreOnlyGenerator.UpdateForMove exampleCodes exampleDist b1 catMove88 = some b2 ∧
      ∀ i : Nat, i < catMove88.Tiles.length →
        (b2.squares (catMove88.row - 1) (catMove88.col + (i : Int))).IsEmpty exampleCodes = true ∧
        b2.GetCrossScore (catMove88.row - 1) (catMove88.col + (i : Int)) .Vertical
          = some (exampleDist.PointValue (catMove88.Tiles.getD i 0))) ∧
    exampleDist.PointValue (catMove88.Tiles.getD 0 0) = 3 :=
  ⟨C12_score_above_word exampleCodes exampleDist emptyBoard15 catMove88 (by decide) (by decide)
    (by decide) (fun _ _ _ => rfl) (by decide), by decide⟩

/-! ## The shuffle -/

theorem swapTiles_perm (tiles : List MachineLetter) (ij : Nat × Nat) :
    (swapTiles tiles ij).Perm tiles := by
  unfold swapTiles
  split
  · rename_i h
    obtain ⟨hi, hj⟩ := h
    rw [List.perm_iff_count]
    intro a
    have hj1 : ij.2 < (tiles.set ij.1 (tiles.getD ij.2 0)).length := by
      rw [List.length_set]; exact hj
    rw [List.count_set _ _ _ _ hj1, List.count_set _ _ _ _ hi]
    have e1 : (tiles.set ij.1 (tiles.getD ij.2 0))[ij.2] = tiles[ij.2] := by
      rw [List.getElem_set]
      split
      · rw [List.getD_eq_getElem _ _ hj]
      · rfl
    rw [e1, List.getD_eq_getElem _ _ hj, List.getD_eq_getElem _ _ hi]
    have c1 : (tiles[ij.1] == a) = true → 0 < tiles.count a := by
      intro h
      rw [List.count_pos_iff]
      have : tiles[ij.1] = a := by simpa using h
      rw [← this]
      exact List.getElem_mem _
    by_cases h1 : (tiles[ij.1] == a) = true <;> by_cases h2 : (tiles[ij.2] == a) = true
    · have := c1 h1
      simp only [h1, h2, if_true]
      omega
    · have := c1 h1
      simp only [h1, h2, if_true, if_false, Bool.false_eq_true]
      omega
    · simp only [h1, h2, if_true, if_false, Bool.false_eq_true]
      omega
    · simp only [h1, h2, if_false, Bool.false_eq_true]
      omega
  · exact List.Perm.refl _

theorem foldl_swapTiles_perm (calls : List (Nat × Nat)) (tiles : List MachineLetter) :
    (calls.foldl swapTiles tiles).Perm tiles := by
  induction calls generalizing tiles with
  | nil => exact List.Perm.refl _
  | cons c rest ih =>
    rw [List.foldl_cons]
    exact (ih _).trans (swapTiles_perm tiles c)

theorem shuffle_perm (b : Bag) : b.Shuffle.tiles.Perm b.tiles :=
  foldl_swapTiles_perm _ _

theorem shuffle_length (b : Bag) : b.Shuffle.tiles.length = b.tiles.length :=
  (shuffle_perm b).length_eq

theorem shuffle_tileMap (b : Bag) : b.Shuffle.tileMap = b.tileMap := rfl

theorem shuffle_initialTiles (b : Bag) : b.Shuffle.initialTiles = b.initialTiles := rfl

theorem shuffle_initialTileMap (b : Bag) : b.Shuffle.initialTileMap = b.initialTileMap := rfl

/-! ## Draw, PutBack, Exchange -/

theorem draw_error (b : Bag) (n : Nat) (h : n > b.tiles.length) :
    b.Draw n = (.error (.notEnoughTiles n b.tiles.length), b) := by
  simp [Bag.Draw, h]

theorem draw_ok (b : Bag) (n : Nat) (h : n ≤ b.tiles.length) :
    b.Draw n = (.ok (b.tiles.take n),
      { b with tileMap := (b.tiles.take n).foldl TileMap.decr b.tileMap
               tiles := b.tiles.drop n }) := by
  have : ¬ n > b.tiles.length := by omega
  simp [Bag.Draw, this]

theorem putBack_length (b : Bag) (letters : List MachineLetter) :
    (b.PutBack letters).tiles.length = b.tiles.length + letters.length := by
  unfold Bag.PutBack
  split
  · rename_i h; rw [h]; rfl
  · rw [shuffle_length]; simp

theorem putBack_perm (b : Bag) (letters : List MachineLetter) :
    (b.PutBack letters).tiles.Perm (b.tiles ++ letters) := by
  unfold Bag.PutBack
  split
  · rename_i h
    have : letters = [] := List.length_eq_zero.mp h
    subst this
    simp
  · exact shuffle_perm _

theorem exchange_error (b : Bag) (letters : List MachineLetter)
    (h : letters.length > b.tiles.length) :
    b.Exchange letters = (.error (.notEnoughTiles letters.length b.tiles.length), b) := by
  simp [Bag.Exchange, draw_error b _ h]

theorem exchange_ok (b : Bag) (letters : List MachineLetter)
    (h : letters.length ≤ b.tiles.length) :
    b.Exchange letters = (.ok (b.tiles.take letters.length),
      Bag.PutBack { b with tileMap := (b.tiles.take letters.length).foldl TileMap.decr b.tileMap
                           tiles := b.tiles.drop letters.length } letters) := by
  simp [Bag.Exchange, draw_ok b _ h]

theorem bagCall_run_total (c : BagCall) (s s1 : Bag × Int) (h : c.run s = some s1) :
    (s1.1.TilesRemaining : Int) + s1.2 = (s.1.TilesRemaining : Int) + s.2 := by
  cases c with
  | draw n =>
    simp only [BagCall.run] at h
    by_cases hn : n ≤ s.1.tiles.length
    · rw [draw_ok _ _ hn] at h
      simp only [Option.some.injEq] at h
      subst h
      simp only [Bag.TilesRemaining, List.length_drop, List.length_take]
      omega
    · rw [draw_error _ _ (by omega)] at h
      simp at h
  | putBack letters =>
    simp only [BagCall.run, Option.some.injEq] at h
    subst h
    simp only [Bag.TilesRemaining, putBack_length]
    omega
  | exchange letters =>
    simp only [BagCall.run] at h
    by_cases hn : letters.length ≤ s.1.tiles.length
    · rw [exchange_ok _ _ hn] at h
      simp only [Option.some.injEq] at h
      subst h
      simp only [Bag.TilesRemaining, putBack_length, List.length_drop, List.length_take]
      omega
    · rw [exchange_error _ _ (by omega)] at h
      simp at h

theorem runCalls_total (calls : List BagCall) (s s1 : Bag × Int)
    (h : runCalls calls s = some s1) :
    (s1.1.TilesRemaining : Int) + s1.2 = (s.1.TilesRemaining : Int) + s.2 := by
  induction calls generalizing s with
  | nil =>
    simp only [runCalls, Option.some.injEq] at h
    subst h; rfl
  | cons c rest ih =>
    simp only [runCalls] at h
    cases hc : c.run s with
    | none => rw [hc] at h; simp at h
    | some s2 =>
      rw [hc, Option.some_bind] at h
      rw [ih s2 h, bagCall_run_total c s s2 hc]

theorem runCalls_take (calls : List BagCall) (s : Bag × Int)
    (h : (runCalls calls s).isSome = true) (k : Nat) :
    (runCalls (calls.take k) s).isSome = true := by
  induction calls generalizing s k with
  | nil => simpa using h
  | cons c rest ih =>
    cases k with
    | zero => simp [runCalls]
    | succ k =>
      simp only [List.take_succ_cons, runCalls] at h ⊢
      cases hc : c.run s with
      | none => rw [hc] at h; simp at h
      | some s2 =>
        rw [hc] at h
        rw [Option.some_bind] at h ⊢
        exact ih s2 h k

/-- C13: tile conservation. In a sequence of successful `Draw`, `PutBack` and
`Exchange` calls by a caller who holds every tile drawn and gives up every tile put
back or exchanged, the total of `TilesRemaining` and the number of tiles held is,
after every call, what it was at the start. Call by call: a successful `Draw(n)`
returns `n` tiles and removes `n`, `PutBack(l)` adds `len(l)`, a successful
`Exchange(l)` returns `len(l)` tiles and leaves `TilesRemaining` unchanged. -/
theorem C13_tile_conservation (b : Bag) (held : Int) (calls : List BagCall)
    (hrun : (runCalls calls (b, held)).isSome = true) :
    (∀ k : Nat, ∃ s, runCalls (calls.take k) (b, held) = some s ∧
      (s.1.TilesRemaining : Int) + s.2 = (b.TilesRemaining : Int) + held) ∧
    (∀ (b0 : Bag) (n : Nat) drawn b1, b0.Draw n = (.ok drawn, b1) →
      drawn.length = n ∧ b1.TilesRemaining + n = b0.TilesRemaining) ∧
    (∀ (b0 : Bag) letters, (b0.PutBack letters).TilesRemaining
      = b0.TilesRemaining + letters.length) ∧
    (∀ (b0 : Bag) letters newTiles b1, b0.Exchange letters = (.ok newTiles, b1) →
      newTiles.length = letters.length ∧ b1.TilesRemaining = b0.TilesRemaining) := by
  refine ⟨fun k => ?_, ?_, ?_, ?_⟩
  · have h := runCalls_take calls (b, held) hrun k
    cases hs : runCalls (calls.take k) (b, held) with
    | none => rw [hs] at h; simp at h
    | some s => exact ⟨s, rfl, runCalls_total _ _ _ hs⟩
  · intro b0 n drawn b1 h
    by_cases hn : n ≤ b0.tiles.length
    · rw [draw_ok _ _ hn] at h
      simp only [Prod.mk.injEq, Except.ok.injEq] at h
      obtain ⟨h1, h2⟩ := h
      subst h1 h2
      simp only [Bag.TilesRemaining, List.length_take, List.length_drop]
      omega
    · rw [draw_error _ _ (by omega)] at h
      simp at h
  · intro b0 letters
    exact putBack_length b0 letters
  · intro b0 letters newTiles b1 h
    by_cases hn : letters.length ≤ b0.tiles.length
    · rw [exchange_ok _ _ hn] at h
      simp only [Prod.mk.injEq, Except.ok.injEq] at h
      obtain ⟨h1, h2⟩ := h
      subst h1 h2
      simp only [Bag.TilesRemaining, putBack_length, List.length_take, List.length_drop]
      omega
    · rw [exchange_error _ _ (by omega)] at h
      simp at h

/-- Witness for C13: from a bag of four tiles, draw two, put two back, exchange one. -/
theorem C13_tile_conservation_witness :
    (∀ k : Nat, ∃ s,
      runCalls ([BagCall.draw 2, BagCall.putBack [0, 1], BagCall.exchange [5]].take k)
        (exampleBag, 0) = some s ∧
      (s.1.TilesRemaining : Int) + s.2 = (exampleBag.TilesRemaining : Int) + 0) ∧
    (∀ (b0 : Bag) (n : Nat) drawn b1, b0.Draw n = (.ok drawn, b1) →
      drawn.length = n ∧ b1.TilesRemaining + n = b0.TilesRemaining) ∧
    (∀ (b0 : Bag) letters, (b0.PutBack letters).TilesRemaining
      = b0.TilesRemaining + letters.length) ∧
    (∀ (b0 : Bag) letters newTiles b1, b0.Exchange letters = (.ok newTiles, b1) →
      newTiles.length = letters.length ∧ b1.TilesRemaining = b0.TilesRemaining) :=
  C13_tile_conservation exampleBag 0
    [BagCall.draw 2, BagCall.putBack [0, 1], BagCall.exchange [5]] (by decide)

/-- C14: for `n >= 0`, `Draw(n)` returns an error if and only if `n` exceeds the
number of tiles in the bag, and then the bag (tile sequence and per-letter counts) is
unchanged; otherwise it returns the first `n` tiles of the bag in order and the bag
keeps the remaining tiles in their order. -/
theorem C14_draw (b : Bag) (n : Nat) :
    ((∃ e, (b.Draw n).1 = .error e) ↔ n > b.TilesRemaining) ∧
    (n > b.TilesRemaining → (b.Draw n).2 = b) ∧
    (n ≤ b.TilesRemaining →
      (b.Draw n).1 = .ok (b.tiles.take n) ∧ (b.Draw n).2.tiles = b.tiles.drop n) := by
  unfold Bag.TilesRemaining
  by_cases hn : n ≤ b.tiles.length
  · rw [draw_ok _ _ hn]
    refine ⟨⟨fun ⟨e, he⟩ => by simp at he, fun h => by omega⟩, fun h => by omega,
      fun _ => ⟨rfl, rfl⟩⟩
  · rw [draw_error _ _ (by omega)]
    exact ⟨⟨fun _ => by omega, fun _ => ⟨_, rfl⟩⟩, fun _ => rfl, fun h => by omega⟩

/-- C15: for `n >= 0`, `DrawAtMost(n)` does not fail: its inner `Draw` returns no
error, it returns exactly `min(n, TilesRemaining)` tiles, the first ones of the bag,
and `TilesRemaining` goes down by that number. -/
theorem C15_drawAtMost (b : Bag) (n : Nat) :
    (∃ drawn b1, b.Draw (min n b.TilesRemaining) = (.ok drawn, b1) ∧
      b.DrawAtMost n = (drawn, b1)) ∧
    (b.DrawAtMost n).1 = b.tiles.take (min n b.TilesRemaining) ∧
    (b.DrawAtMost n).1.length = min n b.TilesRemaining ∧
    (b.DrawAtMost n).2.TilesRemaining = b.TilesRemaining - min n b.TilesRemaining := by
  unfold Bag.TilesRemaining
  have hmin : (if n > b.tiles.length then b.tiles.length else n) = min n b.tiles.length := by
    split <;> omega
  have hle : min n b.tiles.length ≤ b.tiles.length := Nat.min_le_right _ _
  have hd : b.DrawAtMost n = (b.tiles.take (min n b.tiles.length),
      { b with tileMap := (b.tiles.take (min n b.tiles.length)).foldl TileMap.decr b.tileMap
               tiles := b.tiles.drop (min n b.tiles.length) }) := by
    unfold Bag.DrawAtMost
    simp only [hmin, draw_ok _ _ hle]
  refine ⟨⟨_, _, draw_ok _ _ hle, hd⟩, ?_, ?_, ?_⟩
  · rw [hd]
  · rw [hd]; simp only [List.length_take]; omega
  · rw [hd]; simp only [List.length_drop]

/-- C16: `Exchange(letters)` fails, leaving the bag unchanged, when the bag holds
fewer than `len(letters)` tiles. Otherwise the tiles it returns are the first
`len(letters)` tiles of the bag as it was before the call, and the bag afterwards is
a permutation of the remaining old tiles together with the exchanged letters. -/
theorem C16_exchange (b : Bag) (letters : List MachineLetter) :
    (b.TilesRemaining < letters.length → ∃ e, b.Exchange letters = (.error e, b)) ∧
    (letters.length ≤ b.TilesRemaining →
      ∃ b1, b.Exchange letters = (.ok (b.tiles.take letters.length), b1) ∧
        b1.tiles.Perm (b.tiles.drop letters.length ++ letters)) := by
  unfold Bag.TilesRemaining
  constructor
  · intro h
    exact ⟨_, exchange_error b letters h⟩
  · intro h
    exact ⟨_, exchange_ok b letters h, putBack_perm _ letters⟩

/-! ## The rack test -/

theorem foldl_incr (l : List MachineLetter) (sm : TileMap) (k : MachineLetter)
    (hk : sm k < 256) : (l.foldl TileMap.incr sm) k = (sm k + l.count k) % 256 := by
  induction l generalizing sm with
  | nil => simp only [List.foldl_nil, List.count_nil, Nat.add_zero]; omega
  | cons a rest ih =>
    rw [List.foldl_cons, ih]
    · simp only [TileMap.incr, List.count_cons]
      by_cases h : k = a
      · subst h
        simp only [if_true, beq_self_eq_true]
        omega
      · have h2 : ¬ (a == k) = true := by simpa using fun e => h e.symm
        simp only [h, h2, if_false, Bool.false_eq_true]
        omega
    · simp only [TileMap.incr]
      split
      · omega
      · exact hk

theorem rackSubmap_eq (A : LetterCodes) (letters : List MachineLetter) (k : MachineLetter) :
    rackSubmap A letters k = (letters.map (blankBucket A)).count k % 256 := by
  have h : rackSubmap A letters = (letters.map (blankBucket A)).foldl TileMap.incr (fun _ => 0) := by
    unfold rackSubmap
    rw [List.foldl_map]
    congr 1
    funext sm ml
    unfold blankBucket
    split <;> rfl
  rw [h, foldl_incr _ _ _ (by omega)]
  simp

theorem hasRack_iff (A : LetterCodes) (b : Bag) (letters : List MachineLetter) :
    b.hasRack A letters = true ↔
      ∀ ml ∈ letters.map (blankBucket A),
        (letters.map (blankBucket A)).count ml % 256 ≤ b.tileMap ml := by
  unfold Bag.hasRack
  simp only [List.all_eq_true, List.mem_dedup, Bool.not_eq_true', decide_eq_false_iff_not,
    rackSubmap_eq, Nat.not_lt]

/-- Without 256 equal letters in the rack, `hasRack` tells whether the rack is in the
bag in its entirety. -/
theorem hasRack_iff_contains (A : LetterCodes) (b : Bag) (letters : List MachineLetter)
    (hsmall : ∀ ml, (letters.map (blankBucket A)).count ml < 256) :
    b.hasRack A letters = true ↔ b.Contains A letters := by
  rw [hasRack_iff]
  unfold Bag.Contains
  constructor
  · intro h ml
    by_cases hm : ml ∈ letters.map (blankBucket A)
    · have := h ml hm
      rwa [Nat.mod_eq_of_lt (hsmall ml)] at this
    · rw [List.count_eq_zero_of_not_mem hm]
      exact Nat.zero_le _
  · intro h ml _
    rw [Nat.mod_eq_of_lt (hsmall ml)]
    exact h ml

/-- C17 fails on the code: for a rack of 256 tiles A and a bag that holds two tiles
A, `hasRack` returns true although the letter A occurs 256 times in the rack and the
count of the bag for A is 2. -/
theorem C17_hasRack_overflow :
    exampleBag.hasRack exampleCodes hugeRack = true ∧
    (hugeRack.map (blankBucket exampleCodes)).count 0 = 256 ∧
    exampleBag.tileMap 0 = 2 ∧
    ¬ exampleBag.Contains exampleCodes hugeRack := by
  have hc : (hugeRack.map (blankBucket exampleCodes)).count 0 = 256 := by
    have : hugeRack.map (blankBucket exampleCodes) = List.replicate 256 0 := by
      unfold hugeRack
      rw [List.map_replicate]
      rfl
    rw [this, List.count_replicate_self]
  refine ⟨?_, hc, by decide, ?_⟩
  · rw [hasRack_iff]
    intro ml hml
    have hml0 : ml = 0 := by
      unfold hugeRack at hml
      rw [List.map_replicate, List.mem_replicate] at hml
      exact hml.2
    subst hml0
    rw [hc]
    exact Nat.zero_le _
  · intro h
    have := h 0
    rw [hc] at this
    have e : exampleBag.tileMap 0 = 2 := by decide
    omega

/-! ## Removing tiles -/

theorem length_flatMap_replicate (order : List MachineLetter) (f : MachineLetter → Nat) :
    (order.flatMap fun l => List.replicate (f l) l).length = (order.map f).sum := by
  induction order with
  | nil => rfl
  | cons a rest ih => simp [ih]

theorem count_flatMap_replicate (order : List MachineLetter) (f : MachineLetter → Nat)
    (x : MachineLetter) (hnd : order.Nodup) :
    (order.flatMap fun l => List.replicate (f l) l).count x = if x ∈ order then f x else 0 := by
  induction order with
  | nil => simp
  | cons a rest ih =>
    rw [List.nodup_cons] at hnd
    rw [List.flatMap_cons, List.count_append, ih hnd.2, List.count_replicate]
    by_cases hxa : x = a
    · subst hxa
      simp [hnd.1]
    · have h2 : ¬ (a == x) = true := by simpa using fun e => hxa e.symm
      simp [hxa, h2]

theorem sum_map_indicator (order : List MachineLetter) (a : MachineLetter) (hnd : order.Nodup)
    (ha : a ∈ order) : (order.map fun k => if a = k then 1 else 0).sum = 1 := by
  induction order with
  | nil => simp at ha
  | cons o rest ih =>
    rw [List.nodup_cons] at hnd
    simp only [List.map_cons, List.sum_cons]
    by_cases hao : a = o
    · subst hao
      have hz : (rest.map fun k => if a = k then 1 else 0).sum = 0 := by
        apply List.sum_eq_zero
        intro x hx
        rw [List.mem_map] at hx
        obtain ⟨k, hk, rfl⟩ := hx
        have : a ≠ k := fun e => hnd.1 (e ▸ hk)
        simp [this]
      simp [hz]
    · have hr : a ∈ rest := by
        rcases List.mem_cons.mp ha with h | h
        · exact absurd h hao
        · exact h
      simp [hao, ih hnd.2 hr]

theorem sum_map_count (order L : List MachineLetter) (hnd : order.Nodup)
    (hall : ∀ x ∈ L, x ∈ order) : (order.map fun k => L.count k).sum = L.length := by
  induction L with
  | nil => simp
  | cons a rest ih =>
    have h1 : (order.map fun k => (a :: rest).count k)
        = order.map fun k => rest.count k + (if a = k then 1 else 0) := by
      apply List.map_congr_left
      intro k _
      rw [List.count_cons]
      by_cases h : a = k
      · simp [h]
      · have h2 : ¬ (a == k) = true := by simpa using h
        simp [h, h2]
    rw [h1, List.sum_map_add, ih (fun x hx => hall x (List.mem_cons_of_mem _ hx)),
      sum_map_indicator order a hnd (hall a (List.mem_cons_self _ _))]
    simp

theorem sum_map_sub (l : List MachineLetter) (f g : MachineLetter → Nat)
    (h : ∀ k ∈ l, g k ≤ f k) :
    (l.map fun k => f k - g k).sum + (l.map g).sum = (l.map f).sum := by
  induction l with
  | nil => rfl
  | cons a rest ih =>
    have h1 := ih (fun k hk => h k (List.mem_cons_of_mem _ hk))
    have h2 := h a (List.mem_cons_self _ _)
    simp only [List.map_cons, List.sum_cons]
    omega

theorem removeEach_eq (A : LetterCodes) (tiles : List MachineLetter) (b : Bag)
    (hb : ∀ k, b.tileMap k < 256) (hc : b.Contains A tiles) :
    Bag.removeEach A tiles b
      = some { b with tileMap := fun k => b.tileMap k - (tiles.map (blankBucket A)).count k } := by
  induction tiles generalizing b with
  | nil => simp [Bag.removeEach]
  | cons t rest ih =>
    have hstep : (if A.IsBlanked t = true then b.remove A.BlankMachineLetter else b.remove t)
        = b.remove (blankBucket A t) := by
      unfold blankBucket
      split <;> rfl
    have hpos : b.tileMap (blankBucket A t) ≠ 0 := by
      have := hc (blankBucket A t)
      simp only [List.map_cons, List.count_cons_self] at this
      omega
    simp only [Bag.removeEach]
    rw [hstep]
    simp only [Bag.remove, hpos, if_false, Option.some_bind]
    rw [ih]
    · congr 2
      funext k
      simp only [TileMap.decr, List.map_cons, List.count_cons]
      by_cases hk : k = blankBucket A t
      · subst hk
        have := hb (blankBucket A t)
        simp only [if_true, beq_self_eq_true]
        omega
      · have h2 : ¬ (blankBucket A t == k) = true := by simpa using fun e => hk e.symm
        simp only [hk, h2, if_false, Bool.false_eq_true]
        omega
    · intro k
      simp only [TileMap.decr]
      split
      · omega
      · exact hb k
    · intro k
      have := hc k
      simp only [List.map_cons, List.count_cons] at this
      simp only [TileMap.decr]
      by_cases hk : k = blankBucket A t
      · subst hk
        have hlt := hb (blankBucket A t)
        simp only [if_true, beq_self_eq_true] at this ⊢
        omega
      · have h2 : ¬ (blankBucket A t == k) = true := by simpa using fun e => hk e.symm
        simp only [hk, h2, if_false, Bool.false_eq_true] at this ⊢
        omega

/-- The number of tiles that `rebuildTileSlice` writes after a removal. -/
theorem written_length (A : LetterCodes) (order tiles : List MachineLetter) (b : Bag)
    (hagree : b.CountsAgree) (horder : KeyOrder b.tileMap order) (hc : b.Contains A tiles) :
    (order.flatMap fun l =>
        List.replicate (b.tileMap l - (tiles.map (blankBucket A)).count l) l).length
        + tiles.length = b.tiles.length := by
  rw [length_flatMap_replicate]
  have h1 : (order.map fun k => b.tileMap k - (tiles.map (blankBucket A)).count k).sum
      + (order.map fun k => (tiles.map (blankBucket A)).count k).sum
      = (order.map b.tileMap).sum :=
    sum_map_sub order b.tileMap (fun k => (tiles.map (blankBucket A)).count k)
      (fun k _ => hc k)
  have h2 : (order.map b.tileMap).sum = b.tiles.length := by
    have : order.map b.tileMap = order.map fun k => b.tiles.count k :=
      List.map_congr_left fun k _ => (hagree k).1
    rw [this]
    apply sum_map_count order b.tiles horder.1
    intro x hx
    apply horder.2
    rw [(hagree x).1]
    exact Nat.ne_of_gt (List.count_pos_iff.mpr hx)
  have h3 : (order.map fun k => (tiles.map (blankBucket A)).count k).sum = tiles.length := by
    rw [sum_map_count order _ horder.1, List.length_map]
    intro x hx
    apply horder.2
    have := hc x
    have hp : 0 < (tiles.map (blankBucket A)).count x := List.count_pos_iff.mpr hx
    omega
  omega

theorem contains_small (A : LetterCodes) (b : Bag) (tiles : List MachineLetter)
    (hagree : b.CountsAgree) (hc : b.Contains A tiles) :
    ∀ ml, (tiles.map (blankBucket A)).count ml < 256 := fun ml =>
  Nat.lt_of_le_of_lt (hc ml) (hagree ml).2

theorem removeTiles_notIn (A : LetterCodes) (order : List MachineLetter) (b : Bag)
    (tiles : List MachineLetter) (h : b.hasRack A tiles = false) :
    b.RemoveTiles A order tiles = some (.error .tilesNotInBag, b) := by
  simp [Bag.RemoveTiles, h]

theorem removeTiles_in (A : LetterCodes) (order : List MachineLetter) (b : Bag)
    (tiles : List MachineLetter) (hagree : b.CountsAgree) (hc : b.Contains A tiles) :
    b.RemoveTiles A order tiles =
      Bag.rebuildTileSlice order
        { b with tileMap := fun k => b.tileMap k - (tiles.map (blankBucket A)).count k }
        ((b.tiles.length : Int) - (tiles.length : Int)) := by
  have hr : b.hasRack A tiles = true :=
    (hasRack_iff_contains A b tiles (contains_small A b tiles hagree hc)).mpr hc
  simp only [Bag.RemoveTiles, hr, Bool.not_true, Bool.false_eq_true, if_false,
    removeEach_eq A tiles b (fun k => (hagree k).2) hc, Option.some_bind]

theorem removeTiles_guard (A : LetterCodes) (order : List MachineLetter) (b : Bag)
    (tiles : List MachineLetter) (hagree : b.CountsAgree) (hc : b.Contains A tiles)
    (hsize : (b.tiles.length : Int) - (tiles.length : Int) > (b.initialTiles.length : Int)) :
    b.RemoveTiles A order tiles = some (.error .moreTilesThanInitial,
      { b with tileMap := fun k => b.tileMap k - (tiles.map (blankBucket A)).count k }) := by
  rw [removeTiles_in A order b tiles hagree hc]
  simp only [Bag.rebuildTileSlice]
  rw [if_pos hsize]

theorem removeTiles_ok (A : LetterCodes) (order : List MachineLetter) (b : Bag)
    (tiles : List MachineLetter) (hagree : b.CountsAgree) (horder : KeyOrder b.tileMap order)
    (hc : b.Contains A tiles)
    (hsize : (b.tiles.length : Int) - (tiles.length : Int) ≤ (b.initialTiles.length : Int)) :
    b.RemoveTiles A order tiles = some (.ok (), Bag.Shuffle
      { b with
        tileMap := fun k => b.tileMap k - (tiles.map (blankBucket A)).count k
        tiles := (order.flatMap fun l =>
          List.replicate (b.tileMap l - (tiles.map (blankBucket A)).count l) l) ++ [] }) := by
  rw [removeTiles_in A order b tiles hagree hc]
  have hlen := written_length A order tiles b hagree horder hc
  have hnum : ((b.tiles.length : Int) - (tiles.length : Int)).toNat
      = (order.flatMap fun l =>
          List.replicate (b.tileMap l - (tiles.map (blankBucket A)).count l) l).length := by
    omega
  simp only [Bag.rebuildTileSlice]
  rw [if_neg (by omega), if_neg (by omega), hnum, if_neg (by omega), Nat.sub_self]
  rfl

/-- C18 as stated fails: a bag created with the single tile A, into which two tiles B
were put back, has counts that agree with its tiles and holds the tile B; yet
`RemoveTiles` of one B returns an error, and it returns it after lowering the count
of B from 2 to 1. -/
theorem C18_removeTiles_counterexample :
    oversizedBag.CountsAgree ∧ oversizedBag.Contains exampleCodes [1] ∧
    oversizedBag.tileMap 1 = 2 ∧
    ∃ b1, oversizedBag.RemoveTiles exampleCodes [0, 1] [1]
        = some (.error .moreTilesThanInitial, b1) ∧ b1.tileMap 1 = 1 := by
  have ht : oversizedBag.tiles = [1, 1, 0] := by decide
  have hm : ∀ ml, oversizedBag.tileMap ml = List.count ml [1, 1, 0] := by
    intro ml
    show TileMap.incr (TileMap.incr (fun k => List.count k [0]) 1) 1 ml = _
    simp only [TileMap.incr]
    by_cases h1 : ml = 1
    · subst h1; decide
    · by_cases h0 : ml = 0
      · subst h0; decide
      · have e1 : ¬ (1 == ml) = true := by simpa using fun e => h1 e.symm
        have e0 : ¬ (0 == ml) = true := by simpa using fun e => h0 e.symm
        simp [h1, List.count_cons, e1, e0]
  have hagree : oversizedBag.CountsAgree := by
    intro ml
    rw [hm, ht]
    exact ⟨rfl, Nat.lt_of_le_of_lt (List.count_le_length _ _) (by decide)⟩
  have hc : oversizedBag.Contains exampleCodes [1] := by
    intro ml
    rw [hm]
    by_cases h1 : ml = 1
    · subst h1; decide
    · have e1 : ¬ (1 == ml) = true := by simpa using fun e => h1 e.symm
      have : ([1].map (blankBucket exampleCodes)).count ml = 0 := by
        have : [1].map (blankBucket exampleCodes) = [1] := by decide
        rw [this]
        simp [List.count_cons, e1]
      omega
  refine ⟨hagree, hc, by rw [hm]; decide, _, removeTiles_guard exampleCodes [0, 1] oversizedBag
    [1] hagree hc (by rw [ht]; decide), ?_⟩
  show oversizedBag.tileMap 1 - ([1].map (blankBucket exampleCodes)).count 1 = 1
  rw [hm]
  decide

/-- C18, amended: for a bag whose per-letter counts agree with its tile sequence and
that would not keep more tiles than its initial tile set
(`len(b.tiles) - len(tiles) <= len(b.initialTiles)`), and a list of tiles in which no
letter occurs 256 times or more after blank normalization, `RemoveTiles` returns (the
process does not end), it returns an error if and only if the tiles are not all in
the bag, and whenever it returns an error the bag is exactly as before the call. -/
theorem C18_removeTiles_error (A : LetterCodes) (order : List MachineLetter) (b : Bag)
    (tiles : List MachineLetter) (hagree : b.CountsAgree) (horder : KeyOrder b.tileMap order)
    (hsmall : ∀ ml, (tiles.map (blankBucket A)).count ml < 256)
    (hsize : (b.tiles.length : Int) - (tiles.length : Int) ≤ (b.initialTiles.length : Int)) :
    ∃ r b1, b.RemoveTiles A order tiles = some (r, b1) ∧
      ((∃ e, r = .error e) ↔ ¬ b.Contains A tiles) ∧
      ((∃ e, r = .error e) → b1 = b) := by
  by_cases hc : b.Contains A tiles
  · refine ⟨_, _, removeTiles_ok A order b tiles hagree horder hc hsize, ?_, ?_⟩
    · constructor
      · rintro ⟨e, he⟩; cases he
      · intro h; exact absurd hc h
    · rintro ⟨e, he⟩; cases he
  · have hr : b.hasRack A tiles = false := by
      have := (hasRack_iff_contains A b tiles hsmall).not.mpr hc
      simpa using this
    exact ⟨_, _, removeTiles_notIn A order b tiles hr, ⟨fun _ => hc, fun _ => ⟨_, rfl⟩⟩,
      fun _ => rfl⟩

theorem exampleBag_countsAgree : exampleBag.CountsAgree := fun _ =>
  ⟨rfl, Nat.lt_of_le_of_lt (List.count_le_length _ _) (by decide)⟩

theorem exampleBag_keyOrder : KeyOrder exampleBag.tileMap [0, 1, 2] := by
  refine ⟨by decide, fun ml h => ?_⟩
  have hm : ml ∈ [0, 0, 1, 2] := List.count_pos_iff.mp (Nat.pos_of_ne_zero h)
  simp only [List.mem_cons, List.mem_singleton, List.not_mem_nil, or_false] at hm ⊢
  rcases hm with h | h | h | h
  · exact Or.inl h
  · exact Or.inl h
  · exact Or.inr (Or.inl h)
  · exact Or.inr (Or.inr h)

/-- Witness for C18, amended: the bag A, A, B, C and the tiles A, F. -/
theorem C18_removeTiles_error_witness :
    ∃ r b1, exampleBag.RemoveTiles exampleCodes [0, 1, 2] [0, 5] = some (r, b1) ∧
      ((∃ e, r = .error e) ↔ ¬ exampleBag.Contains exampleCodes [0, 5]) ∧
      ((∃ e, r = .error e) → b1 = exampleBag) :=
  C18_removeTiles_error exampleCodes [0, 1, 2] exampleBag [0, 5] exampleBag_countsAgree
    exampleBag_keyOrder
    (fun _ => Nat.lt_of_le_of_lt (List.count_le_length _ _) (by decide)) (by decide)

/-- C19: for a bag whose per-letter counts agree with its tile sequence and a list
of tiles contained in the bag, `RemoveTiles` returns, and it is successful exactly
when the bag would not keep more tiles than its initial tile set. When successful it
lowers the count of each letter by the number of times the letter occurs in the
blank-normalized list, lowers `TilesRemaining` by `len(tiles)`, and leaves a tile
sequence that holds each letter exactly as many times as its new count. -/
theorem C19_removeTiles_success (A : LetterCodes) (order : List MachineLetter) (b : Bag)
    (tiles : List MachineLetter) (hagree : b.CountsAgree) (horder : KeyOrder b.tileMap order)
    (hc : b.Contains A tiles) :
    ∃ r b1, b.RemoveTiles A order tiles = some (r, b1) ∧
      (r = .ok () ↔
        (b.tiles.length : Int) - (tiles.length : Int) ≤ (b.initialTiles.length : Int)) ∧
      (r = .ok () →
        (∀ ml, b1.tileMap ml = b.tileMap ml - (tiles.map (blankBucket A)).count ml) ∧
        b1.TilesRemaining + tiles.length = b.TilesRemaining ∧
        ∀ ml, b1.tiles.count ml = b1.tileMap ml) := by
  by_cases hsize : (b.tiles.length : Int) - (tiles.length : Int) ≤ (b.initialTiles.length : Int)
  · refine ⟨_, _, removeTiles_ok A order b tiles hagree horder hc hsize,
      ⟨fun _ => hsize, fun _ => rfl⟩, fun _ => ⟨fun ml => rfl, ?_, fun ml => ?_⟩⟩
    · have := written_length A order tiles b hagree horder hc
      simp only [Bag.TilesRemaining, shuffle_length, List.append_nil]
      exact this
    · rw [(shuffle_perm _).count_eq, shuffle_tileMap]
      simp only [List.append_nil]
      rw [count_flatMap_replicate _ _ _ horder.1]
      by_cases hm : ml ∈ order
      · rw [if_pos hm]
      · rw [if_neg hm]
        have : b.tileMap ml = 0 := by
          by_contra h
          exact hm (horder.2 ml h)
        rw [this, Nat.zero_sub]
  · refine ⟨_, _, removeTiles_guard A order b tiles hagree hc (by omega), ?_, ?_⟩
    · constructor
      · intro h; cases h
      · intro h; exact absurd h hsize
    · intro h; cases h

/-- Witness for C19: the bag A, A, B, C and the tiles A, C. -/
theorem C19_removeTiles_success_witness :
    ∃ r b1, exampleBag.RemoveTiles exampleCodes [0, 1, 2] [0, 2] = some (r, b1) ∧
      (r = .ok () ↔
        (exampleBag.tiles.length : Int) - (([0, 2] : List MachineLetter).length : Int)
          ≤ (exampleBag.initialTiles.length : Int)) ∧
      (r = .ok () →
        (∀ ml, b1.tileMap ml
          = exampleBag.tileMap ml - (([0, 2] : List MachineLetter).map
              (blankBucket exampleCodes)).count ml) ∧
        b1.TilesRemaining + ([0, 2] : List MachineLetter).length = exampleBag.TilesRemaining ∧
        ∀ ml, b1.tiles.count ml = b1.tileMap ml) :=
  C19_removeTiles_success exampleCodes [0, 1, 2] exampleBag [0, 2] exampleBag_countsAgree
    exampleBag_keyOrder (fun ml => by
      show List.count ml [0, 2] ≤ List.count ml [0, 0, 1, 2]
      exact List.Sublist.count_le (by decide) ml)

/-! ## Refilling the bag -/

theorem sameInitial_refl (b : Bag) : SameInitial b b := ⟨rfl, rfl⟩

theorem sameInitial_trans {b b1 b2 : Bag} (h : SameInitial b b1) (h1 : SameInitial b1 b2) :
    SameInitial b b2 := ⟨h1.1.trans h.1, h1.2.trans h.2⟩

theorem sameInitial_shuffle (b : Bag) : SameInitial b b.Shuffle := ⟨rfl, rfl⟩

theorem sameInitial_draw (b : Bag) (n : Nat) : SameInitial b (b.Draw n).2 := by
  unfold Bag.Draw
  split
  · exact sameInitial_refl b
  · exact ⟨rfl, rfl⟩

theorem sameInitial_putBack (b : Bag) (letters : List MachineLetter) :
    SameInitial b (b.PutBack letters) := by
  unfold Bag.PutBack
  split
  · exact sameInitial_refl b
  · exact ⟨rfl, rfl⟩

theorem sameInitial_drawAtMost (b : Bag) (n : Nat) : SameInitial b (b.DrawAtMost n).2 := by
  have h := sameInitial_draw b (if n > b.tiles.length then b.tiles.length else n)
  unfold Bag.DrawAtMost
  simp only
  split
  · rename_i e; rw [e] at h; exact h
  · rename_i e; rw [e] at h; exact h

theorem sameInitial_exchange (b : Bag) (letters : List MachineLetter) :
    SameInitial b (b.Exchange letters).2 := by
  have h := sameInitial_draw b letters.length
  unfold Bag.Exchange
  split
  · rename_i e; rw [e] at h; exact h
  · rename_i e
    rw [e] at h
    exact sameInitial_trans h (sameInitial_putBack _ letters)

theorem sameInitial_removeEach (A : LetterCodes) (tiles : List MachineLetter) (b b1 : Bag)
    (h : Bag.removeEach A tiles b = some b1) : SameInitial b b1 := by
  induction tiles generalizing b with
  | nil =>
    simp only [Bag.removeEach, Option.some.injEq] at h
    subst h
    exact sameInitial_refl b
  | cons t rest ih =>
    simp only [Bag.removeEach] at h
    have hrem : ∀ x b2, b.remove x = some b2 → SameInitial b b2 := by
      intro x b2 hx
      unfold Bag.remove at hx
      split at hx
      · simp at hx
      · simp only [Option.some.injEq] at hx
        subst hx
        exact ⟨rfl, rfl⟩
    cases hs : (if A.IsBlanked t = true then b.remove A.BlankMachineLetter else b.remove t) with
    | none => rw [hs] at h; simp at h
    | some b2 =>
      rw [hs, Option.some_bind] at h
      have h2 : SameInitial b b2 := by
        split at hs
        · exact hrem _ _ hs
        · exact hrem _ _ hs
      exact sameInitial_trans h2 (ih b2 h)

theorem sameInitial_rebuild (order : List MachineLetter) (b : Bag) (num : Int)
    (r : Except BagError Unit) (b1 : Bag)
    (h : b.rebuildTileSlice order num = some (r, b1)) : SameInitial b b1 := by
  unfold Bag.rebuildTileSlice at h
  split at h
  · simp only [Option.some.injEq, Prod.mk.injEq] at h
    rw [← h.2]
    exact sameInitial_refl b
  · split at h
    · simp at h
    · simp only at h
      split at h
      · simp at h
      · simp only [Option.some.injEq, Prod.mk.injEq] at h
        rw [← h.2]
        exact ⟨rfl, rfl⟩

theorem sameInitial_removeTiles (A : LetterCodes) (order tiles : List MachineLetter)
    (b : Bag) (r : Except BagError Unit) (b1 : Bag)
    (h : b.RemoveTiles A order tiles = some (r, b1)) : SameInitial b b1 := by
  unfold Bag.RemoveTiles at h
  split at h
  · simp only [Option.some.injEq, Prod.mk.injEq] at h
    rw [← h.2]
    exact sameInitial_refl b
  · cases hs : Bag.removeEach A tiles b with
    | none => rw [hs] at h; simp at h
    | some b2 =>
      rw [hs, Option.some_bind] at h
      exact sameInitial_trans (sameInitial_removeEach A tiles b b2 hs)
        (sameInitial_rebuild order b2 _ r b1 h)

theorem sameInitial_apply (A : LetterCodes) (op : BagOp) (b b1 : Bag)
    (h : op.apply A b = some b1) : SameInitial b b1 := by
  cases op with
  | draw n =>
    simp only [BagOp.apply, Option.some.injEq] at h
    subst h; exact sameInitial_draw b n
  | drawAtMost n =>
    simp only [BagOp.apply, Option.some.injEq] at h
    subst h; exact sameInitial_drawAtMost b n
  | putBack letters =>
    simp only [BagOp.apply, Option.some.injEq] at h
    subst h; exact sameInitial_putBack b letters
  | exchange letters =>
    simp only [BagOp.apply, Option.some.injEq] at h
    subst h; exact sameInitial_exchange b letters
  | removeTiles order tiles =>
    simp only [BagOp.apply] at h
    cases hr : b.RemoveTiles A order tiles with
    | none => rw [hr] at h; simp at h
    | some p =>
      rw [hr] at h
      simp only [Option.map_some', Option.some.injEq] at h
      subst h
      exact sameInitial_removeTiles A order tiles b p.1 p.2 hr
  | refill =>
    simp only [BagOp.apply, Option.some.injEq] at h
    subst h
    exact ⟨rfl, rfl⟩

theorem sameInitial_runOps (A : LetterCodes) (ops : List BagOp) (b b1 : Bag)
    (h : runOps A ops b = some b1) : SameInitial b b1 := by
  induction ops generalizing b with
  | nil =>
    simp only [runOps, Option.some.injEq] at h
    subst h
    exact sameInitial_refl b
  | cons op rest ih =>
    simp only [runOps] at h
    cases hs : op.apply A b with
    | none => rw [hs] at h; simp at h
    | some b2 =>
      rw [hs, Option.some_bind] at h
      exact sameInitial_trans (sameInitial_apply A op b b2 hs) (ih b2 h)

/-- C20: whatever calls of `Draw`, `DrawAtMost`, `PutBack`, `Exchange`, `RemoveTiles`
and `Refill` came before, `Refill` restores the bag to its initial contents: the tile
sequence afterwards is a permutation of the initial tiles and the count of every
letter is its initial count. The initial tiles and counts are those that `NewBag`
gave the bag: a new bag holds its initial tiles and counts. -/
theorem C20_refill_restores (A : LetterCodes) (b : Bag) (ops : List BagOp)
    (hrun : (runOps A ops b).isSome = true) :
    (∃ b1, runOps A ops b = some b1 ∧
      b1.Refill.tiles.Perm b.initialTiles ∧
      (∀ ml, b1.Refill.tileMap ml = b.initialTileMap ml) ∧
      SameInitial b b1.Refill) ∧
    (∀ ld numLetters order rs b0, NewBag ld numLetters order rs = some b0 →
      b0.initialTiles = b0.tiles ∧ b0.initialTileMap = b0.tileMap) := by
  constructor
  · cases hs : runOps A ops b with
    | none => rw [hs] at hrun; simp at hrun
    | some b1 =>
      have hi := sameInitial_runOps A ops b b1 hs
      refine ⟨b1, rfl, ?_, ?_, ?_⟩
      · have := shuffle_perm { b1 with tiles := [] ++ b1.initialTiles,
                                       tileMap := copyTileMap b1.initialTileMap }
        rw [← hi.1]
        simpa [Bag.Refill] using this
      · intro ml
        rw [← hi.2]
        rfl
      · exact sameInitial_trans hi ⟨rfl, rfl⟩
  · intro ld numLetters order rs b0 h
    unfold NewBag at h
    simp only at h
    split at h
    · simp at h
    · simp only [Option.some.injEq] at h
      subst h
      exact ⟨rfl, rfl⟩

/-- Witness for C20: draw two tiles, put a tile H back, remove the tile B, exchange a
tile D, then refill. -/
theorem C20_refill_restores_witness :
    (∃ b1, runOps exampleCodes
        [BagOp.draw 2, BagOp.putBack [7], BagOp.removeTiles [7, 1, 2, 0] [1],
          BagOp.exchange [3]] exampleBag = some b1 ∧
      b1.Refill.tiles.Perm exampleBag.initialTiles ∧
      (∀ ml, b1.Refill.tileMap ml = exampleBag.initialTileMap ml) ∧
      SameInitial exampleBag b1.Refill) ∧
    (∀ ld numLetters order rs b0, NewBag ld numLetters order rs = some b0 →
      b0.initialTiles = b0.tiles ∧ b0.initialTileMap = b0.tileMap) :=
  C20_refill_restores exampleCodes exampleBag
    [BagOp.draw 2, BagOp.putBack [7], BagOp.removeTiles [7, 1, 2, 0] [1], BagOp.exchange [3]]
    (by decide)

/-! ## Copy and CopyFrom -/

theorem copy_tiles (b : Bag) (r : Option RandSource) : (b.Copy r).tiles = b.tiles := rfl

theorem copy_tileMap (b : Bag) (r : Option RandSource) (ml : MachineLetter) :
    (b.Copy r).tileMap ml = b.tileMap ml := rfl

theorem copyFrom_tiles (a other : Bag) : (a.CopyFrom other).tiles = other.tiles := by
  unfold Bag.CopyFrom
  split
  · rename_i h
    exact (List.length_eq_zero.mp h).symm
  · rfl

theorem copyFrom_tileMap_nonempty (a other : Bag) (h : other.tiles ≠ []) (ml : MachineLetter) :
    (a.CopyFrom other).tileMap ml = other.tileMap ml := by
  unfold Bag.CopyFrom
  rw [if_neg (fun h0 => h (List.length_eq_zero.mp h0))]
  rfl

theorem copyFrom_tileMap_empty (a other : Bag) (h : other.tiles = []) (ml : MachineLetter) :
    (a.CopyFrom other).tileMap ml = 0 := by
  unfold Bag.CopyFrom
  rw [if_pos (by rw [h]; rfl)]

/-- C21 as stated fails: the bag reached by `PutBack`, a `RemoveTiles` that returns
the error of `rebuildTileSlice`, and `Draw` holds no tiles and the count 255 for B;
its copy made by `Copy` has the same tiles and counts, and after `CopyFrom` of that
copy the count of B is 0, not 255. -/
theorem C21_copyFrom_counterexample :
    (driftedBag.Copy none).tiles = [] ∧
    (driftedBag.Copy none).tileMap 1 = 255 ∧
    (exampleBag.CopyFrom (driftedBag.Copy none)).tileMap 1 = 0 := by
  refine ⟨by decide, by decide, by decide⟩

/-- C21, amended: `b.Copy(r)` has the tile sequence of `b` and the count of `b` for
every letter. For a bag `other` created by `Copy`, after `a.CopyFrom(other)` the tile
sequence of `a` is that of `other`; the count of every letter in `a` is its count in
`other` when `other` holds at least one tile or the counts of `other` agree with its
tile sequence, also when `other` holds no tiles; and when `other` holds no tiles
every count of `a` is 0. -/
theorem C21_copy_copyFrom (b a c : Bag) (r r1 : Option RandSource)
    (hc : c.tiles ≠ [] ∨ c.CountsAgree) :
    ((b.Copy r).tiles = b.tiles ∧ ∀ ml, (b.Copy r).tileMap ml = b.tileMap ml) ∧
    (a.CopyFrom (c.Copy r1)).tiles = (c.Copy r1).tiles ∧
    (∀ ml, (a.CopyFrom (c.Copy r1)).tileMap ml = (c.Copy r1).tileMap ml) ∧
    ((c.Copy r1).tiles = [] → ∀ ml, (a.CopyFrom (c.Copy r1)).tileMap ml = 0) := by
  refine ⟨⟨rfl, fun _ => rfl⟩, copyFrom_tiles a _, fun ml => ?_,
    fun h ml => copyFrom_tileMap_empty a _ h ml⟩
  by_cases hne : (c.Copy r1).tiles = []
  · rw [copyFrom_tileMap_empty a _ hne, copy_tileMap]
    rw [copy_tiles] at hne
    rcases hc with h | h
    · exact absurd hne h
    · rw [(h ml).1, hne]
      rfl
  · exact copyFrom_tileMap_nonempty a _ hne ml

/-- Witness for C21, amended: a bag without tiles whose counts are all zero. -/
theorem C21_copy_copyFrom_witness :
    ((exampleBag.Copy none).tiles = exampleBag.tiles ∧
      ∀ ml, (exampleBag.Copy none).tileMap ml = exampleBag.tileMap ml) ∧
    (exampleBag.CopyFrom (emptiedBag.Copy none)).tiles = (emptiedBag.Copy none).tiles ∧
    (∀ ml, (exampleBag.CopyFrom (emptiedBag.Copy none)).tileMap ml
      = (emptiedBag.Copy none).tileMap ml) ∧
    ((emptiedBag.Copy none).tiles = [] →
      ∀ ml, (exampleBag.CopyFrom (emptiedBag.Copy none)).tileMap ml = 0) :=
  C21_copy_copyFrom exampleBag exampleBag emptiedBag none none
    (Or.inr (fun _ => ⟨rfl, Nat.zero_lt_succ 255⟩))

end Cwgame
